import Mathlib

/-!
Packed storage of triangular and symmetric matrices (`scitbx/matrix/packed.h`).

A shallow embedding of the index accessors, of the dimension recovery and of the
packed/dense conversions, followed by the properties proved about them.

Conventions of the embedding.

* `unsigned` is a 32-bit machine integer: every `unsigned` operation of the source is
  written with an explicit reduction modulo `2 ^ 32` (`u32`, `u32_sub`).
* `std::size_t` values index buffers that exist in memory; they are natural numbers.
* A buffer is a `List`.  A read outside the buffer is the failure `Error.out_of_bounds`.
  A result buffer allocated with `init_functor_null` is a list of `Option` cells that
  starts all `none`; it is handed back through `freeze`, which fails with
  `Error.uninitialised` when a cell was never written.
* Exceptions (`SCITBX_ASSERT`, `std::runtime_error`) are values of `Except Error`.
-/

namespace scitbx.matrix

/-! ## Definitions -/

/-- Failures of the routines: the `SCITBX_ASSERT`s on the shape, on the packed size and on
the tolerance (`relative_eps > 0`), the asymmetry `std::runtime_error`, and the two memory
faults made explicit by the embedding. -/
inductive Error where
  | not_square
  | size_mismatch
  | not_symmetric
  | out_of_bounds
  | uninitialised
  | tolerance_not_positive
  deriving DecidableEq, Repr

/-- Reduction of a natural number to the range of `unsigned`. -/
def u32 (x : Nat) : Nat := x % 2 ^ 32

/-- Subtraction of two `unsigned` values (both below `2 ^ 32`), wrapping around. -/
def u32_sub (x y : Nat) : Nat := (x + 2 ^ 32 - y) % 2 ^ 32

/-- Accessor for the upper diagonal of a square matrix packed by row; it carries only
the dimension `n` (an `unsigned`). -/
structure packed_u_accessor where
  n : Nat
  deriving DecidableEq, Repr

/-- Source: `size_1d() const { return n*(n+1)/2; }`, evaluated in `unsigned`. -/
def packed_u_accessor.size_1d (acc : packed_u_accessor) : Nat :=
  u32 (acc.n * u32 (acc.n + 1)) / 2

/-- Source: `operator()(unsigned i, unsigned j)`, returning `i*(n-1) - i*(i-1)/2 + j`
evaluated in `unsigned`. -/
def packed_u_accessor.call (acc : packed_u_accessor) (i j : Nat) : Nat :=
  u32 (u32_sub (u32 (i * u32_sub acc.n 1)) (u32 (i * u32_sub i 1) / 2) + j)

/-- Accessor for the lower diagonal of a square matrix packed by row. -/
structure packed_l_accessor where
  n : Nat
  deriving DecidableEq, Repr

/-- Source: `size_1d() const { return n*(n+1)/2; }`, evaluated in `unsigned`. -/
def packed_l_accessor.size_1d (acc : packed_l_accessor) : Nat :=
  u32 (acc.n * u32 (acc.n + 1)) / 2

/-- Source: `operator()(unsigned i, unsigned j)`, returning `i*(i+1)/2 + j` evaluated in
`unsigned`. -/
def packed_l_accessor.call (_acc : packed_l_accessor) (i j : Nat) : Nat :=
  u32 (u32 (i * u32 (i + 1)) / 2 + j)

/-- Source: `symmetric_n_from_packed_size`.  The double-precision expression
`(sqrt(1.0 + 8.0*packed_size) - 1.0)/2.0 + 0.5` is evaluated exactly and truncated
(`floor_sqrt_expression` below shows that this is `Nat.sqrt (1 + 8 * packed_size) / 2`),
the cast to `unsigned` reduces modulo `2 ^ 32`, and the asserted comparison computes
`n*(n+1)/2` in `unsigned` before comparing it with the `std::size_t` argument. -/
def symmetric_n_from_packed_size (packed_size : Nat) : Except Error Nat :=
  let n := u32 (Nat.sqrt (1 + 8 * packed_size) / 2)
  if u32 (n * u32 (n + 1)) / 2 = packed_size then .ok n else .error .size_mismatch

/-- Number of packed-upper entries stored before row `i` of an `n` by `n` matrix: row
`k` contributes `n - k` entries. -/
def row_start_u (n : Nat) : Nat → Nat
  | 0 => 0
  | i + 1 => row_start_u n i + (n - i)

/-- Number of packed-lower entries stored before row `i`: row `k` contributes `k + 1`
entries. -/
def row_start_l : Nat → Nat
  | 0 => 0
  | i + 1 => row_start_l i + (i + 1)

/-- Dense matrix in row-major order together with its `c_grid<2>` accessor
(`af::versa<FloatType, af::c_grid<2> >` and `af::const_ref<FloatType, af::c_grid<2> >`):
element `(i, j)` is `data[i * n_columns + j]`. -/
structure versa (α : Type) where
  n_rows : Nat
  n_columns : Nat
  data : List α

/-- Local variables of the conversion routines, named as in the source; each routine
uses the ones it declares.  `r` is the offset of the write pointer `r` (or `result`) from
the start of the result buffer, `result` is the buffer itself. -/
structure vars (α : Type) where
  i_a : Nat
  i0 : Nat
  ij : Nat
  jnpi : Nat
  r : Nat
  result : List (Option α)

/-- Read `a[k]`. -/
def read {α : Type} (a : List α) (k : Nat) : Except Error α :=
  match a[k]? with
  | some v => .ok v
  | none => .error .out_of_bounds

/-- Store `v` in cell `k` of a result buffer. -/
def write {α : Type} (buf : List (Option α)) (k : Nat) (v : α) :
    Except Error (List (Option α)) :=
  if k < buf.length then .ok (buf.set k (some v)) else .error .out_of_bounds

/-- Hand a result buffer back to the caller: every cell must have been written. -/
def freeze {α : Type} : List (Option α) → Except Error (List α)
  | [] => .ok []
  | none :: _ => .error .uninitialised
  | some v :: t =>
    match freeze t with
    | .ok l => .ok (v :: l)
    | .error e => .error e

/-- The loop `for (k = i; k < i + count; k++) s = body(k, s)`, stopping at the first
failure. -/
def for_loop {σ : Type} (body : Nat → σ → Except Error σ) :
    Nat → Nat → σ → Except Error σ
  | _, 0, s => .ok s
  | i, count + 1, s =>
    match body i s with
    | .ok s' => for_loop body (i + 1) count s'
    | .error e => .error e

/-- Body of the inner loop of `upper_triangle_as_packed_u`: `*r++ = a[ij++];`. -/
def upper_triangle_as_packed_u_cell {α : Type} (a : List α) (_j : Nat) (s : vars α) :
    Except Error (vars α) := do
  let v ← read a s.ij
  let res ← write s.result s.r v
  .ok { s with ij := s.ij + 1, r := s.r + 1, result := res }

/-- Body of the outer loop of `upper_triangle_as_packed_u`: `ij += i;` then the loop
`for (j = i; j < n; j++)`. -/
def upper_triangle_as_packed_u_row {α : Type} (a : List α) (n i : Nat) (s : vars α) :
    Except Error (vars α) :=
  for_loop (upper_triangle_as_packed_u_cell a) i (n - i) { s with ij := s.ij + i }

/-- Source: `upper_triangle_as_packed_u`. -/
def upper_triangle_as_packed_u {α : Type} (a : versa α) : Except Error (List α) :=
  if a.n_rows ≠ a.n_columns then .error .not_square
  else do
    let n := a.n_rows
    let s ← for_loop (upper_triangle_as_packed_u_row a.data n) 0 n
      ⟨0, 0, 0, 0, 0, List.replicate (n * (n + 1) / 2) none⟩
    freeze s.result

/-- Body of the inner loop of `lower_triangle_as_packed_l`: `*r++ = a[ij++];`. -/
def lower_triangle_as_packed_l_cell {α : Type} (a : List α) (_j : Nat) (s : vars α) :
    Except Error (vars α) := do
  let v ← read a s.ij
  let res ← write s.result s.r v
  .ok { s with ij := s.ij + 1, r := s.r + 1, result := res }

/-- Body of the outer loop of `lower_triangle_as_packed_l`: `ij = i0;`, the loop
`for (j = 0; j <= i; j++)`, then `i0 += n;`. -/
def lower_triangle_as_packed_l_row {α : Type} (a : List α) (n i : Nat) (s : vars α) :
    Except Error (vars α) := do
  let s1 ← for_loop (lower_triangle_as_packed_l_cell a) 0 (i + 1) { s with ij := s.i0 }
  .ok { s1 with i0 := s1.i0 + n }

/-- Source: `lower_triangle_as_packed_l`. -/
def lower_triangle_as_packed_l {α : Type} (a : versa α) : Except Error (List α) :=
  if a.n_rows ≠ a.n_columns then .error .not_square
  else do
    let n := a.n_rows
    let s ← for_loop (lower_triangle_as_packed_l_row a.data n) 0 n
      ⟨0, 0, 0, 0, 0, List.replicate (n * (n + 1) / 2) none⟩
    freeze s.result

/-- Loop body `r[ij++] = 0;` of the zero-filled expansions. -/
def zero_cell {α : Type} [Zero α] (_j : Nat) (s : vars α) : Except Error (vars α) := do
  let res ← write s.result s.ij 0
  .ok { s with ij := s.ij + 1, result := res }

/-- Loop body `r[ij++] = a[i_a++];` of the zero-filled expansions. -/
def copy_cell {α : Type} (a : List α) (_j : Nat) (s : vars α) : Except Error (vars α) := do
  let v ← read a s.i_a
  let res ← write s.result s.ij v
  .ok { s with i_a := s.i_a + 1, ij := s.ij + 1, result := res }

/-- Body of the outer loop of `packed_u_as_upper_triangle`: `for (;j<i;j++) r[ij++] = 0;`
then `for (;j<n;j++) r[ij++] = a[i_a++];`, with `j` starting at `0`. -/
def packed_u_as_upper_triangle_row {α : Type} [Zero α] (a : List α) (n i : Nat)
    (s : vars α) : Except Error (vars α) := do
  let s1 ← for_loop zero_cell 0 i s
  for_loop (copy_cell a) i (n - i) s1

/-- Source: `packed_u_as_upper_triangle`. -/
def packed_u_as_upper_triangle {α : Type} [Zero α] (a : List α) :
    Except Error (versa α) := do
  let n ← symmetric_n_from_packed_size a.length
  let s ← for_loop (packed_u_as_upper_triangle_row a n) 0 n
    ⟨0, 0, 0, 0, 0, List.replicate (n * n) none⟩
  let data ← freeze s.result
  .ok ⟨n, n, data⟩

/-- Body of the outer loop of `packed_l_as_lower_triangle`:
`for (;j<=i;j++) r[ij++] = a[i_a++];` then `for (;j<n;j++) r[ij++] = 0;`, with `j`
starting at `0`. -/
def packed_l_as_lower_triangle_row {α : Type} [Zero α] (a : List α) (n i : Nat)
    (s : vars α) : Except Error (vars α) := do
  let s1 ← for_loop (copy_cell a) 0 (i + 1) s
  for_loop zero_cell (i + 1) (n - (i + 1)) s1

/-- Source: `packed_l_as_lower_triangle`. -/
def packed_l_as_lower_triangle {α : Type} [Zero α] (a : List α) :
    Except Error (versa α) := do
  let n ← symmetric_n_from_packed_size a.length
  let s ← for_loop (packed_l_as_lower_triangle_row a n) 0 n
    ⟨0, 0, 0, 0, 0, List.replicate (n * n) none⟩
  let data ← freeze s.result
  .ok ⟨n, n, data⟩

/-- Loop body `r[ij++] = r[jnpi] = a[i_a++];` with the increment `jnpi += n` of the
mirrored expansions. -/
def mirror_cell {α : Type} (a : List α) (n : Nat) (_j : Nat) (s : vars α) :
    Except Error (vars α) := do
  let v ← read a s.i_a
  let res1 ← write s.result s.jnpi v
  let res2 ← write res1 s.ij v
  .ok { s with i_a := s.i_a + 1, ij := s.ij + 1, jnpi := s.jnpi + n, result := res2 }

/-- Body of the outer loop of `packed_u_as_symmetric`: `ij += i;`, `jnpi = ij+n;`,
`r[ij++] = a[i_a++];`, then the loop `for (j = i+1; j < n; j++, jnpi += n)`. -/
def packed_u_as_symmetric_row {α : Type} (a : List α) (n i : Nat) (s : vars α) :
    Except Error (vars α) := do
  let ij := s.ij + i
  let jnpi := ij + n
  let v ← read a s.i_a
  let res ← write s.result ij v
  for_loop (mirror_cell a n) (i + 1) (n - (i + 1))
    { s with i_a := s.i_a + 1, ij := ij + 1, jnpi := jnpi, result := res }

/-- Source: `packed_u_as_symmetric`. -/
def packed_u_as_symmetric {α : Type} (a : List α) : Except Error (versa α) := do
  let n ← symmetric_n_from_packed_size a.length
  let s ← for_loop (packed_u_as_symmetric_row a n) 0 n
    ⟨0, 0, 0, 0, 0, List.replicate (n * n) none⟩
  let data ← freeze s.result
  .ok ⟨n, n, data⟩

/-- Body of the outer loop of `packed_l_as_symmetric`: `ij = i0;`, `jnpi = i;`, the loop
`for (j = 0; j < i; j++, jnpi += n)`, `r[ij] = a[i_a++];`, then `i0 += n`. -/
def packed_l_as_symmetric_row {α : Type} (a : List α) (n i : Nat) (s : vars α) :
    Except Error (vars α) := do
  let s1 ← for_loop (mirror_cell a n) 0 i { s with ij := s.i0, jnpi := i }
  let v ← read a s1.i_a
  let res ← write s1.result s1.ij v
  .ok { s1 with i_a := s1.i_a + 1, i0 := s1.i0 + n, result := res }

/-- Source: `packed_l_as_symmetric`. -/
def packed_l_as_symmetric {α : Type} (a : List α) : Except Error (versa α) := do
  let n ← symmetric_n_from_packed_size a.length
  let s ← for_loop (packed_l_as_symmetric_row a n) 0 n
    ⟨0, 0, 0, 0, 0, List.replicate (n * n) none⟩
  let data ← freeze s.result
  .ok ⟨n, n, data⟩

/-- Modelled from the spec: `af::max_absolute`, which lives in
`scitbx/array_family` and is not part of the sources at hand; the spec describes it as
`max(|a[i][j]| over all entries)`. -/
def max_absolute {K : Type} [LinearOrderedField K] (a : List K) : K :=
  a.foldl (fun m x => max m |x|) 0

/-- Body of the inner loops of `symmetric_as_packed_u` and `symmetric_as_packed_l`:
`a_ij = a[ij++]`, `ave = (a_ij + a[jnpi]) / 2`, the tolerance test, `*r++ = ave`, and the
increment `jnpi += n`. -/
def average_cell {K : Type} [LinearOrderedField K] (a : List K) (n : Nat) (use_eps : Bool)
    (eps : K) (_j : Nat) (s : vars K) : Except Error (vars K) := do
  let a_ij ← read a s.ij
  let a_ji ← read a s.jnpi
  let ave := (a_ij + a_ji) / 2
  if use_eps ∧ |a_ij - ave| > eps then .error .not_symmetric
  else do
    let res ← write s.result s.r ave
    .ok { s with ij := s.ij + 1, jnpi := s.jnpi + n, r := s.r + 1, result := res }

/-- Body of the outer loop of the pointer version of `symmetric_as_packed_u`:
`ij += i;`, `jnpi = ij+n;`, `*result++ = a[ij++];`, then the loop
`for (j = i+1; j < n; j++, jnpi += n)`. -/
def symmetric_as_packed_u_row {K : Type} [LinearOrderedField K] (a : List K) (n : Nat)
    (use_eps : Bool) (eps : K) (i : Nat) (s : vars K) : Except Error (vars K) := do
  let ij := s.ij + i
  let jnpi := ij + n
  let v ← read a ij
  let res ← write s.result s.r v
  for_loop (average_cell a n use_eps eps) (i + 1) (n - (i + 1))
    { s with ij := ij + 1, jnpi := jnpi, r := s.r + 1, result := res }

/-- Source: `symmetric_as_packed_u(FloatType* result, FloatType const* a, unsigned n,
FloatType const& relative_eps)`.  The array handed to `af::max_absolute` is
`af::const_ref<FloatType>(a, n*n)`, whose length `n*n` is computed in `unsigned`. -/
def symmetric_as_packed_u_ptr {K : Type} [LinearOrderedField K]
    (result : List (Option K)) (a : List K) (n : Nat) (relative_eps : K) :
    Except Error (List (Option K)) := do
  let use_eps : Bool := ¬ (relative_eps ≤ 0 ∨ n = 0)
  let eps : K :=
    if relative_eps ≤ 0 ∨ n = 0 then 0
    else relative_eps * max_absolute (a.take (u32 (n * n)))
  let s ← for_loop (symmetric_as_packed_u_row a n use_eps eps) 0 n ⟨0, 0, 0, 0, 0, result⟩
  .ok s.result

/-- Source: `symmetric_as_packed_u(af::const_ref<FloatType, af::c_grid<2> > const& a,
FloatType const& relative_eps)`. -/
def symmetric_as_packed_u {K : Type} [LinearOrderedField K] (a : versa K)
    (relative_eps : K) : Except Error (List K) :=
  if a.n_rows ≠ a.n_columns then .error .not_square
  else do
    let n := a.n_rows
    let result ← symmetric_as_packed_u_ptr (List.replicate (n * (n + 1) / 2) none)
      a.data (u32 n) relative_eps
    freeze result

/-- Body of the outer loop of `symmetric_as_packed_l`: `ij = i0;`, `jnpi = i;`, the loop
`for (j = 0; j < i; j++, jnpi += n)`, `*r++ = a[ij];`, then `i0 += n`. -/
def symmetric_as_packed_l_row {K : Type} [LinearOrderedField K] (a : List K) (n : Nat)
    (use_eps : Bool) (eps : K) (i : Nat) (s : vars K) : Except Error (vars K) := do
  let s1 ← for_loop (average_cell a n use_eps eps) 0 i { s with ij := s.i0, jnpi := i }
  let v ← read a s1.ij
  let res ← write s1.result s1.r v
  .ok { s1 with i0 := s1.i0 + n, r := s1.r + 1, result := res }

/-- Source: `symmetric_as_packed_l`. -/
def symmetric_as_packed_l {K : Type} [LinearOrderedField K] (a : versa K)
    (relative_eps : K) : Except Error (List K) :=
  if a.n_rows ≠ a.n_columns then .error .not_square
  else do
    let n := a.n_rows
    let use_eps : Bool := ¬ (relative_eps ≤ 0 ∨ n = 0)
    let eps : K :=
      if relative_eps ≤ 0 ∨ n = 0 then 0 else relative_eps * max_absolute a.data
    let s ← for_loop (symmetric_as_packed_l_row a.data n use_eps eps) 0 n
      ⟨0, 0, 0, 0, 0, List.replicate (n * (n + 1) / 2) none⟩
    freeze s.result

/-- The loop `for (k = i; k < i + count; k++)` whose body may leave the routine with
`return v` (`Sum.inl v`) or go on with a new state (`Sum.inr s`). -/
def for_loop_return {σ ρ : Type} (body : Nat → σ → Except Error (ρ ⊕ σ)) :
    Nat → Nat → σ → Except Error (ρ ⊕ σ)
  | _, 0, s => .ok (.inr s)
  | i, count + 1, s =>
    match body i s with
    | .ok (.inr s') => for_loop_return body (i + 1) count s'
    | .ok (.inl v) => .ok (.inl v)
    | .error e => .error e

/-- Body of the inner loop of the tolerant `is_symmetric`: `a_ij = a[ij++]`,
`ave = (a_ij + a[jnpi]) / 2`, `if (fn::absolute(a_ij - ave) > eps) return false;`, and the
increment `jnpi += n`. -/
def is_symmetric_cell {K : Type} [LinearOrderedField K] (a : List K) (n : Nat) (eps : K)
    (_j : Nat) (s : vars K) : Except Error (Bool ⊕ vars K) := do
  let a_ij ← read a s.ij
  let a_ji ← read a s.jnpi
  let ave := (a_ij + a_ji) / 2
  if |a_ij - ave| > eps then .ok (.inl false)
  else .ok (.inr { s with ij := s.ij + 1, jnpi := s.jnpi + n })

/-- Body of the outer loop of the tolerant `is_symmetric`: `ij = i0;`, `jnpi = i;`, the
loop `for (j = 0; j < i; j++, jnpi += n)`, then `i0 += n`. -/
def is_symmetric_row {K : Type} [LinearOrderedField K] (a : List K) (n : Nat) (eps : K)
    (i : Nat) (s : vars K) : Except Error (Bool ⊕ vars K) :=
  match for_loop_return (is_symmetric_cell a n eps) 0 i { s with ij := s.i0, jnpi := i } with
  | .ok (.inr s1) => .ok (.inr { s1 with i0 := s1.i0 + n })
  | .ok (.inl b) => .ok (.inl b)
  | .error e => .error e

/-- Source: `is_symmetric(af::const_ref<FloatType, af::c_grid<2> > const& a,
FloatType const& relative_eps)`, the tolerant overload. -/
def is_symmetric {K : Type} [LinearOrderedField K] (a : versa K) (relative_eps : K) :
    Except Error Bool :=
  if ¬ relative_eps > 0 then .error .tolerance_not_positive
  else if a.n_rows ≠ a.n_columns then .error .not_square
  else
    let n := a.n_rows
    if n = 0 then .ok true
    else
      let eps := relative_eps * max_absolute a.data
      match for_loop_return (is_symmetric_row a.data n eps) 0 n ⟨0, 0, 0, 0, 0, []⟩ with
      | .ok (.inl b) => .ok b
      | .ok (.inr _) => .ok true
      | .error e => .error e

/-- Body of the inner loop of the exact `is_symmetric`:
`if (a[ij++] != a[jnpi]) return false;`, and the increment `jnpi += n`. -/
def is_symmetric_exact_cell {α : Type} [DecidableEq α] (a : List α) (n : Nat)
    (_j : Nat) (s : vars α) : Except Error (Bool ⊕ vars α) := do
  let a_ij ← read a s.ij
  let a_ji ← read a s.jnpi
  if a_ij ≠ a_ji then .ok (.inl false)
  else .ok (.inr { s with ij := s.ij + 1, jnpi := s.jnpi + n })

/-- Body of the outer loop of the exact `is_symmetric`: `ij = i0;`, `jnpi = i;`, the loop
`for (j = 0; j < i; j++, jnpi += n)`, then `i0 += n`. -/
def is_symmetric_exact_row {α : Type} [DecidableEq α] (a : List α) (n : Nat)
    (i : Nat) (s : vars α) : Except Error (Bool ⊕ vars α) :=
  match for_loop_return (is_symmetric_exact_cell a n) 0 i { s with ij := s.i0, jnpi := i } with
  | .ok (.inr s1) => .ok (.inr { s1 with i0 := s1.i0 + n })
  | .ok (.inl b) => .ok (.inl b)
  | .error e => .error e

/-- Source: `is_symmetric(af::const_ref<NumType, af::c_grid<2> > const& a)`, the exact
overload. -/
def is_symmetric_exact {α : Type} [DecidableEq α] (a : versa α) : Except Error Bool :=
  if a.n_rows ≠ a.n_columns then .error .not_square
  else
    let n := a.n_rows
    if n = 0 then .ok true
    else
      match for_loop_return (is_symmetric_exact_row a.data n) 0 n ⟨0, 0, 0, 0, 0, []⟩ with
      | .ok (.inl b) => .ok b
      | .ok (.inr _) => .ok true
      | .error e => .error e

/-- Body of the loop of `packed_u_diagonal`: `*(result++) = a[ij];` then
`ij += static_cast<std::size_t>(n-i);`, the difference taken in `unsigned`. -/
def packed_u_diagonal_cell {α : Type} (a : List α) (n i : Nat) (s : vars α) :
    Except Error (vars α) := do
  let v ← read a s.ij
  let res ← write s.result s.r v
  .ok { s with ij := s.ij + u32_sub n i, r := s.r + 1, result := res }

/-- Source: `packed_u_diagonal(FloatType* result, FloatType const* a, unsigned n)`. -/
def packed_u_diagonal_ptr {α : Type} (result : List (Option α)) (a : List α) (n : Nat) :
    Except Error (List (Option α)) := do
  let s ← for_loop (packed_u_diagonal_cell a n) 0 n ⟨0, 0, 0, 0, 0, result⟩
  .ok s.result

/-- Source: `packed_u_diagonal(af::const_ref<FloatType> const& a)`. -/
def packed_u_diagonal {α : Type} (a : List α) : Except Error (List α) := do
  let n ← symmetric_n_from_packed_size a.length
  let result ← packed_u_diagonal_ptr (List.replicate n none) a n
  freeze result

/-- An access to a buffer made by a mirrored expansion: a read `a[k]` of the packed input
or a write `r[k]` of the result. -/
inductive access where
  | read (k : Nat)
  | write (k : Nat)
  deriving DecidableEq, Repr

/-- The indices of the reads of an access log, in the order they were made. -/
def reads (log : List access) : List Nat :=
  log.filterMap (fun x => match x with
    | .read k => some k
    | .write _ => none)

/-- A loop body run together with a log: the accesses `acc s` that the body makes from
state `s` are appended to the log when the body succeeds. -/
def traced {α : Type} (body : Nat → vars α → Except Error (vars α))
    (acc : vars α → List access) (i : Nat) (st : vars α × List access) :
    Except Error (vars α × List access) :=
  match body i st.1 with
  | .ok s' => .ok (s', st.2 ++ acc st.1)
  | .error e => .error e

/-- The accesses of `r[ij++] = r[jnpi] = a[i_a++];`: the read of `a[i_a]`, the write of
`r[jnpi]`, the write of `r[ij]`. -/
def mirror_cell_accesses {α : Type} (s : vars α) : List access :=
  [.read s.i_a, .write s.jnpi, .write s.ij]

/-- The row body `packed_u_as_symmetric_row` run together with a log: `r[ij++] = a[i_a++];`
logs the read of `a[i_a]` and the write of `r[ij]`, then the inner loop runs traced. -/
def packed_u_as_symmetric_row_traced {α : Type} (a : List α) (n i : Nat)
    (st : vars α × List access) : Except Error (vars α × List access) := do
  let s := st.1
  let ij := s.ij + i
  let jnpi := ij + n
  let v ← read a s.i_a
  let res ← write s.result ij v
  for_loop (traced (mirror_cell a n) mirror_cell_accesses) (i + 1) (n - (i + 1))
    ({ s with i_a := s.i_a + 1, ij := ij + 1, jnpi := jnpi, result := res },
      st.2 ++ [.read s.i_a, .write ij])

/-- The routine `packed_u_as_symmetric` run together with a log of its accesses. -/
def packed_u_as_symmetric_traced {α : Type} (a : List α) :
    Except Error (versa α × List access) := do
  let n ← symmetric_n_from_packed_size a.length
  let st ← for_loop (packed_u_as_symmetric_row_traced a n) 0 n
    (⟨0, 0, 0, 0, 0, List.replicate (n * n) none⟩, [])
  let data ← freeze st.1.result
  .ok (⟨n, n, data⟩, st.2)

/-- The row body `packed_l_as_symmetric_row` run together with a log: the inner loop runs
traced, then `r[ij] = a[i_a++];` logs the read of `a[i_a]` and the write of `r[ij]`. -/
def packed_l_as_symmetric_row_traced {α : Type} (a : List α) (n i : Nat)
    (st : vars α × List access) : Except Error (vars α × List access) := do
  let s := st.1
  let st1 ← for_loop (traced (mirror_cell a n) mirror_cell_accesses) 0 i
    ({ s with ij := s.i0, jnpi := i }, st.2)
  let s1 := st1.1
  let v ← read a s1.i_a
  let res ← write s1.result s1.ij v
  .ok ({ s1 with i_a := s1.i_a + 1, i0 := s1.i0 + n, result := res },
    st1.2 ++ [.read s1.i_a, .write s1.ij])

/-- The routine `packed_l_as_symmetric` run together with a log of its accesses. -/
def packed_l_as_symmetric_traced {α : Type} (a : List α) :
    Except Error (versa α × List access) := do
  let n ← symmetric_n_from_packed_size a.length
  let st ← for_loop (packed_l_as_symmetric_row_traced a n) 0 n
    (⟨0, 0, 0, 0, 0, List.replicate (n * n) none⟩, [])
  let data ← freeze st.1.result
  .ok (⟨n, n, data⟩, st.2)

/-- State of an access log after some steps of a mirrored expansion: the reads so far are
`0, 1, ..., i_a - 1` in this order, every write is inside the `n` by `n` result, and every
written cell of the result has a write in the log. -/
def log_ok {α : Type} (n i_a : Nat) (result : List (Option α)) (log : List access) : Prop :=
  reads log = List.range i_a ∧
  (∀ k, access.write k ∈ log → k < n * n) ∧
  (∀ k v, result[k]? = some (some v) → access.write k ∈ log)

/-- The cells of a packed-upper result buffer that lie before the write offset `r` hold
the values `val p q` of their positions `(p, q)`, `p ≤ q < n`. -/
def packed_u_cells {α : Type} (val : Nat → Nat → Option α) (n r : Nat)
    (result : List (Option α)) : Prop :=
  result.length = n * (n + 1) / 2 ∧
  ∀ p q, p ≤ q → q < n → row_start_u n p + (q - p) < r →
    result[row_start_u n p + (q - p)]? = some (val p q)

/-- The cells of a packed-lower result buffer that lie before the write offset `r` hold
the values `val p q` of their positions `(p, q)`, `q ≤ p < n`. -/
def packed_l_cells {α : Type} (val : Nat → Nat → Option α) (n r : Nat)
    (result : List (Option α)) : Prop :=
  result.length = n * (n + 1) / 2 ∧
  ∀ p q, q ≤ p → p < n → row_start_l p + q < r →
    result[row_start_l p + q]? = some (val p q)

/-- The cells `(p, q)` of a dense `n` by `n` result buffer that are marked `done` hold
the values `val p q`. -/
def dense_cells {α : Type} (val : Nat → Nat → Option α) (n : Nat)
    (done : Nat → Nat → Prop) (result : List (Option α)) : Prop :=
  result.length = n * n ∧
  ∀ p q, p < n → q < n → done p q → result[p * n + q]? = some (val p q)

/-- Entry `(i, j)` of a row-major buffer with `n` columns, `a[i*n + j]`. -/
def entry {K : Type} [Zero K] (a : List K) (n i j : Nat) : K :=
  a.getD (i * n + j) 0

/-- Average `(a[i][j] + a[j][i]) / 2` of a mirrored pair. -/
def average {K : Type} [LinearOrderedField K] (a : List K) (n i j : Nat) : K :=
  (entry a n i j + entry a n j i) / 2

/-- The tolerance test of the symmetrization applied to the pair `(i, j)`: the test is
switched on and `|a[i][j] - ave| > eps`. -/
def deviates {K : Type} [LinearOrderedField K] (a : List K) (n : Nat) (use_eps : Bool)
    (eps : K) (i j : Nat) : Prop :=
  use_eps = true ∧ |entry a n i j - average a n i j| > eps

/-- Value the symmetrization stores for position `(p, q)`: the diagonal entry itself,
the average of the mirrored pair elsewhere. -/
def symmetrized {K : Type} [LinearOrderedField K] (a : List K) (n p q : Nat) : Option K :=
  some (if p = q then entry a n p p else average a n p q)

/-- The failure condition of the symmetrization as the specification words it:
`relative_eps > 0` and some pair `i < j < n` has
`|a[i][j] - (a[i][j] + a[j][i])/2| > relative_eps * max_absolute(a)`. -/
def exceeds_tolerance {K : Type} [LinearOrderedField K] (a : versa K) (relative_eps : K) :
    Prop :=
  0 < relative_eps ∧ ∃ i j, i < j ∧ j < a.n_rows ∧
    |entry a.data a.n_rows i j - average a.data a.n_rows i j|
      > relative_eps * max_absolute a.data

/-! ## Arithmetic of the packed layouts -/

theorem two_mul_row_start_l (i : Nat) : 2 * row_start_l i = i * (i + 1) := by
  induction i with
  | zero => simp [row_start_l]
  | succ k ih => simp only [row_start_l]; rw [Nat.mul_add, ih]; ring

theorem row_start_l_eq (i : Nat) : row_start_l i = i * (i + 1) / 2 := by
  have h := two_mul_row_start_l i
  omega

theorem two_mul_row_start_u (n i : Nat) (h : i ≤ n) :
    2 * row_start_u n i + i * i = 2 * (i * n) + i := by
  induction i with
  | zero => simp [row_start_u]
  | succ k ih =>
    have ih1 := ih (by omega)
    simp only [row_start_u]
    have e1 : (k + 1) * (k + 1) = k * k + 2 * k + 1 := by ring
    have e2 : (k + 1) * n = k * n + n := by ring
    rw [e1, e2]
    omega

theorem row_start_u_self (n : Nat) : row_start_u n n = n * (n + 1) / 2 := by
  have h := two_mul_row_start_u n n le_rfl
  have e : n * (n + 1) = n * n + n := by ring
  rw [e]
  omega

theorem row_start_u_mono (n : Nat) {i k : Nat} (h : i ≤ k) :
    row_start_u n i ≤ row_start_u n k := by
  induction h with
  | refl => exact le_rfl
  | step _ ih => exact le_trans ih (by simp [row_start_u])

theorem row_start_l_mono {i k : Nat} (h : i ≤ k) : row_start_l i ≤ row_start_l k := by
  induction h with
  | refl => exact le_rfl
  | step _ ih => exact le_trans ih (by simp [row_start_l])

/-- An in-domain packed-upper position lies inside its own row. -/
theorem offset_u_lt_next (n i j : Nat) (hij : i ≤ j) (hj : j < n) :
    row_start_u n i + (j - i) < row_start_u n (i + 1) := by
  simp only [row_start_u]; omega

theorem offset_u_lt (n i j : Nat) (hij : i ≤ j) (hj : j < n) :
    row_start_u n i + (j - i) < n * (n + 1) / 2 := by
  rw [← row_start_u_self]
  exact lt_of_lt_of_le (offset_u_lt_next n i j hij hj) (row_start_u_mono n (by omega))

theorem offset_u_inj (n i j k l : Nat) (hij : i ≤ j) (hj : j < n) (hkl : k ≤ l)
    (hl : l < n) (h : row_start_u n i + (j - i) = row_start_u n k + (l - k)) :
    i = k ∧ j = l := by
  have key : i = k := by
    rcases Nat.lt_trichotomy i k with hlt | heq | hgt
    · have h1 := offset_u_lt_next n i j hij hj
      have h2 := row_start_u_mono n (show i + 1 ≤ k from hlt)
      omega
    · exact heq
    · have h1 := offset_u_lt_next n k l hkl hl
      have h2 := row_start_u_mono n (show k + 1 ≤ i from hgt)
      omega
  subst key
  exact ⟨rfl, by omega⟩

theorem offset_u_surj_aux (n m : Nat) (hm : m ≤ n) :
    ∀ k, k < row_start_u n m →
      ∃ i j, i ≤ j ∧ j < n ∧ i < m ∧ row_start_u n i + (j - i) = k := by
  induction m with
  | zero => intro k hk; simp [row_start_u] at hk
  | succ m ih =>
    intro k hk
    by_cases h : k < row_start_u n m
    · obtain ⟨i, j, h1, h2, h3, h4⟩ := ih (by omega) k h
      exact ⟨i, j, h1, h2, by omega, h4⟩
    · simp only [row_start_u] at hk
      exact ⟨m, m + (k - row_start_u n m), by omega, by omega, by omega, by omega⟩

theorem offset_u_surj (n k : Nat) (hk : k < n * (n + 1) / 2) :
    ∃ i j, i ≤ j ∧ j < n ∧ row_start_u n i + (j - i) = k := by
  rw [← row_start_u_self] at hk
  obtain ⟨i, j, h1, h2, _, h4⟩ := offset_u_surj_aux n n le_rfl k hk
  exact ⟨i, j, h1, h2, h4⟩

theorem offset_l_lt_next (i j : Nat) (hji : j ≤ i) :
    row_start_l i + j < row_start_l (i + 1) := by
  simp only [row_start_l]; omega

theorem offset_l_lt (n i j : Nat) (hji : j ≤ i) (hi : i < n) :
    row_start_l i + j < n * (n + 1) / 2 := by
  rw [← row_start_l_eq]
  exact lt_of_lt_of_le (offset_l_lt_next i j hji) (row_start_l_mono (by omega))

theorem offset_l_inj (i j k l : Nat) (hji : j ≤ i) (hlk : l ≤ k)
    (h : row_start_l i + j = row_start_l k + l) : i = k ∧ j = l := by
  have key : i = k := by
    rcases Nat.lt_trichotomy i k with hlt | heq | hgt
    · have h1 := offset_l_lt_next i j hji
      have h2 := row_start_l_mono (show i + 1 ≤ k from hlt)
      omega
    · exact heq
    · have h1 := offset_l_lt_next k l hlk
      have h2 := row_start_l_mono (show k + 1 ≤ i from hgt)
      omega
  subst key
  exact ⟨rfl, by omega⟩

theorem offset_l_surj_aux (m : Nat) :
    ∀ k, k < row_start_l m → ∃ i j, j ≤ i ∧ i < m ∧ row_start_l i + j = k := by
  induction m with
  | zero => intro k hk; simp [row_start_l] at hk
  | succ m ih =>
    intro k hk
    by_cases h : k < row_start_l m
    · obtain ⟨i, j, h1, h2, h3⟩ := ih k h
      exact ⟨i, j, h1, by omega, h3⟩
    · simp only [row_start_l] at hk
      exact ⟨m, k - row_start_l m, by omega, by omega, by omega⟩

theorem offset_l_surj (n k : Nat) (hk : k < n * (n + 1) / 2) :
    ∃ i j, j ≤ i ∧ i < n ∧ row_start_l i + j = k := by
  rw [← row_start_l_eq] at hk
  exact offset_l_surj_aux n k hk

/-- While no intermediate product leaves the exactly divisible range, the `unsigned`
evaluation of the packed-upper accessor is the position `row_start_u n i + (j - i)`. -/
theorem packed_u_accessor_call_eq (n i j : Nat) (hn : n ≤ 65537) (hij : i ≤ j)
    (hj : j < n) : (packed_u_accessor.mk n).call i j = row_start_u n i + (j - i) := by
  have hS := two_mul_row_start_u n i (by omega)
  have hlt := offset_u_lt n i j hij hj
  have hT : n * (n + 1) / 2 ≤ 65537 * (65537 + 1) / 2 :=
    Nat.div_le_div_right (Nat.mul_le_mul hn (by omega))
  have hB : i * (i - 1) ≤ 65536 * 65535 := Nat.mul_le_mul (by omega) (by omega)
  have hAB : i * (i - 1) ≤ i * (n - 1) := Nat.mul_le_mul le_rfl (by omega)
  have e1 : i * (n - 1) + i = i * n := by
    have : n = (n - 1) + 1 := by omega
    conv_rhs => rw [this]
    ring
  have e2 : i * (i - 1) + i = i * i := by
    rcases i with _ | i
    · rfl
    · simp only [Nat.add_sub_cancel]; ring
  simp only [packed_u_accessor.call, u32, u32_sub]
  have hn1 : (n + 2 ^ 32 - 1) % 2 ^ 32 = n - 1 := by omega
  rw [hn1]
  rcases Nat.eq_zero_or_pos i with h0 | hpos
  · subst h0
    simp only [row_start_u, Nat.zero_mul]
    norm_num at hlt hT ⊢
    omega
  · have hi1 : (i + 2 ^ 32 - 1) % 2 ^ 32 = i - 1 := by omega
    rw [hi1]
    generalize i * (n - 1) = A at *
    generalize i * (i - 1) = B at *
    generalize i * n = C at *
    generalize i * i = D at *
    norm_num at hlt hT hB ⊢
    omega

/-- The mathematical reading of the accessor formula, in natural numbers. -/
theorem offset_u_formula (n i j : Nat) (hij : i ≤ j) (hj : j < n) :
    row_start_u n i + (j - i) = i * (n - 1) - i * (i - 1) / 2 + j := by
  have hS := two_mul_row_start_u n i (by omega)
  have hAB : i * (i - 1) ≤ i * (n - 1) := Nat.mul_le_mul le_rfl (by omega)
  have e1 : i * (n - 1) + i = i * n := by
    have : n = (n - 1) + 1 := by omega
    conv_rhs => rw [this]
    ring
  have e2 : i * (i - 1) + i = i * i := by
    rcases i with _ | i
    · rfl
    · simp only [Nat.add_sub_cancel]; ring
  have hev : 2 * (i * (i - 1) / 2) = i * (i - 1) := by
    rcases i with _ | i
    · rfl
    · simp only [Nat.add_sub_cancel]
      have := Nat.even_mul_succ_self i
      rw [Nat.mul_comm (i + 1) i]
      exact Nat.two_mul_div_two_of_even this
  generalize i * (n - 1) = A at *
  generalize i * (i - 1) = B at *
  generalize i * n = C at *
  generalize i * i = D at *
  omega

/-- While `i * (i + 1)` fits in 32 bits, the `unsigned` evaluation of the packed-lower
accessor is the position `row_start_l i + j`. -/
theorem packed_l_accessor_call_eq (n i j : Nat) (hn : n ≤ 65536) (hji : j ≤ i)
    (hi : i < n) : (packed_l_accessor.mk n).call i j = row_start_l i + j := by
  have hS := two_mul_row_start_l i
  have hB : i * (i + 1) ≤ 65535 * 65536 := Nat.mul_le_mul (by omega) (by omega)
  simp only [packed_l_accessor.call, u32]
  have hi1 : (i + 1) % 2 ^ 32 = i + 1 := by omega
  rw [hi1]
  generalize i * (i + 1) = B at *
  norm_num at hB ⊢
  omega

/-! ## Dimension recovery -/

/-- The expression of the source, read over the reals and truncated towards zero, is
the integer expression used by `symmetric_n_from_packed_size`. -/
theorem floor_sqrt_expression (p : Nat) :
    ⌊(Real.sqrt (1 + 8 * (p : ℝ)) - 1) / 2 + 1 / 2⌋₊ = Nat.sqrt (1 + 8 * p) / 2 := by
  have h : (Real.sqrt (1 + 8 * (p : ℝ)) - 1) / 2 + 1 / 2
      = Real.sqrt ((1 + 8 * p : ℕ) : ℝ) / ((2 : ℕ) : ℝ) := by
    push_cast; ring
  rw [h, Nat.floor_div_nat, Real.nat_floor_real_sqrt_eq_nat_sqrt]

theorem sqrt_of_triangular (n : Nat) : Nat.sqrt (1 + 8 * (n * (n + 1) / 2)) = 2 * n + 1 := by
  have hev : 2 * (n * (n + 1) / 2) = n * (n + 1) :=
    Nat.two_mul_div_two_of_even (Nat.even_mul_succ_self n)
  have e : 1 + 8 * (n * (n + 1) / 2) = (2 * n + 1) * (2 * n + 1) := by
    have : 8 * (n * (n + 1) / 2) = 4 * (2 * (n * (n + 1) / 2)) := by ring
    rw [this, hev]; ring
  rw [e, Nat.sqrt_eq]

/-- A value returned by `symmetric_n_from_packed_size` is below `2 ^ 16` and its true
triangular number is the argument. -/
theorem symmetric_n_from_packed_size_sound (p n : Nat)
    (h : symmetric_n_from_packed_size p = .ok n) : n < 2 ^ 16 ∧ n * (n + 1) / 2 = p := by
  unfold symmetric_n_from_packed_size at h
  simp only at h
  split at h
  · rename_i hc
    injection h with h
    have hp : p < 2 ^ 31 := by
      rw [← hc]; simp only [u32]; omega
    have hs : Nat.sqrt (1 + 8 * p) < 2 ^ 17 := by
      rw [Nat.sqrt_lt']; norm_num; omega
    have hn : n < 2 ^ 16 := by
      rw [← h]; simp only [u32]; omega
    have hn2 : n * (n + 1) ≤ 65535 * 65536 := Nat.mul_le_mul (by omega) (by omega)
    refine ⟨hn, ?_⟩
    rw [h] at hc
    simp only [u32] at hc
    have h1 : (n + 1) % 2 ^ 32 = n + 1 := by omega
    rw [h1] at hc
    rw [← hc]
    congr 1
    generalize n * (n + 1) = B at *
    omega
  · cases h

/-- Within `n ≤ 65537`, where no intermediate product of the 32-bit evaluation wraps
around: the packed-upper accessor equals `i*(n-1) - i*(i-1)/2 + j` on its domain
`i ≤ j < n`, maps the domain into `[0, n(n+1)/2)`, maps distinct pairs to distinct offsets,
and hits every offset of the range. -/
theorem packed_u_accessor_bijective (n : Nat) (hn : n ≤ 65537) :
    (∀ i j, i ≤ j → j < n →
      (packed_u_accessor.mk n).call i j = i * (n - 1) - i * (i - 1) / 2 + j ∧
      (packed_u_accessor.mk n).call i j < n * (n + 1) / 2) ∧
    (∀ i j k l, i ≤ j → j < n → k ≤ l → l < n →
      (packed_u_accessor.mk n).call i j = (packed_u_accessor.mk n).call k l →
      i = k ∧ j = l) ∧
    (∀ m, m < n * (n + 1) / 2 →
      ∃ i j, i ≤ j ∧ j < n ∧ (packed_u_accessor.mk n).call i j = m) := by
  refine ⟨?_, ?_, ?_⟩
  · intro i j hij hj
    rw [packed_u_accessor_call_eq n i j hn hij hj]
    exact ⟨offset_u_formula n i j hij hj, offset_u_lt n i j hij hj⟩
  · intro i j k l hij hj hkl hl h
    rw [packed_u_accessor_call_eq n i j hn hij hj,
      packed_u_accessor_call_eq n k l hn hkl hl] at h
    exact offset_u_inj n i j k l hij hj hkl hl h
  · intro m hm
    obtain ⟨i, j, hij, hj, h⟩ := offset_u_surj n m hm
    exact ⟨i, j, hij, hj, by rw [packed_u_accessor_call_eq n i j hn hij hj, h]⟩

/-- Instance of `packed_u_accessor_bijective` at `n = 3`. -/
theorem packed_u_accessor_bijective_witness :
    3 ≤ 65537 ∧
    ((∀ i j, i ≤ j → j < 3 →
      (packed_u_accessor.mk 3).call i j = i * (3 - 1) - i * (i - 1) / 2 + j ∧
      (packed_u_accessor.mk 3).call i j < 3 * (3 + 1) / 2) ∧
    (∀ i j k l, i ≤ j → j < 3 → k ≤ l → l < 3 →
      (packed_u_accessor.mk 3).call i j = (packed_u_accessor.mk 3).call k l →
      i = k ∧ j = l) ∧
    (∀ m, m < 3 * (3 + 1) / 2 →
      ∃ i j, i ≤ j ∧ j < 3 ∧ (packed_u_accessor.mk 3).call i j = m)) :=
  ⟨by decide, packed_u_accessor_bijective 3 (by decide)⟩

/-- Claim C6 at the failing input `n = 65538`.  The claim says that
`packed_u_accessor(n)(i,j) = i*(n-1) - i*(i-1)/2 + j` is a bijection from the pairs
`i ≤ j < n` onto `[0, n(n+1)/2)`.  At `n = 65538` the in-domain pair `(65537, 65537)` has
the offset `2147647490`, which is below `2^32` and inside the range, but the accessor
returns `163842`, because `i*(i-1)` wraps around in `unsigned` before it is halved; the
in-domain pair `(2, 32769)` receives `163842` as well, so the accessor is not one-to-one. -/
theorem packed_u_accessor_not_bijective :
    (65537 ≤ 65537 ∧ 65537 < 65538) ∧ (2 ≤ 32769 ∧ 32769 < 65538) ∧
    65537 * (65538 - 1) - 65537 * (65537 - 1) / 2 + 65537 = 2147647490 ∧
    2147647490 < 65538 * (65538 + 1) / 2 ∧ 2147647490 < 2 ^ 32 ∧
    (packed_u_accessor.mk 65538).call 65537 65537 = 163842 ∧
    (packed_u_accessor.mk 65538).call 2 32769 = 163842 ∧
    2 * (65538 - 1) - 2 * (2 - 1) / 2 + 32769 = 163842 ∧
    ¬ (∀ i j k l, i ≤ j → j < 65538 → k ≤ l → l < 65538 →
      (packed_u_accessor.mk 65538).call i j = (packed_u_accessor.mk 65538).call k l →
      i = k ∧ j = l) := by
  refine ⟨by decide, by decide, by decide, by decide, by decide, by decide, by decide,
    by decide, ?_⟩
  intro h
  have := h 65537 65537 2 32769 (by decide) (by decide) (by decide) (by decide) (by decide)
  omega

/-- Within `n ≤ 65536`, where no intermediate product of the 32-bit evaluation wraps
around: the packed-lower accessor equals `i*(i+1)/2 + j` on its domain `j ≤ i < n`, maps
the domain into `[0, n(n+1)/2)`, maps distinct pairs to distinct offsets, and hits every
offset of the range. -/
theorem packed_l_accessor_bijective (n : Nat) (hn : n ≤ 65536) :
    (∀ i j, j ≤ i → i < n →
      (packed_l_accessor.mk n).call i j = i * (i + 1) / 2 + j ∧
      (packed_l_accessor.mk n).call i j < n * (n + 1) / 2) ∧
    (∀ i j k l, j ≤ i → i < n → l ≤ k → k < n →
      (packed_l_accessor.mk n).call i j = (packed_l_accessor.mk n).call k l →
      i = k ∧ j = l) ∧
    (∀ m, m < n * (n + 1) / 2 →
      ∃ i j, j ≤ i ∧ i < n ∧ (packed_l_accessor.mk n).call i j = m) := by
  refine ⟨?_, ?_, ?_⟩
  · intro i j hji hi
    rw [packed_l_accessor_call_eq n i j hn hji hi]
    exact ⟨by rw [row_start_l_eq], offset_l_lt n i j hji hi⟩
  · intro i j k l hji hi hlk hk h
    rw [packed_l_accessor_call_eq n i j hn hji hi,
      packed_l_accessor_call_eq n k l hn hlk hk] at h
    exact offset_l_inj i j k l hji hlk h
  · intro m hm
    obtain ⟨i, j, hji, hi, h⟩ := offset_l_surj n m hm
    exact ⟨i, j, hji, hi, by rw [packed_l_accessor_call_eq n i j hn hji hi, h]⟩

/-- Instance of `packed_l_accessor_bijective` at `n = 3`. -/
theorem packed_l_accessor_bijective_witness :
    3 ≤ 65536 ∧
    ((∀ i j, j ≤ i → i < 3 →
      (packed_l_accessor.mk 3).call i j = i * (i + 1) / 2 + j ∧
      (packed_l_accessor.mk 3).call i j < 3 * (3 + 1) / 2) ∧
    (∀ i j k l, j ≤ i → i < 3 → l ≤ k → k < 3 →
      (packed_l_accessor.mk 3).call i j = (packed_l_accessor.mk 3).call k l →
      i = k ∧ j = l) ∧
    (∀ m, m < 3 * (3 + 1) / 2 →
      ∃ i j, j ≤ i ∧ i < 3 ∧ (packed_l_accessor.mk 3).call i j = m)) :=
  ⟨by decide, packed_l_accessor_bijective 3 (by decide)⟩

/-- Claim C7 at the failing input `n = 65537`.  The claim says that
`packed_l_accessor(n)(i,j) = i*(i+1)/2 + j` is a bijection from the pairs `j ≤ i < n` onto
`[0, n(n+1)/2)`.  At `n = 65537` the in-domain pair `(65536, 0)` has the offset
`2147516416`, which is below `2^32` and inside the range, but the accessor returns
`32768`, because `i*(i+1)` wraps around in `unsigned` before it is halved; the in-domain
pair `(255, 128)` receives `32768` as well, so the accessor is not one-to-one. -/
theorem packed_l_accessor_not_bijective :
    (0 ≤ 65536 ∧ 65536 < 65537) ∧ (128 ≤ 255 ∧ 255 < 65537) ∧
    65536 * (65536 + 1) / 2 + 0 = 2147516416 ∧
    2147516416 < 65537 * (65537 + 1) / 2 ∧ 2147516416 < 2 ^ 32 ∧
    (packed_l_accessor.mk 65537).call 65536 0 = 32768 ∧
    (packed_l_accessor.mk 65537).call 255 128 = 32768 ∧
    255 * (255 + 1) / 2 + 128 = 32768 ∧
    ¬ (∀ i j k l, j ≤ i → i < 65537 → l ≤ k → k < 65537 →
      (packed_l_accessor.mk 65537).call i j = (packed_l_accessor.mk 65537).call k l →
      i = k ∧ j = l) := by
  refine ⟨by decide, by decide, by decide, by decide, by decide, by decide, by decide,
    by decide, ?_⟩
  intro h
  have := h 65536 0 255 128 (by decide) (by decide) (by decide) (by decide) (by decide)
  omega

/-- While `n * (n + 1)` fits in 32 bits, the triangular size `n(n+1)/2` is accepted and
`n` is returned. -/
theorem symmetric_n_from_packed_size_ok (n : Nat) (hn : n ≤ 65535) :
    symmetric_n_from_packed_size (n * (n + 1) / 2) = .ok n := by
  have hB : n * (n + 1) ≤ 65535 * 65536 := Nat.mul_le_mul hn (by omega)
  unfold symmetric_n_from_packed_size
  simp only [sqrt_of_triangular, u32]
  have h1 : (2 * n + 1) / 2 % 2 ^ 32 = n := by omega
  rw [h1]
  have h2 : (n + 1) % 2 ^ 32 = n + 1 := by omega
  rw [h2]
  have h3 : n * (n + 1) % 2 ^ 32 = n * (n + 1) := by
    apply Nat.mod_eq_of_lt; omega
  rw [h3]
  simp

/-- Within `n ≤ 65535`, where the asserted comparison does not wrap around:
`symmetric_n_from_packed_size (n(n+1)/2)` does not fail and returns `n`; in particular it
returns `0` for packed size `0`. -/
theorem symmetric_n_from_packed_size_triangular (n : Nat) (hn : n ≤ 65535) :
    symmetric_n_from_packed_size (n * (n + 1) / 2) = .ok n ∧
    symmetric_n_from_packed_size 0 = .ok 0 :=
  ⟨symmetric_n_from_packed_size_ok n hn, symmetric_n_from_packed_size_ok 0 (by omega)⟩

/-- Instance of `symmetric_n_from_packed_size_triangular` at `n = 4`. -/
theorem symmetric_n_from_packed_size_triangular_witness :
    4 ≤ 65535 ∧ (symmetric_n_from_packed_size (4 * (4 + 1) / 2) = .ok 4 ∧
      symmetric_n_from_packed_size 0 = .ok 0) :=
  ⟨by decide, symmetric_n_from_packed_size_triangular 4 (by decide)⟩

/-- Claim C8 at the failing input `n = 65536`.  The claim says that
`symmetric_n_from_packed_size(n(n+1)/2)` does not fail and returns `n` for every `n ≥ 0`.
The packed size `65536*65537/2 = 2147516416` is triangular and the rounded root is
`65536`, a value an `unsigned` holds, but the asserted comparison evaluates `n*(n+1)/2` in
`unsigned`: the product `65536*65537` wraps around to `65536`, the left side is `32768`,
and the assertion fails. -/
theorem symmetric_n_from_packed_size_overflow :
    65536 * (65536 + 1) / 2 = 2147516416 ∧
    u32 (Nat.sqrt (1 + 8 * 2147516416) / 2) = 65536 ∧
    u32 (65536 * u32 (65536 + 1)) = 65536 ∧
    u32 (65536 * u32 (65536 + 1)) / 2 = 32768 ∧
    symmetric_n_from_packed_size (65536 * (65536 + 1) / 2) = .error .size_mismatch ∧
    symmetric_n_from_packed_size (65536 * (65536 + 1) / 2) ≠ .ok 65536 := by
  have hroot : Nat.sqrt (1 + 8 * 2147516416) = 131073 := by
    have h := sqrt_of_triangular 65536
    rw [show 65536 * (65536 + 1) / 2 = 2147516416 by decide] at h
    rw [h]
  have hfail : symmetric_n_from_packed_size (65536 * (65536 + 1) / 2)
      = .error .size_mismatch := by
    unfold symmetric_n_from_packed_size
    rw [sqrt_of_triangular]
    simp only [u32]
    norm_num
  refine ⟨by decide, ?_, by decide, by decide, hfail, ?_⟩
  · rw [hroot]; decide
  · rw [hfail]; intro h; cases h

/-- Claim C9: when `packed_size` is not `k(k+1)/2` for any `k`,
`symmetric_n_from_packed_size` fails with the size-mismatch assertion; and whatever the
argument, a returned `n` has `n(n+1)/2` equal to the argument. -/
theorem symmetric_n_from_packed_size_rejects (packed_size : Nat)
    (h : ¬ ∃ k, k * (k + 1) / 2 = packed_size) :
    symmetric_n_from_packed_size packed_size = .error .size_mismatch ∧
    ∀ p n, symmetric_n_from_packed_size p = .ok n → n * (n + 1) / 2 = p := by
  refine ⟨?_, fun p n hp => (symmetric_n_from_packed_size_sound p n hp).2⟩
  cases hr : symmetric_n_from_packed_size packed_size with
  | ok n => exact absurd ⟨n, (symmetric_n_from_packed_size_sound _ n hr).2⟩ h
  | error e =>
    unfold symmetric_n_from_packed_size at hr
    simp only at hr
    split at hr
    · cases hr
    · injection hr with hr; rw [hr]

/-- Instance of `symmetric_n_from_packed_size_rejects` at packed size `2`, which lies
strictly between the triangular numbers `1` and `3`. -/
theorem symmetric_n_from_packed_size_rejects_witness :
    (¬ ∃ k, k * (k + 1) / 2 = 2) ∧
    (symmetric_n_from_packed_size 2 = .error .size_mismatch ∧
      ∀ p n, symmetric_n_from_packed_size p = .ok n → n * (n + 1) / 2 = p) := by
  have hno : ¬ ∃ k, k * (k + 1) / 2 = 2 := by
    rintro ⟨k, hk⟩
    rcases Nat.lt_or_ge k 2 with h2 | h2
    · interval_cases k <;> simp at hk
    · have : 2 * 3 ≤ k * (k + 1) := Nat.mul_le_mul h2 (by omega)
      omega
  exact ⟨hno, symmetric_n_from_packed_size_rejects 2 hno⟩

/-! ## Buffers and loops -/

theorem idx_lt {n i j : Nat} (hi : i < n) (hj : j < n) : i * n + j < n * n := by
  have h : (i + 1) * n ≤ n * n := Nat.mul_le_mul_right n hi
  have e : (i + 1) * n = i * n + n := by ring
  omega

theorem idx_inj {n p q i j : Nat} (hq : q < n) (hj : j < n) (h : p * n + q = i * n + j) :
    p = i ∧ q = j := by
  have h1 : (p * n + q) / n = p := by
    rw [Nat.mul_comm, Nat.mul_add_div (by omega), Nat.div_eq_of_lt hq, Nat.add_zero]
  have h2 : (i * n + j) / n = i := by
    rw [Nat.mul_comm, Nat.mul_add_div (by omega), Nat.div_eq_of_lt hj, Nat.add_zero]
  have hp : p = i := by rw [← h1, ← h2, h]
  subst hp
  exact ⟨rfl, by omega⟩

theorem read_ok {α : Type} {a : List α} {k : Nat} {v : α} (h : a[k]? = some v) :
    read a k = .ok v := by
  simp [read, h]

theorem write_ok {α : Type} {buf : List (Option α)} {k : Nat} (v : α)
    (h : k < buf.length) : write buf k v = .ok (buf.set k (some v)) := by
  simp [write, h]

theorem freeze_spec {α : Type} (buf : List (Option α))
    (h : ∀ k, k < buf.length → ∃ v, buf[k]? = some (some v)) :
    ∃ out, freeze buf = .ok out ∧ buf = out.map some := by
  induction buf with
  | nil => exact ⟨[], rfl, rfl⟩
  | cons x t ih =>
    obtain ⟨v, hv⟩ := h 0 (by simp)
    simp only [List.getElem?_cons_zero, Option.some.injEq] at hv
    subst hv
    obtain ⟨out, h1, h2⟩ := ih (fun k hk => by
      have := h (k + 1) (by simp; omega)
      simpa using this)
    exact ⟨v :: out, by simp [freeze, h1], by simp [← h2]⟩

theorem for_loop_spec {σ : Type} (body : Nat → σ → Except Error σ)
    (Inv : Nat → σ → Prop) (bad : Nat → Prop) (e : Error) :
    ∀ (count lo : Nat) (s : σ), Inv lo s →
    (∀ i s, lo ≤ i → i < lo + count → Inv i s →
      (bad i ∧ body i s = .error e) ∨
      (¬ bad i ∧ ∃ s', body i s = .ok s' ∧ Inv (i + 1) s')) →
    ((∃ i, lo ≤ i ∧ i < lo + count ∧ bad i) ∧ for_loop body lo count s = .error e) ∨
    ((∀ i, lo ≤ i → i < lo + count → ¬ bad i) ∧
      ∃ s', for_loop body lo count s = .ok s' ∧ Inv (lo + count) s') := by
  intro count
  induction count with
  | zero =>
    intro lo s h0 _
    exact Or.inr ⟨fun i h1 h2 => by omega, s, rfl, h0⟩
  | succ c ih =>
    intro lo s h0 hstep
    rcases hstep lo s le_rfl (by omega) h0 with ⟨hb, he⟩ | ⟨hnb, s1, hs1, hI⟩
    · exact Or.inl ⟨⟨lo, le_rfl, by omega, hb⟩, by simp [for_loop, he]⟩
    · rcases ih (lo + 1) s1 hI (fun i s' h1 h2 hi => hstep i s' (by omega) (by omega) hi)
        with ⟨⟨i, h1, h2, h3⟩, he⟩ | ⟨hall, s2, hs2, hI2⟩
      · exact Or.inl ⟨⟨i, by omega, by omega, h3⟩, by simp [for_loop, hs1, he]⟩
      · refine Or.inr ⟨fun i h1 h2 => ?_, s2, by simp [for_loop, hs1, hs2], ?_⟩
        · rcases Nat.eq_or_lt_of_le h1 with h | h
          · subst h; exact hnb
          · exact hall i h (by omega)
        · have : lo + (c + 1) = lo + 1 + c := by omega
          rw [this]; exact hI2

theorem for_loop_ok {σ : Type} (body : Nat → σ → Except Error σ)
    (Inv : Nat → σ → Prop) (count lo : Nat) (s : σ) (h0 : Inv lo s)
    (hstep : ∀ i s, lo ≤ i → i < lo + count → Inv i s →
      ∃ s', body i s = .ok s' ∧ Inv (i + 1) s') :
    ∃ s', for_loop body lo count s = .ok s' ∧ Inv (lo + count) s' := by
  rcases for_loop_spec body Inv (fun _ => False) .out_of_bounds count lo s h0
    (fun i s h1 h2 h3 => Or.inr ⟨not_false, hstep i s h1 h2 h3⟩) with
    ⟨⟨_, _, _, h⟩, _⟩ | ⟨_, h⟩
  · exact h.elim
  · exact h

theorem packed_u_cells_init {α : Type} (val : Nat → Nat → Option α) (n : Nat) :
    packed_u_cells val n 0 (List.replicate (n * (n + 1) / 2) none) :=
  ⟨by simp, fun p q _ _ h => by omega⟩

theorem packed_u_cells_set {α : Type} {val : Nat → Nat → Option α} {n r : Nat}
    {result : List (Option α)} (h : packed_u_cells val n r result) {i j : Nat}
    (hij : i ≤ j) (hj : j < n) (hr : r = row_start_u n i + (j - i)) {v : α}
    (hv : val i j = some v) : packed_u_cells val n (r + 1) (result.set r (some v)) := by
  refine ⟨by simp [h.1], fun p q hpq hq hlt => ?_⟩
  have hrT : r < result.length := by rw [h.1, hr]; exact offset_u_lt n i j hij hj
  rw [List.getElem?_set]
  by_cases hc : r = row_start_u n p + (q - p)
  · obtain ⟨h1, h2⟩ := offset_u_inj n i j p q hij hj hpq hq (by omega)
    subst h1; subst h2
    rw [if_pos hc, if_pos hrT, hv]
  · rw [if_neg hc]
    exact h.2 p q hpq hq (by omega)

theorem packed_u_cells_freeze {α : Type} {val : Nat → Nat → Option α} {n : Nat}
    {result : List (Option α)} (h : packed_u_cells val n (n * (n + 1) / 2) result)
    (hval : ∀ p q, p ≤ q → q < n → ∃ v, val p q = some v) :
    ∃ out, freeze result = .ok out ∧ out.length = n * (n + 1) / 2 ∧
      ∀ p q, p ≤ q → q < n → out[row_start_u n p + (q - p)]? = val p q := by
  obtain ⟨out, h1, h2⟩ := freeze_spec result (fun k hk => by
    rw [h.1] at hk
    obtain ⟨p, q, hpq, hq, hoff⟩ := offset_u_surj n k hk
    obtain ⟨v, hv⟩ := hval p q hpq hq
    exact ⟨v, by rw [← hoff, h.2 p q hpq hq (by omega), hv]⟩)
  refine ⟨out, h1, ?_, fun p q hpq hq => ?_⟩
  · have := h.1; rw [h2, List.length_map] at this; exact this
  · have h3 := h.2 p q hpq hq (offset_u_lt n p q hpq hq)
    obtain ⟨v, hv⟩ := hval p q hpq hq
    rw [h2, List.getElem?_map, hv] at h3
    rw [hv]
    cases ho : out[row_start_u n p + (q - p)]? with
    | none => rw [ho] at h3; simp at h3
    | some w => rw [ho] at h3; simpa using h3

theorem packed_l_cells_init {α : Type} (val : Nat → Nat → Option α) (n : Nat) :
    packed_l_cells val n 0 (List.replicate (n * (n + 1) / 2) none) :=
  ⟨by simp, fun p q _ _ h => by omega⟩

theorem packed_l_cells_set {α : Type} {val : Nat → Nat → Option α} {n r : Nat}
    {result : List (Option α)} (h : packed_l_cells val n r result) {i j : Nat}
    (hji : j ≤ i) (hi : i < n) (hr : r = row_start_l i + j) {v : α}
    (hv : val i j = some v) : packed_l_cells val n (r + 1) (result.set r (some v)) := by
  refine ⟨by simp [h.1], fun p q hqp hp hlt => ?_⟩
  have hrT : r < result.length := by rw [h.1, hr]; exact offset_l_lt n i j hji hi
  rw [List.getElem?_set]
  by_cases hc : r = row_start_l p + q
  · obtain ⟨h1, h2⟩ := offset_l_inj i j p q hji hqp (by omega)
    subst h1; subst h2
    rw [if_pos hc, if_pos hrT, hv]
  · rw [if_neg hc]
    exact h.2 p q hqp hp (by omega)

theorem packed_l_cells_freeze {α : Type} {val : Nat → Nat → Option α} {n : Nat}
    {result : List (Option α)} (h : packed_l_cells val n (n * (n + 1) / 2) result)
    (hval : ∀ p q, q ≤ p → p < n → ∃ v, val p q = some v) :
    ∃ out, freeze result = .ok out ∧ out.length = n * (n + 1) / 2 ∧
      ∀ p q, q ≤ p → p < n → out[row_start_l p + q]? = val p q := by
  obtain ⟨out, h1, h2⟩ := freeze_spec result (fun k hk => by
    rw [h.1] at hk
    obtain ⟨p, q, hqp, hp, hoff⟩ := offset_l_surj n k hk
    obtain ⟨v, hv⟩ := hval p q hqp hp
    exact ⟨v, by rw [← hoff, h.2 p q hqp hp (by omega), hv]⟩)
  refine ⟨out, h1, ?_, fun p q hqp hp => ?_⟩
  · have := h.1; rw [h2, List.length_map] at this; exact this
  · have h3 := h.2 p q hqp hp (offset_l_lt n p q hqp hp)
    obtain ⟨v, hv⟩ := hval p q hqp hp
    rw [h2, List.getElem?_map, hv] at h3
    rw [hv]
    cases ho : out[row_start_l p + q]? with
    | none => rw [ho] at h3; simp at h3
    | some w => rw [ho] at h3; simpa using h3

theorem dense_cells_init {α : Type} (val : Nat → Nat → Option α) (n : Nat)
    (done : Nat → Nat → Prop) (h : ∀ p q, ¬ done p q) :
    dense_cells val n done (List.replicate (n * n) none) :=
  ⟨by simp, fun p q _ _ hd => absurd hd (h p q)⟩

theorem dense_cells_set {α : Type} {val : Nat → Nat → Option α} {n : Nat}
    {done : Nat → Nat → Prop} (done' : Nat → Nat → Prop) {result : List (Option α)}
    (h : dense_cells val n done result) {i j : Nat} (hi : i < n) (hj : j < n) {v : α}
    (hv : val i j = some v)
    (hd : ∀ p q, p < n → q < n → done' p q → done p q ∨ (p = i ∧ q = j)) :
    dense_cells val n done' (result.set (i * n + j) (some v)) := by
  refine ⟨by simp [h.1], fun p q hp hq hdone => ?_⟩
  have hlt : i * n + j < result.length := by rw [h.1]; exact idx_lt hi hj
  rw [List.getElem?_set]
  by_cases hc : i * n + j = p * n + q
  · obtain ⟨h1, h2⟩ := idx_inj hj hq hc
    subst h1; subst h2
    simp [hv, hlt]
  · rw [if_neg hc]
    rcases hd p q hp hq hdone with h1 | ⟨h1, h2⟩
    · exact h.2 p q hp hq h1
    · subst h1; subst h2; exact absurd rfl hc

theorem dense_cells_freeze {α : Type} {val : Nat → Nat → Option α} {n : Nat}
    {done : Nat → Nat → Prop} {result : List (Option α)}
    (h : dense_cells val n done result) (hdone : ∀ p q, p < n → q < n → done p q)
    (hval : ∀ p q, p < n → q < n → ∃ v, val p q = some v) :
    ∃ out, freeze result = .ok out ∧ out.length = n * n ∧
      ∀ p q, p < n → q < n → out[p * n + q]? = val p q := by
  have hn : ∀ k, k < n * n → k / n < n ∧ k % n < n ∧ k / n * n + k % n = k := by
    intro k hk
    have hpos : 0 < n := by
      rcases Nat.eq_zero_or_pos n with h0 | h0
      · subst h0; simp at hk
      · exact h0
    refine ⟨(Nat.div_lt_iff_lt_mul hpos).2 hk, Nat.mod_lt _ hpos, ?_⟩
    rw [Nat.mul_comm]; exact Nat.div_add_mod k n
  obtain ⟨out, h1, h2⟩ := freeze_spec result (fun k hk => by
    rw [h.1] at hk
    obtain ⟨hp, hq, hk2⟩ := hn k hk
    obtain ⟨v, hv⟩ := hval _ _ hp hq
    exact ⟨v, by rw [← hk2, h.2 _ _ hp hq (hdone _ _ hp hq), hv]⟩)
  refine ⟨out, h1, ?_, fun p q hp hq => ?_⟩
  · have := h.1; rw [h2, List.length_map] at this; exact this
  · have h3 := h.2 p q hp hq (hdone p q hp hq)
    obtain ⟨v, hv⟩ := hval p q hp hq
    rw [h2, List.getElem?_map, hv] at h3
    rw [hv]
    cases ho : out[p * n + q]? with
    | none => rw [ho] at h3; simp at h3
    | some w => rw [ho] at h3; simpa using h3

/-! ## Packing one triangle of a dense matrix -/

theorem ok_bind {α β : Type} (x : α) (f : α → Except Error β) :
    (Except.ok x >>= f) = f x := rfl

theorem error_bind {α β : Type} (e : Error) (f : α → Except Error β) :
    ((Except.error e : Except Error α) >>= f) = Except.error e := rfl

theorem getElem?_dense {α : Type} {a : List α} {n p q : Nat} (ha : a.length = n * n)
    (hp : p < n) (hq : q < n) : ∃ v, a[p * n + q]? = some v := by
  have h : p * n + q < a.length := by rw [ha]; exact idx_lt hp hq
  exact ⟨a[p * n + q], List.getElem?_eq_getElem h⟩

theorem upper_triangle_as_packed_u_row_spec {α : Type} (a : List α) (n i : Nat)
    (hi : i < n) (ha : a.length = n * n) (s : vars α) (h1 : s.ij = i * n)
    (h2 : s.r = row_start_u n i)
    (h3 : packed_u_cells (fun p q => a[p * n + q]?) n s.r s.result) :
    ∃ s', upper_triangle_as_packed_u_row a n i s = .ok s' ∧ s'.ij = (i + 1) * n ∧
      s'.r = row_start_u n (i + 1) ∧
      packed_u_cells (fun p q => a[p * n + q]?) n s'.r s'.result := by
  obtain ⟨s', hs', hI⟩ := for_loop_ok (upper_triangle_as_packed_u_cell a)
    (fun j t => t.ij = i * n + j ∧ t.r = row_start_u n i + (j - i) ∧
      packed_u_cells (fun p q => a[p * n + q]?) n t.r t.result)
    (n - i) i { s with ij := s.ij + i }
    ⟨by simp [h1], by simp [h2], h3⟩
    (fun j t hij hj ⟨t1, t2, t3⟩ => by
      have hjn : j < n := by omega
      obtain ⟨v, hv⟩ := getElem?_dense ha hi hjn
      have hlt : t.r < t.result.length := by
        rw [t3.1, t2]; exact offset_u_lt n i j hij hjn
      refine ⟨{ t with ij := t.ij + 1, r := t.r + 1, result := t.result.set t.r (some v) },
        ?_, ?_, ?_, ?_⟩
      · simp only [upper_triangle_as_packed_u_cell, t1, read_ok hv, ok_bind,
          write_ok v hlt]
      · simp only [t1]; omega
      · simp only [t2]; omega
      · exact packed_u_cells_set t3 hij hjn t2 hv)
  refine ⟨s', hs', ?_, ?_, ?_⟩
  · rw [hI.1]
    have e : (i + 1) * n = i * n + n := by ring
    omega
  · rw [hI.2.1]; simp only [row_start_u]; congr 1; omega
  · exact hI.2.2

/-- On a square `n` by `n` matrix `upper_triangle_as_packed_u` succeeds; the result has
`n(n+1)/2` elements and the element at position `row_start_u n p + (q - p)` is the entry
`(p, q)` of the matrix, for every `p ≤ q < n`. -/
theorem upper_triangle_as_packed_u_spec {α : Type} (a : versa α) (n : Nat)
    (hr : a.n_rows = n) (hc : a.n_columns = n) (hd : a.data.length = n * n) :
    ∃ out, upper_triangle_as_packed_u a = .ok out ∧ out.length = n * (n + 1) / 2 ∧
      ∀ p q, p ≤ q → q < n → out[row_start_u n p + (q - p)]? = a.data[p * n + q]? := by
  obtain ⟨s', hs', hI⟩ := for_loop_ok (upper_triangle_as_packed_u_row a.data n)
    (fun i t => t.ij = i * n ∧ t.r = row_start_u n i ∧
      packed_u_cells (fun p q => a.data[p * n + q]?) n t.r t.result)
    n 0 ⟨0, 0, 0, 0, 0, List.replicate (n * (n + 1) / 2) none⟩
    ⟨by simp, by simp [row_start_u], packed_u_cells_init _ n⟩
    (fun i t _ hi ⟨t1, t2, t3⟩ =>
      upper_triangle_as_packed_u_row_spec a.data n i (by omega) hd t t1 t2 t3)
  have hfin : packed_u_cells (fun p q => a.data[p * n + q]?) n (n * (n + 1) / 2)
      s'.result := by
    have := hI.2.2
    rw [hI.2.1, Nat.zero_add, row_start_u_self] at this
    exact this
  obtain ⟨out, ho1, ho2, ho3⟩ := packed_u_cells_freeze hfin
    (fun p q hpq hq => getElem?_dense hd (by omega) hq)
  refine ⟨out, ?_, ho2, ho3⟩
  unfold upper_triangle_as_packed_u
  rw [hr, hc]
  simp only [ne_eq, not_true_eq_false, if_false]
  show (for_loop (upper_triangle_as_packed_u_row a.data n) 0 n _ >>= fun s => freeze s.result) = _
  rw [hs']
  exact ho1

theorem lower_triangle_as_packed_l_row_spec {α : Type} (a : List α) (n i : Nat)
    (hi : i < n) (ha : a.length = n * n) (s : vars α) (h1 : s.i0 = i * n)
    (h2 : s.r = row_start_l i)
    (h3 : packed_l_cells (fun p q => a[p * n + q]?) n s.r s.result) :
    ∃ s', lower_triangle_as_packed_l_row a n i s = .ok s' ∧ s'.i0 = (i + 1) * n ∧
      s'.r = row_start_l (i + 1) ∧
      packed_l_cells (fun p q => a[p * n + q]?) n s'.r s'.result := by
  obtain ⟨s', hs', hI⟩ := for_loop_ok (lower_triangle_as_packed_l_cell a)
    (fun j t => t.i0 = i * n ∧ t.ij = i * n + j ∧ t.r = row_start_l i + j ∧
      packed_l_cells (fun p q => a[p * n + q]?) n t.r t.result)
    (i + 1) 0 { s with ij := s.i0 }
    ⟨h1, by simp [h1], by simp [h2], h3⟩
    (fun j t _ hj ⟨t0, t1, t2, t3⟩ => by
      have hji : j ≤ i := by omega
      obtain ⟨v, hv⟩ := getElem?_dense ha hi (show j < n by omega)
      have hlt : t.r < t.result.length := by
        rw [t3.1, t2]; exact offset_l_lt n i j hji hi
      refine ⟨{ t with ij := t.ij + 1, r := t.r + 1, result := t.result.set t.r (some v) },
        ?_, t0, ?_, ?_, ?_⟩
      · simp only [lower_triangle_as_packed_l_cell, t1, read_ok hv, ok_bind,
          write_ok v hlt]
      · simp only [t1]; omega
      · simp only [t2]; omega
      · exact packed_l_cells_set t3 hji hi t2 hv)
  refine ⟨{ s' with i0 := s'.i0 + n }, ?_, ?_, ?_, ?_⟩
  · simp only [lower_triangle_as_packed_l_row, hs', ok_bind]
  · simp only [hI.1]; ring
  · simp only [hI.2.2.1, row_start_l]; omega
  · exact hI.2.2.2

/-- On a square `n` by `n` matrix `lower_triangle_as_packed_l` succeeds; the result has
`n(n+1)/2` elements and the element at position `row_start_l p + q` is the entry `(p, q)`
of the matrix, for every `q ≤ p < n`. -/
theorem lower_triangle_as_packed_l_spec {α : Type} (a : versa α) (n : Nat)
    (hr : a.n_rows = n) (hc : a.n_columns = n) (hd : a.data.length = n * n) :
    ∃ out, lower_triangle_as_packed_l a = .ok out ∧ out.length = n * (n + 1) / 2 ∧
      ∀ p q, q ≤ p → p < n → out[row_start_l p + q]? = a.data[p * n + q]? := by
  obtain ⟨s', hs', hI⟩ := for_loop_ok (lower_triangle_as_packed_l_row a.data n)
    (fun i t => t.i0 = i * n ∧ t.r = row_start_l i ∧
      packed_l_cells (fun p q => a.data[p * n + q]?) n t.r t.result)
    n 0 ⟨0, 0, 0, 0, 0, List.replicate (n * (n + 1) / 2) none⟩
    ⟨by simp, by simp [row_start_l], packed_l_cells_init _ n⟩
    (fun i t _ hi ⟨t1, t2, t3⟩ =>
      lower_triangle_as_packed_l_row_spec a.data n i (by omega) hd t t1 t2 t3)
  have hfin : packed_l_cells (fun p q => a.data[p * n + q]?) n (n * (n + 1) / 2)
      s'.result := by
    have := hI.2.2
    rw [hI.2.1, Nat.zero_add, row_start_l_eq] at this
    exact this
  obtain ⟨out, ho1, ho2, ho3⟩ := packed_l_cells_freeze hfin
    (fun p q hqp hp => getElem?_dense hd hp (by omega))
  refine ⟨out, ?_, ho2, ho3⟩
  unfold lower_triangle_as_packed_l
  rw [hr, hc]
  simp only [ne_eq, not_true_eq_false, if_false]
  show (for_loop (lower_triangle_as_packed_l_row a.data n) 0 n _ >>= fun s => freeze s.result) = _
  rw [hs']
  exact ho1

theorem packed_u_ext {α : Type} (n : Nat) (l1 l2 : List α)
    (h1 : l1.length = n * (n + 1) / 2) (h2 : l2.length = n * (n + 1) / 2)
    (h : ∀ p q, p ≤ q → q < n →
      l1[row_start_u n p + (q - p)]? = l2[row_start_u n p + (q - p)]?) : l1 = l2 := by
  apply List.ext_getElem?
  intro k
  by_cases hk : k < n * (n + 1) / 2
  · obtain ⟨p, q, hpq, hq, hoff⟩ := offset_u_surj n k hk
    rw [← hoff]; exact h p q hpq hq
  · rw [List.getElem?_eq_none (by omega), List.getElem?_eq_none (by omega)]

theorem packed_l_ext {α : Type} (n : Nat) (l1 l2 : List α)
    (h1 : l1.length = n * (n + 1) / 2) (h2 : l2.length = n * (n + 1) / 2)
    (h : ∀ p q, q ≤ p → p < n → l1[row_start_l p + q]? = l2[row_start_l p + q]?) :
    l1 = l2 := by
  apply List.ext_getElem?
  intro k
  by_cases hk : k < n * (n + 1) / 2
  · obtain ⟨p, q, hqp, hp, hoff⟩ := offset_l_surj n k hk
    rw [← hoff]; exact h p q hqp hp
  · rw [List.getElem?_eq_none (by omega), List.getElem?_eq_none (by omega)]

/-- Layout of `upper_triangle_as_packed_u`.  For every `n` and every square `n` by `n`
row-major matrix `a` the routine succeeds with a result of length `n(n+1)/2` that holds
`a[i*n+j]` at position `row_start_u n i + (j - i)` for all `i ≤ j < n`; the positions run
through `(0,0)..(0,n-1)`, then `(1,1)..(1,n-1)`, and so on (each position is one more than
the previous one); and a matrix `b` that agrees with `a` on and above the diagonal gives
the same result.  Within `n ≤ 65537` the position of `(i,j)` is
`packed_u_accessor(n)(i,j)`. -/
theorem upper_triangle_as_packed_u_layout {α : Type} (n : Nat) (a : versa α)
    (hr : a.n_rows = n) (hc : a.n_columns = n) (hd : a.data.length = n * n) :
    ∃ out, upper_triangle_as_packed_u a = .ok out ∧ out.length = n * (n + 1) / 2 ∧
      (∀ i j, i ≤ j → j < n →
        out[row_start_u n i + (j - i)]? = a.data[i * n + j]? ∧
        a.data[i * n + j]? ≠ none) ∧
      row_start_u n 0 + (0 - 0) = 0 ∧
      (∀ i j, i ≤ j → j + 1 < n →
        row_start_u n i + (j + 1 - i) = row_start_u n i + (j - i) + 1) ∧
      (∀ i, i + 1 < n →
        row_start_u n (i + 1) + (i + 1 - (i + 1)) = row_start_u n i + (n - 1 - i) + 1) ∧
      (∀ b : versa α, b.n_rows = n → b.n_columns = n → b.data.length = n * n →
        (∀ i j, i ≤ j → j < n → b.data[i * n + j]? = a.data[i * n + j]?) →
        upper_triangle_as_packed_u b = .ok out) ∧
      (n ≤ 65537 → ∀ i j, i ≤ j → j < n →
        (packed_u_accessor.mk n).call i j = row_start_u n i + (j - i) ∧
        out[(packed_u_accessor.mk n).call i j]? = a.data[i * n + j]?) := by
  obtain ⟨out, h1, h2, h3⟩ := upper_triangle_as_packed_u_spec a n hr hc hd
  refine ⟨out, h1, h2, ?_, ?_, ?_, ?_, ?_, ?_⟩
  · intro i j hij hj
    obtain ⟨v, hv⟩ := getElem?_dense hd (show i < n by omega) hj
    exact ⟨h3 i j hij hj, by simp [hv]⟩
  · simp [row_start_u]
  · intro i j hij hj
    omega
  · intro i hi
    simp only [row_start_u]; omega
  · intro b hbr hbc hbd hab
    obtain ⟨out', g1, g2, g3⟩ := upper_triangle_as_packed_u_spec b n hbr hbc hbd
    rw [g1]
    congr 1
    exact packed_u_ext n out' out g2 h2 (fun p q hpq hq => by
      rw [g3 p q hpq hq, h3 p q hpq hq, hab p q hpq hq])
  · intro hn i j hij hj
    rw [packed_u_accessor_call_eq n i j hn hij hj]
    exact ⟨rfl, h3 i j hij hj⟩

/-- Instance of `upper_triangle_as_packed_u_layout` on the matrix `[[1,2],[3,4]]`. -/
theorem upper_triangle_as_packed_u_layout_witness :
    ∃ out, upper_triangle_as_packed_u (⟨2, 2, [1, 2, 3, 4]⟩ : versa Int) = .ok out ∧
      out.length = 2 * (2 + 1) / 2 ∧
      (∀ i j, i ≤ j → j < 2 →
        out[row_start_u 2 i + (j - i)]? = [(1 : Int), 2, 3, 4][i * 2 + j]? ∧
        [(1 : Int), 2, 3, 4][i * 2 + j]? ≠ none) ∧
      (∀ i j, i ≤ j → j < 2 →
        (packed_u_accessor.mk 2).call i j = row_start_u 2 i + (j - i) ∧
        out[(packed_u_accessor.mk 2).call i j]? = [(1 : Int), 2, 3, 4][i * 2 + j]?) := by
  obtain ⟨out, h1, h2, h3, _, _, _, _, h8⟩ :=
    upper_triangle_as_packed_u_layout 2 (⟨2, 2, [1, 2, 3, 4]⟩ : versa Int) rfl rfl rfl
  exact ⟨out, h1, h2, h3, h8 (by decide)⟩

/-- Claim C1 at the failing input `n = 65538`.  The claim says that the result of
`upper_triangle_as_packed_u` holds `a[i][j]` at index `packed_u_accessor(n)(i,j)` for all
`i ≤ j < n`.  On the `65538` by `65538` matrix that is `1` at `(2, 32769)` and `0`
elsewhere the routine stores the entry `(65537, 65537)`, which is `0`, at position
`2147647490`, below `2^32`; but `packed_u_accessor(65538)(65537, 65537)` is `163842`,
because `i*(i-1)` wraps around in `unsigned` before it is halved, and the result holds
there the entry `(2, 32769)`, which is `1`. -/
theorem upper_triangle_as_packed_u_accessor_mismatch :
    ∃ out, upper_triangle_as_packed_u
        (⟨65538, 65538, (List.replicate (65538 * 65538) 0).set (2 * 65538 + 32769) 1⟩ :
          versa Int) = .ok out ∧
      (65537 ≤ 65537 ∧ 65537 < 65538) ∧
      row_start_u 65538 65537 + (65537 - 65537) = 2147647490 ∧ 2147647490 < 2 ^ 32 ∧
      out[2147647490]? = some 0 ∧
      (packed_u_accessor.mk 65538).call 65537 65537 = 163842 ∧
      out[(packed_u_accessor.mk 65538).call 65537 65537]? = some 1 ∧
      ((List.replicate (65538 * 65538) 0).set (2 * 65538 + 32769) (1 : Int))[
        65537 * 65538 + 65537]? = some 0 ∧
      out[(packed_u_accessor.mk 65538).call 65537 65537]? ≠
        ((List.replicate (65538 * 65538) 0).set (2 * 65538 + 32769) (1 : Int))[
          65537 * 65538 + 65537]? := by
  have hlen : ((List.replicate (65538 * 65538) 0).set (2 * 65538 + 32769) (1 : Int)).length
      = 65538 * 65538 := by
    rw [List.length_set, List.length_replicate]
  obtain ⟨out, h1, _, h3⟩ := upper_triangle_as_packed_u_spec
    (⟨65538, 65538, (List.replicate (65538 * 65538) 0).set (2 * 65538 + 32769) 1⟩ :
      versa Int) 65538 rfl rfl hlen
  have hc : (packed_u_accessor.mk 65538).call 65537 65537 = 163842 := by decide
  have hr : row_start_u 65538 2 + (32769 - 2) = 163842 := by
    simp only [row_start_u]
  have hx := h3 2 32769 (by decide) (by decide)
  rw [hr] at hx
  have e1 : out[(packed_u_accessor.mk 65538).call 65537 65537]? = some 1 := by
    rw [hc, hx]
    show ((List.replicate (65538 * 65538) 0).set (2 * 65538 + 32769) (1 : Int))[
      2 * 65538 + 32769]? = some 1
    rw [List.getElem?_set, if_pos rfl, List.length_replicate, if_pos (by decide)]
  have e2 : ((List.replicate (65538 * 65538) 0).set (2 * 65538 + 32769) (1 : Int))[
      65537 * 65538 + 65537]? = some 0 := by
    rw [List.getElem?_set, if_neg (by decide), List.getElem?_replicate,
      if_pos (by decide)]
  have hd : row_start_u 65538 65537 + (65537 - 65537) = 2147647490 := by
    have := two_mul_row_start_u 65538 65537 (by decide)
    omega
  have hy := h3 65537 65537 (by decide) (by decide)
  rw [hd] at hy
  refine ⟨out, h1, by decide, hd, by decide, ?_, hc, e1, e2, ?_⟩
  · rw [hy]; exact e2
  · rw [e1, e2]
    decide

/-- Layout of `lower_triangle_as_packed_l`.  For every `n` and every square `n` by `n`
row-major matrix `a` the routine succeeds with a result of length `n(n+1)/2` that holds
`a[i*n+j]` at position `row_start_l i + j` for all `j ≤ i < n`; the positions run through
`(0,0)`, then `(1,0),(1,1)`, and so on (each position is one more than the previous one);
and a matrix `b` that agrees with `a` on and below the diagonal gives the same result.
Within `n ≤ 65536` the position of `(i,j)` is `packed_l_accessor(n)(i,j)`. -/
theorem lower_triangle_as_packed_l_layout {α : Type} (n : Nat) (a : versa α)
    (hr : a.n_rows = n) (hc : a.n_columns = n) (hd : a.data.length = n * n) :
    ∃ out, lower_triangle_as_packed_l a = .ok out ∧ out.length = n * (n + 1) / 2 ∧
      (∀ i j, j ≤ i → i < n →
        out[row_start_l i + j]? = a.data[i * n + j]? ∧
        a.data[i * n + j]? ≠ none) ∧
      row_start_l 0 + 0 = 0 ∧
      (∀ i j, j + 1 ≤ i → i < n → row_start_l i + (j + 1) = row_start_l i + j + 1) ∧
      (∀ i, i + 1 < n → row_start_l (i + 1) + 0 = row_start_l i + i + 1) ∧
      (∀ b : versa α, b.n_rows = n → b.n_columns = n → b.data.length = n * n →
        (∀ i j, j ≤ i → i < n → b.data[i * n + j]? = a.data[i * n + j]?) →
        lower_triangle_as_packed_l b = .ok out) ∧
      (n ≤ 65536 → ∀ i j, j ≤ i → i < n →
        (packed_l_accessor.mk n).call i j = row_start_l i + j ∧
        out[(packed_l_accessor.mk n).call i j]? = a.data[i * n + j]?) := by
  obtain ⟨out, h1, h2, h3⟩ := lower_triangle_as_packed_l_spec a n hr hc hd
  refine ⟨out, h1, h2, ?_, ?_, ?_, ?_, ?_, ?_⟩
  · intro i j hji hi
    obtain ⟨v, hv⟩ := getElem?_dense hd hi (show j < n by omega)
    exact ⟨h3 i j hji hi, by simp [hv]⟩
  · simp [row_start_l]
  · intro i j hji hi
    omega
  · intro i hi
    simp only [row_start_l]; omega
  · intro b hbr hbc hbd hab
    obtain ⟨out', g1, g2, g3⟩ := lower_triangle_as_packed_l_spec b n hbr hbc hbd
    rw [g1]
    congr 1
    exact packed_l_ext n out' out g2 h2 (fun p q hqp hp => by
      rw [g3 p q hqp hp, h3 p q hqp hp, hab p q hqp hp])
  · intro hn i j hji hi
    rw [packed_l_accessor_call_eq n i j hn hji hi]
    exact ⟨rfl, h3 i j hji hi⟩

/-- Instance of `lower_triangle_as_packed_l_layout` on the matrix `[[1,2],[3,4]]`. -/
theorem lower_triangle_as_packed_l_layout_witness :
    ∃ out, lower_triangle_as_packed_l (⟨2, 2, [1, 2, 3, 4]⟩ : versa Int) = .ok out ∧
      out.length = 2 * (2 + 1) / 2 ∧
      (∀ i j, j ≤ i → i < 2 →
        out[row_start_l i + j]? = [(1 : Int), 2, 3, 4][i * 2 + j]? ∧
        [(1 : Int), 2, 3, 4][i * 2 + j]? ≠ none) ∧
      (∀ i j, j ≤ i → i < 2 →
        (packed_l_accessor.mk 2).call i j = row_start_l i + j ∧
        out[(packed_l_accessor.mk 2).call i j]? = [(1 : Int), 2, 3, 4][i * 2 + j]?) := by
  obtain ⟨out, h1, h2, h3, _, _, _, _, h8⟩ :=
    lower_triangle_as_packed_l_layout 2 (⟨2, 2, [1, 2, 3, 4]⟩ : versa Int) rfl rfl rfl
  exact ⟨out, h1, h2, h3, h8 (by decide)⟩

/-- Claim C2 at the failing input `n = 65537`.  The claim says that the result of
`lower_triangle_as_packed_l` holds `a[i][j]` at index `packed_l_accessor(n)(i,j)` for all
`j ≤ i < n`.  On the `65537` by `65537` matrix that is `1` at `(255, 128)` and `0`
elsewhere the routine stores the entry `(65536, 0)`, which is `0`, at position
`2147516416`, below `2^32`; but `packed_l_accessor(65537)(65536, 0)` is `32768`, because
`i*(i+1)` wraps around in `unsigned` before it is halved, and the result holds there the
entry `(255, 128)`, which is `1`. -/
theorem lower_triangle_as_packed_l_accessor_mismatch :
    ∃ out, lower_triangle_as_packed_l
        (⟨65537, 65537, (List.replicate (65537 * 65537) 0).set (255 * 65537 + 128) 1⟩ :
          versa Int) = .ok out ∧
      (0 ≤ 65536 ∧ 65536 < 65537) ∧
      row_start_l 65536 + 0 = 2147516416 ∧ 2147516416 < 2 ^ 32 ∧
      out[2147516416]? = some 0 ∧
      (packed_l_accessor.mk 65537).call 65536 0 = 32768 ∧
      out[(packed_l_accessor.mk 65537).call 65536 0]? = some 1 ∧
      ((List.replicate (65537 * 65537) 0).set (255 * 65537 + 128) (1 : Int))[
        65536 * 65537 + 0]? = some 0 ∧
      out[(packed_l_accessor.mk 65537).call 65536 0]? ≠
        ((List.replicate (65537 * 65537) 0).set (255 * 65537 + 128) (1 : Int))[
          65536 * 65537 + 0]? := by
  have hlen : ((List.replicate (65537 * 65537) 0).set (255 * 65537 + 128) (1 : Int)).length
      = 65537 * 65537 := by
    rw [List.length_set, List.length_replicate]
  obtain ⟨out, h1, _, h3⟩ := lower_triangle_as_packed_l_spec
    (⟨65537, 65537, (List.replicate (65537 * 65537) 0).set (255 * 65537 + 128) 1⟩ :
      versa Int) 65537 rfl rfl hlen
  have hc : (packed_l_accessor.mk 65537).call 65536 0 = 32768 := by decide
  have hr : row_start_l 255 + 128 = 32768 := by
    rw [row_start_l_eq]
  have hx := h3 255 128 (by decide) (by decide)
  rw [hr] at hx
  have e1 : out[(packed_l_accessor.mk 65537).call 65536 0]? = some 1 := by
    rw [hc, hx]
    show ((List.replicate (65537 * 65537) 0).set (255 * 65537 + 128) (1 : Int))[
      255 * 65537 + 128]? = some 1
    rw [List.getElem?_set, if_pos rfl, List.length_replicate, if_pos (by decide)]
  have e2 : ((List.replicate (65537 * 65537) 0).set (255 * 65537 + 128) (1 : Int))[
      65536 * 65537 + 0]? = some 0 := by
    rw [List.getElem?_set, if_neg (by decide), List.getElem?_replicate,
      if_pos (by decide)]
  have hd : row_start_l 65536 + 0 = 2147516416 := by
    rw [row_start_l_eq]
  have hy := h3 65536 0 (by decide) (by decide)
  rw [hd] at hy
  refine ⟨out, h1, by decide, hd, by decide, ?_, hc, e1, e2, ?_⟩
  · rw [hy]; exact e2
  · rw [e1, e2]
    decide

/-! ## Expanding a packed triangle to a dense matrix -/

theorem getElem?_packed {α : Type} {a : List α} {n k : Nat} (ha : a.length = n * (n + 1) / 2)
    (hk : k < n * (n + 1) / 2) : ∃ v, a[k]? = some v :=
  ⟨a[k], List.getElem?_eq_getElem (by omega)⟩

theorem zero_cell_loop {α : Type} [Zero α] (val : Nat → Nat → Option α) (n i lo count : Nat)
    (hi : i < n) (hc : lo + count ≤ n)
    (hval : ∀ j, lo ≤ j → j < lo + count → val i j = some 0) (s : vars α)
    (h1 : s.ij = i * n + lo)
    (h3 : dense_cells val n (fun p q => p * n + q < s.ij) s.result) :
    ∃ s', for_loop zero_cell lo count s = .ok s' ∧ s'.ij = i * n + (lo + count) ∧
      s'.i_a = s.i_a ∧ dense_cells val n (fun p q => p * n + q < s'.ij) s'.result := by
  obtain ⟨s', hs', hI⟩ := for_loop_ok zero_cell
    (fun j t => t.ij = i * n + j ∧ t.i_a = s.i_a ∧
      dense_cells val n (fun p q => p * n + q < t.ij) t.result)
    count lo s ⟨h1, rfl, h3⟩
    (fun j t hlo hj ⟨t1, t2, t3⟩ => by
      have hjn : j < n := by omega
      have hlt : t.ij < t.result.length := by rw [t3.1, t1]; exact idx_lt hi hjn
      refine ⟨{ t with ij := t.ij + 1, result := t.result.set t.ij (some 0) }, ?_, ?_, t2, ?_⟩
      · simp only [zero_cell, write_ok (0 : α) hlt, ok_bind]
      · simp only [t1]; omega
      · have := dense_cells_set (fun p q => p * n + q < t.ij + 1) t3 hi hjn
          (hval j hlo hj) (fun p q _ hq hd => by
            rcases Nat.lt_or_ge (p * n + q) t.ij with h | h
            · exact Or.inl h
            · exact Or.inr (idx_inj hq hjn (by omega)))
        rw [← t1] at this
        exact this)
  exact ⟨s', hs', hI.1, hI.2.1, hI.2.2⟩

theorem copy_cell_loop {α : Type} (a : List α) (val : Nat → Nat → Option α)
    (n i lo count base : Nat) (hi : i < n) (hc : lo + count ≤ n)
    (hval : ∀ j, lo ≤ j → j < lo + count →
      val i j = a[base + j]? ∧ ∃ v, a[base + j]? = some v)
    (s : vars α) (h1 : s.ij = i * n + lo) (h2 : s.i_a = base + lo)
    (h3 : dense_cells val n (fun p q => p * n + q < s.ij) s.result) :
    ∃ s', for_loop (copy_cell a) lo count s = .ok s' ∧ s'.ij = i * n + (lo + count) ∧
      s'.i_a = base + (lo + count) ∧
      dense_cells val n (fun p q => p * n + q < s'.ij) s'.result := by
  obtain ⟨s', hs', hI⟩ := for_loop_ok (copy_cell a)
    (fun j t => t.ij = i * n + j ∧ t.i_a = base + j ∧
      dense_cells val n (fun p q => p * n + q < t.ij) t.result)
    count lo s ⟨h1, h2, h3⟩
    (fun j t hlo hj ⟨t1, t2, t3⟩ => by
      have hjn : j < n := by omega
      have hlt : t.ij < t.result.length := by rw [t3.1, t1]; exact idx_lt hi hjn
      obtain ⟨hv1, v, hv⟩ := hval j hlo hj
      refine ⟨⟨t.i_a + 1, t.i0, t.ij + 1, t.jnpi, t.r, t.result.set t.ij (some v)⟩,
        ?_, ?_, ?_, ?_⟩
      · simp only [copy_cell, t2, read_ok hv, ok_bind, write_ok v hlt]
      · simp only [t1]; omega
      · simp only [t2]; omega
      · have := dense_cells_set (fun p q => p * n + q < t.ij + 1) t3 hi hjn
          (hv1.trans hv) (fun p q _ hq hd => by
            rcases Nat.lt_or_ge (p * n + q) t.ij with h | h
            · exact Or.inl h
            · exact Or.inr (idx_inj hq hjn (by omega)))
        rw [← t1] at this
        exact this)
  exact ⟨s', hs', hI.1, hI.2.1, hI.2.2⟩

/-- For a packed sequence of length `n(n+1)/2` with `n ≤ 65535`,
`packed_u_as_upper_triangle` succeeds with the `n` by `n` matrix that holds the packed
value of `(p, q)` for `p ≤ q` and `0` for `q < p`. -/
theorem packed_u_as_upper_triangle_spec {α : Type} [Zero α] (a : List α) (n : Nat)
    (hn : n ≤ 65535) (ha : a.length = n * (n + 1) / 2) :
    ∃ d, packed_u_as_upper_triangle a = .ok d ∧ d.n_rows = n ∧ d.n_columns = n ∧
      d.data.length = n * n ∧
      ∀ p q, p < n → q < n →
        d.data[p * n + q]? = if q < p then some 0 else a[row_start_u n p + (q - p)]? := by
  let val : Nat → Nat → Option α :=
    fun p q => if q < p then some 0 else a[row_start_u n p + (q - p)]?
  obtain ⟨s', hs', hI⟩ := for_loop_ok (packed_u_as_upper_triangle_row a n)
    (fun i t => t.ij = i * n ∧ t.i_a = row_start_u n i ∧
      dense_cells val n (fun p q => p * n + q < t.ij) t.result)
    n 0 ⟨0, 0, 0, 0, 0, List.replicate (n * n) none⟩
    ⟨by simp, by simp [row_start_u], dense_cells_init _ n _ (fun p q => by simp)⟩
    (fun i t _ hi ⟨t1, t2, t3⟩ => by
      have hin : i < n := by omega
      obtain ⟨s1, e1, a1, b1, c1⟩ := zero_cell_loop val n i 0 i hin (by omega)
        (fun j _ hj => by simp only [val]; rw [if_pos (by omega)]) t (by simp [t1]) t3
      obtain ⟨s2, e2, a2, b2, c2⟩ := copy_cell_loop a val n i i (n - i)
        (row_start_u n i - i) hin (by omega)
        (fun j hj1 hj2 => by
          have hoff := offset_u_lt n i j hj1 (by omega)
          have he : row_start_u n i - i + j = row_start_u n i + (j - i) := by
            have := two_mul_row_start_u n i (by omega)
            have hle : i ≤ row_start_u n i := by
              rcases Nat.eq_zero_or_pos i with h0 | h0
              · omega
              · have := row_start_u_mono n (show 1 ≤ i from h0)
                simp only [row_start_u] at this
                omega
            omega
          simp only [val]
          rw [if_neg (by omega), he]
          exact ⟨rfl, getElem?_packed ha hoff⟩)
        s1 (by simp [a1]) (by
          rw [b1, t2]
          have hle : i ≤ row_start_u n i := by
            rcases Nat.eq_zero_or_pos i with h0 | h0
            · omega
            · have := row_start_u_mono n (show 1 ≤ i from h0)
              simp only [row_start_u] at this
              omega
          omega) c1
      refine ⟨s2, ?_, ?_, ?_, c2⟩
      · simp only [packed_u_as_upper_triangle_row, e1, ok_bind, e2]
      · rw [a2]
        have e : (i + 1) * n = i * n + n := by ring
        omega
      · rw [b2]; simp only [row_start_u]
        have hle : i ≤ row_start_u n i := by
          rcases Nat.eq_zero_or_pos i with h0 | h0
          · omega
          · have := row_start_u_mono n (show 1 ≤ i from h0)
            simp only [row_start_u] at this
            omega
        omega)
  obtain ⟨out, ho1, ho2, ho3⟩ := dense_cells_freeze hI.2.2
    (fun p q hp hq => by
      show p * n + q < s'.ij
      rw [hI.1, Nat.zero_add]; exact idx_lt hp hq)
    (fun p q hp hq => by
      simp only [val]
      by_cases h : q < p
      · exact ⟨0, if_pos h⟩
      · rw [if_neg h]
        exact getElem?_packed ha (offset_u_lt n p q (by omega) hq))
  refine ⟨⟨n, n, out⟩, ?_, rfl, rfl, ho2, ho3⟩
  simp only [packed_u_as_upper_triangle, ha, symmetric_n_from_packed_size_ok n hn, ok_bind,
    hs', ho1]

/-- For a packed sequence of length `n(n+1)/2` with `n ≤ 65535`,
`packed_l_as_lower_triangle` succeeds with the `n` by `n` matrix that holds the packed
value of `(p, q)` for `q ≤ p` and `0` for `p < q`. -/
theorem packed_l_as_lower_triangle_spec {α : Type} [Zero α] (a : List α) (n : Nat)
    (hn : n ≤ 65535) (ha : a.length = n * (n + 1) / 2) :
    ∃ d, packed_l_as_lower_triangle a = .ok d ∧ d.n_rows = n ∧ d.n_columns = n ∧
      d.data.length = n * n ∧
      ∀ p q, p < n → q < n →
        d.data[p * n + q]? = if p < q then some 0 else a[row_start_l p + q]? := by
  let val : Nat → Nat → Option α :=
    fun p q => if p < q then some 0 else a[row_start_l p + q]?
  obtain ⟨s', hs', hI⟩ := for_loop_ok (packed_l_as_lower_triangle_row a n)
    (fun i t => t.ij = i * n ∧ t.i_a = row_start_l i ∧
      dense_cells val n (fun p q => p * n + q < t.ij) t.result)
    n 0 ⟨0, 0, 0, 0, 0, List.replicate (n * n) none⟩
    ⟨by simp, by simp [row_start_l], dense_cells_init _ n _ (fun p q => by simp)⟩
    (fun i t _ hi ⟨t1, t2, t3⟩ => by
      have hin : i < n := by omega
      obtain ⟨s1, e1, a1, b1, c1⟩ := copy_cell_loop a val n i 0 (i + 1)
        (row_start_l i) hin (by omega)
        (fun j _ hj => by
          simp only [val]
          rw [if_neg (by omega)]
          exact ⟨rfl, getElem?_packed ha (offset_l_lt n i j (by omega) hin)⟩)
        t (by simp [t1]) (by simp [t2]) t3
      obtain ⟨s2, e2, a2, b2, c2⟩ := zero_cell_loop val n i (i + 1) (n - (i + 1)) hin
        (by omega) (fun j hj1 _ => by simp only [val]; rw [if_pos (by omega)])
        s1 (by rw [a1]; omega) c1
      refine ⟨s2, ?_, ?_, ?_, c2⟩
      · simp only [packed_l_as_lower_triangle_row, e1, ok_bind, e2]
      · rw [a2]
        have e : (i + 1) * n = i * n + n := by ring
        omega
      · rw [b2, b1]; simp only [row_start_l]; omega)
  obtain ⟨out, ho1, ho2, ho3⟩ := dense_cells_freeze hI.2.2
    (fun p q hp hq => by
      show p * n + q < s'.ij
      rw [hI.1, Nat.zero_add]; exact idx_lt hp hq)
    (fun p q hp hq => by
      simp only [val]
      by_cases h : p < q
      · exact ⟨0, if_pos h⟩
      · rw [if_neg h]
        exact getElem?_packed ha (offset_l_lt n p q (by omega) hp))
  refine ⟨⟨n, n, out⟩, ?_, rfl, rfl, ho2, ho3⟩
  simp only [packed_l_as_lower_triangle, ha, symmetric_n_from_packed_size_ok n hn, ok_bind,
    hs', ho1]

/-- When the recovery of the dimension fails, so do the zero-filled expansions. -/
theorem zero_filled_fail_of_size {α : Type} [Zero α] (a : List α) (e : Error)
    (h : symmetric_n_from_packed_size a.length = .error e) :
    packed_u_as_upper_triangle a = .error e ∧ packed_l_as_lower_triangle a = .error e := by
  refine ⟨?_, ?_⟩
  · simp only [packed_u_as_upper_triangle, h, error_bind]
  · simp only [packed_l_as_lower_triangle, h, error_bind]

/-- When the recovery of the dimension fails, so do the mirrored expansions. -/
theorem mirrored_fail_of_size {α : Type} (a : List α) (e : Error)
    (h : symmetric_n_from_packed_size a.length = .error e) :
    packed_u_as_symmetric a = .error e ∧ packed_l_as_symmetric a = .error e := by
  refine ⟨?_, ?_⟩
  · simp only [packed_u_as_symmetric, h, error_bind]
  · simp only [packed_l_as_symmetric, h, error_bind]

theorem size_overflow_65536 :
    symmetric_n_from_packed_size (65536 * (65536 + 1) / 2) = .error .size_mismatch := by
  unfold symmetric_n_from_packed_size
  rw [sqrt_of_triangular]
  simp only [u32]
  norm_num

/-- Round trip through the zero-filled expansion, within the dimensions the dimension
recovery accepts: for every `n ≤ 65535` and every square `n` by `n` matrix `D`,
`packed_u_as_upper_triangle(upper_triangle_as_packed_u(D))` is the `n` by `n` matrix equal
to `D` at every `(i,j)` with `i ≤ j` and `0` at every `(i,j)` with `i > j`, and
`packed_l_as_lower_triangle(lower_triangle_as_packed_l(D))` is the `n` by `n` matrix equal
to `D` at every `(i,j)` with `i ≥ j` and `0` at every `(i,j)` with `i < j`. -/
theorem zero_filled_round_trip {α : Type} [Zero α] (n : Nat) (d : versa α)
    (hn : n ≤ 65535) (hr : d.n_rows = n) (hc : d.n_columns = n)
    (hd : d.data.length = n * n) :
    (∃ u, (upper_triangle_as_packed_u d >>= packed_u_as_upper_triangle) = .ok u ∧
      u.n_rows = n ∧ u.n_columns = n ∧ u.data.length = n * n ∧
      ∀ i j, i < n → j < n →
        u.data[i * n + j]? = if i ≤ j then d.data[i * n + j]? else some 0) ∧
    (∃ l, (lower_triangle_as_packed_l d >>= packed_l_as_lower_triangle) = .ok l ∧
      l.n_rows = n ∧ l.n_columns = n ∧ l.data.length = n * n ∧
      ∀ i j, i < n → j < n →
        l.data[i * n + j]? = if j ≤ i then d.data[i * n + j]? else some 0) := by
  constructor
  · obtain ⟨out, h1, h2, h3⟩ := upper_triangle_as_packed_u_spec d n hr hc hd
    obtain ⟨u, g1, g2, g3, g4, g5⟩ := packed_u_as_upper_triangle_spec out n hn h2
    refine ⟨u, by rw [h1, ok_bind, g1], g2, g3, g4, fun i j hi hj => ?_⟩
    rw [g5 i j hi hj]
    by_cases h : i ≤ j
    · rw [if_neg (by omega), if_pos h, h3 i j h hj]
    · rw [if_pos (by omega), if_neg h]
  · obtain ⟨out, h1, h2, h3⟩ := lower_triangle_as_packed_l_spec d n hr hc hd
    obtain ⟨l, g1, g2, g3, g4, g5⟩ := packed_l_as_lower_triangle_spec out n hn h2
    refine ⟨l, by rw [h1, ok_bind, g1], g2, g3, g4, fun i j hi hj => ?_⟩
    rw [g5 i j hi hj]
    by_cases h : j ≤ i
    · rw [if_neg (by omega), if_pos h, h3 i j h hi]
    · rw [if_pos (by omega), if_neg h]

/-- Instance of `zero_filled_round_trip` on the matrix `[[1,2],[3,4]]`. -/
theorem zero_filled_round_trip_witness :
    (∃ u, (upper_triangle_as_packed_u (⟨2, 2, [1, 2, 3, 4]⟩ : versa Int)
        >>= packed_u_as_upper_triangle) = .ok u ∧
      u.n_rows = 2 ∧ u.n_columns = 2 ∧ u.data.length = 2 * 2 ∧
      ∀ i j, i < 2 → j < 2 →
        u.data[i * 2 + j]? = if i ≤ j then [(1 : Int), 2, 3, 4][i * 2 + j]? else some 0) ∧
    (∃ l, (lower_triangle_as_packed_l (⟨2, 2, [1, 2, 3, 4]⟩ : versa Int)
        >>= packed_l_as_lower_triangle) = .ok l ∧
      l.n_rows = 2 ∧ l.n_columns = 2 ∧ l.data.length = 2 * 2 ∧
      ∀ i j, i < 2 → j < 2 →
        l.data[i * 2 + j]? = if j ≤ i then [(1 : Int), 2, 3, 4][i * 2 + j]? else some 0) :=
  zero_filled_round_trip 2 (⟨2, 2, [1, 2, 3, 4]⟩ : versa Int) (by decide) rfl rfl rfl

/-- Claim C4 at the failing input `n = 65536`.  The claim says that packing a triangle of
a square matrix and expanding it with zero fill gives the matrix back with the other
triangle zeroed.  On the all-zero `65536` by `65536` matrix both packing routines succeed,
with `65536*65537/2` elements, and both zero-filled expansions then fail with the
size-mismatch assertion, because `symmetric_n_from_packed_size` evaluates `n*(n+1)/2` in
32-bit `unsigned`. -/
theorem zero_filled_round_trip_overflow :
    (upper_triangle_as_packed_u (⟨65536, 65536, List.replicate (65536 * 65536) 0⟩ : versa Int)
      >>= packed_u_as_upper_triangle) = .error .size_mismatch ∧
    (lower_triangle_as_packed_l (⟨65536, 65536, List.replicate (65536 * 65536) 0⟩ : versa Int)
      >>= packed_l_as_lower_triangle) = .error .size_mismatch := by
  have hlen : (List.replicate (65536 * 65536) (0 : Int)).length = 65536 * 65536 :=
    List.length_replicate _ _
  constructor
  · obtain ⟨out, h1, h2, _⟩ := upper_triangle_as_packed_u_spec
      (⟨65536, 65536, List.replicate (65536 * 65536) 0⟩ : versa Int) 65536 rfl rfl hlen
    rw [h1, ok_bind]
    exact (zero_filled_fail_of_size out _ (by rw [h2]; exact size_overflow_65536)).1
  · obtain ⟨out, h1, h2, _⟩ := lower_triangle_as_packed_l_spec
      (⟨65536, 65536, List.replicate (65536 * 65536) 0⟩ : versa Int) 65536 rfl rfl hlen
    rw [h1, ok_bind]
    exact (zero_filled_fail_of_size out _ (by rw [h2]; exact size_overflow_65536)).2

/-! ## Mirrored expansion of a packed triangle -/

theorem row_start_u_ge (n i : Nat) (hi : i ≤ n) : i ≤ row_start_u n i := by
  rcases Nat.eq_zero_or_pos i with h0 | h0
  · omega
  · have h := row_start_u_mono n (show 1 ≤ i from h0)
    simp only [row_start_u] at h
    omega

theorem min_max_cases (p q : Nat) :
    (min p q = p ∧ max p q = q ∧ p ≤ q) ∨ (min p q = q ∧ max p q = p ∧ q < p) := by
  rcases Nat.lt_or_ge q p with h | h
  · exact Or.inr ⟨Nat.min_eq_right (by omega), Nat.max_eq_left (by omega), h⟩
  · exact Or.inl ⟨Nat.min_eq_left h, Nat.max_eq_right h, h⟩

theorem packed_u_as_symmetric_row_spec {α : Type} (a : List α) (n i : Nat) (hi : i < n)
    (ha : a.length = n * (n + 1) / 2) (s : vars α) (h1 : s.ij = i * n)
    (h2 : s.i_a = row_start_u n i)
    (h3 : dense_cells (fun p q => a[row_start_u n (min p q) + (max p q - min p q)]?) n
      (fun p q => row_start_u n (min p q) + (max p q - min p q) < s.i_a) s.result) :
    ∃ s', packed_u_as_symmetric_row a n i s = .ok s' ∧ s'.ij = (i + 1) * n ∧
      s'.i_a = row_start_u n (i + 1) ∧
      dense_cells (fun p q => a[row_start_u n (min p q) + (max p q - min p q)]?) n
        (fun p q => row_start_u n (min p q) + (max p q - min p q) < s'.i_a) s'.result := by
  have hmm : ∀ p q, p < n → q < n → min p q ≤ max p q ∧ max p q < n := by
    intro p q hp hq
    rcases min_max_cases p q with ⟨e1, e2, _⟩ | ⟨e1, e2, _⟩ <;> rw [e1, e2] <;> omega
  -- the diagonal entry
  obtain ⟨v, hv⟩ := getElem?_packed ha (offset_u_lt n i i le_rfl hi)
  rw [Nat.sub_self, Nat.add_zero] at hv
  have hlt : s.ij + i < s.result.length := by rw [h3.1, h1]; exact idx_lt hi hi
  have hd0 := dense_cells_set (fun p q => row_start_u n (min p q) + (max p q - min p q) < s.i_a + 1)
    h3 hi hi (v := v) (by simp [hv]) (fun p q hp hq hd => by
      rcases Nat.lt_or_ge (row_start_u n (min p q) + (max p q - min p q)) s.i_a with h | h
      · exact Or.inl h
      · obtain ⟨hle, hmax⟩ := hmm p q hp hq
        obtain ⟨e1, e2⟩ := offset_u_inj n (min p q) (max p q) i i hle hmax le_rfl hi
          (by rw [h2] at h hd; omega)
        rcases min_max_cases p q with ⟨c1, c2, _⟩ | ⟨c1, c2, _⟩
        · exact Or.inr ⟨by omega, by omega⟩
        · exact Or.inr ⟨by omega, by omega⟩)
  obtain ⟨s', hs', hI⟩ := for_loop_ok (mirror_cell a n)
    (fun j t => t.ij = i * n + j ∧ t.jnpi = j * n + i ∧
      t.i_a = row_start_u n i + (j - i) ∧
      dense_cells (fun p q => a[row_start_u n (min p q) + (max p q - min p q)]?) n
        (fun p q => row_start_u n (min p q) + (max p q - min p q) < t.i_a) t.result)
    (n - (i + 1)) (i + 1)
    ⟨s.i_a + 1, s.i0, s.ij + i + 1, s.ij + i + n, s.r, s.result.set (s.ij + i) (some v)⟩
    ⟨by simp only [h1]; omega, by
        simp only [h1]
        have e : (i + 1) * n = i * n + n := by ring
        omega,
      by simp only [h2]; omega, by rw [h1]; exact hd0⟩
    (fun j t hlo hj ⟨t1, t2, t3, t4⟩ => by
      have hjn : j < n := by omega
      have hij : i ≤ j := by omega
      obtain ⟨w, hw⟩ := getElem?_packed ha (offset_u_lt n i j hij hjn)
      have hl1 : t.jnpi < t.result.length := by rw [t4.1, t2]; exact idx_lt hjn hi
      have hl2 : t.ij < (t.result.set t.jnpi (some w)).length := by
        rw [List.length_set, t4.1, t1]; exact idx_lt hi hjn
      have d1 := dense_cells_set (fun p q => row_start_u n (min p q) + (max p q - min p q) < t.i_a ∨
          (p = j ∧ q = i))
        t4 hjn hi (v := w) (by
          rw [Nat.min_eq_right hij, Nat.max_eq_left hij, hw])
        (fun p q _ _ hd => hd)
      have d2 := dense_cells_set (fun p q => row_start_u n (min p q) + (max p q - min p q) < t.i_a + 1)
        d1 hi hjn (v := w) (by
          rw [Nat.min_eq_left hij, Nat.max_eq_right hij, hw])
        (fun p q hp hq hd => by
          rcases Nat.lt_or_ge (row_start_u n (min p q) + (max p q - min p q)) t.i_a
            with h | h
          · exact Or.inl (Or.inl h)
          · obtain ⟨hle, hmax⟩ := hmm p q hp hq
            obtain ⟨e1, e2⟩ := offset_u_inj n (min p q) (max p q) i j hle hmax hij hjn
              (by rw [t3] at h hd; omega)
            rcases min_max_cases p q with ⟨c1, c2, _⟩ | ⟨c1, c2, _⟩
            · exact Or.inr ⟨by omega, by omega⟩
            · exact Or.inl (Or.inr ⟨by omega, by omega⟩))
      refine ⟨⟨t.i_a + 1, t.i0, t.ij + 1, t.jnpi + n, t.r,
        (t.result.set t.jnpi (some w)).set t.ij (some w)⟩, ?_, ?_, ?_, ?_, ?_⟩
      · simp only [mirror_cell, t3, read_ok hw, ok_bind, write_ok w hl1, write_ok w hl2]
      · simp only [t1]; omega
      · simp only [t2]
        have e : (j + 1) * n = j * n + n := by ring
        omega
      · simp only [t3]; omega
      · rw [t2, t1]; exact d2)
  refine ⟨s', ?_, ?_, ?_, hI.2.2.2⟩
  · simp only [packed_u_as_symmetric_row, h2, read_ok hv, ok_bind, write_ok v hlt]
    rw [← h2]
    exact hs'
  · rw [hI.1]
    have e : (i + 1) * n = i * n + n := by ring
    omega
  · rw [hI.2.2.1]; simp only [row_start_u]; omega

/-- For a packed sequence of length `n(n+1)/2` with `n ≤ 65535`, `packed_u_as_symmetric`
succeeds with the `n` by `n` matrix whose entries `(p, q)` and `(q, p)`, `p ≤ q`, both
hold the packed value of `(p, q)`. -/
theorem packed_u_as_symmetric_spec {α : Type} (a : List α) (n : Nat) (hn : n ≤ 65535)
    (ha : a.length = n * (n + 1) / 2) :
    ∃ d, packed_u_as_symmetric a = .ok d ∧ d.n_rows = n ∧ d.n_columns = n ∧
      d.data.length = n * n ∧
      ∀ p q, p < n → q < n →
        d.data[p * n + q]? = a[row_start_u n (min p q) + (max p q - min p q)]? := by
  have hmm : ∀ p q, p < n → q < n → min p q ≤ max p q ∧ max p q < n := by
    intro p q hp hq
    rcases min_max_cases p q with ⟨e1, e2, _⟩ | ⟨e1, e2, _⟩ <;> rw [e1, e2] <;> omega
  obtain ⟨s', hs', hI⟩ := for_loop_ok (packed_u_as_symmetric_row a n)
    (fun i t => t.ij = i * n ∧ t.i_a = row_start_u n i ∧
      dense_cells (fun p q => a[row_start_u n (min p q) + (max p q - min p q)]?) n
        (fun p q => row_start_u n (min p q) + (max p q - min p q) < t.i_a) t.result)
    n 0 ⟨0, 0, 0, 0, 0, List.replicate (n * n) none⟩
    ⟨by simp, by simp [row_start_u], dense_cells_init _ n _ (fun p q => by simp)⟩
    (fun i t _ hi ⟨t1, t2, t3⟩ =>
      packed_u_as_symmetric_row_spec a n i (by omega) ha t t1 t2 t3)
  obtain ⟨out, ho1, ho2, ho3⟩ := dense_cells_freeze hI.2.2
    (fun p q hp hq => by
      show row_start_u n (min p q) + (max p q - min p q) < s'.i_a
      rw [hI.2.1, Nat.zero_add, row_start_u_self]
      exact offset_u_lt n _ _ (hmm p q hp hq).1 (hmm p q hp hq).2)
    (fun p q hp hq =>
      getElem?_packed ha (offset_u_lt n _ _ (hmm p q hp hq).1 (hmm p q hp hq).2))
  refine ⟨⟨n, n, out⟩, ?_, rfl, rfl, ho2, ho3⟩
  simp only [packed_u_as_symmetric, ha, symmetric_n_from_packed_size_ok n hn, ok_bind,
    hs', ho1]

theorem packed_l_as_symmetric_row_spec {α : Type} (a : List α) (n i : Nat) (hi : i < n)
    (ha : a.length = n * (n + 1) / 2) (s : vars α) (h1 : s.i0 = i * n)
    (h2 : s.i_a = row_start_l i)
    (h3 : dense_cells (fun p q => a[row_start_l (max p q) + min p q]?) n
      (fun p q => row_start_l (max p q) + min p q < s.i_a) s.result) :
    ∃ s', packed_l_as_symmetric_row a n i s = .ok s' ∧ s'.i0 = (i + 1) * n ∧
      s'.i_a = row_start_l (i + 1) ∧
      dense_cells (fun p q => a[row_start_l (max p q) + min p q]?) n
        (fun p q => row_start_l (max p q) + min p q < s'.i_a) s'.result := by
  have hmm : ∀ p q, p < n → q < n → min p q ≤ max p q ∧ max p q < n := by
    intro p q hp hq
    rcases min_max_cases p q with ⟨e1, e2, _⟩ | ⟨e1, e2, _⟩ <;> rw [e1, e2] <;> omega
  obtain ⟨s', hs', hI⟩ := for_loop_ok (mirror_cell a n)
    (fun j t => t.i0 = i * n ∧ t.ij = i * n + j ∧ t.jnpi = j * n + i ∧
      t.i_a = row_start_l i + j ∧
      dense_cells (fun p q => a[row_start_l (max p q) + min p q]?) n
        (fun p q => row_start_l (max p q) + min p q < t.i_a) t.result)
    i 0 ⟨s.i_a, s.i0, s.i0, i, s.r, s.result⟩
    ⟨h1, by simp only [h1]; omega, by simp, by simp only [h2]; omega, h3⟩
    (fun j t _ hj ⟨t0, t1, t2, t3, t4⟩ => by
      have hji : j < i := by omega
      have hjn : j < n := by omega
      obtain ⟨w, hw⟩ := getElem?_packed ha (offset_l_lt n i j (by omega) hi)
      have hl1 : t.jnpi < t.result.length := by rw [t4.1, t2]; exact idx_lt hjn hi
      have hl2 : t.ij < (t.result.set t.jnpi (some w)).length := by
        rw [List.length_set, t4.1, t1]; exact idx_lt hi hjn
      have d1 := dense_cells_set
        (fun p q => row_start_l (max p q) + min p q < t.i_a ∨ (p = j ∧ q = i))
        t4 hjn hi (v := w) (by
          rw [Nat.min_eq_left (by omega), Nat.max_eq_right (by omega), hw])
        (fun p q _ _ hd => hd)
      have d2 := dense_cells_set
        (fun p q => row_start_l (max p q) + min p q < t.i_a + 1)
        d1 hi hjn (v := w) (by
          rw [Nat.min_eq_right (by omega), Nat.max_eq_left (by omega), hw])
        (fun p q hp hq hd => by
          rcases Nat.lt_or_ge (row_start_l (max p q) + min p q) t.i_a with h | h
          · exact Or.inl (Or.inl h)
          · obtain ⟨hle, _⟩ := hmm p q hp hq
            obtain ⟨e1, e2⟩ := offset_l_inj (max p q) (min p q) i j hle (by omega)
              (by rw [t3] at h hd; omega)
            rcases min_max_cases p q with ⟨c1, c2, _⟩ | ⟨c1, c2, _⟩
            · exact Or.inl (Or.inr ⟨by omega, by omega⟩)
            · exact Or.inr ⟨by omega, by omega⟩)
      refine ⟨⟨t.i_a + 1, t.i0, t.ij + 1, t.jnpi + n, t.r,
        (t.result.set t.jnpi (some w)).set t.ij (some w)⟩, ?_, t0, ?_, ?_, ?_, ?_⟩
      · simp only [mirror_cell, t3, read_ok hw, ok_bind, write_ok w hl1, write_ok w hl2]
      · simp only [t1]; omega
      · simp only [t2]
        have e : (j + 1) * n = j * n + n := by ring
        omega
      · simp only [t3]; omega
      · rw [t2, t1]; exact d2)
  obtain ⟨t0, t1, _, t3, t4⟩ := hI
  rw [Nat.zero_add] at t1 t3
  -- the diagonal entry
  obtain ⟨v, hv⟩ := getElem?_packed ha (offset_l_lt n i i le_rfl hi)
  have hlt : s'.ij < s'.result.length := by rw [t4.1, t1]; exact idx_lt hi hi
  have hd0 := dense_cells_set
    (fun p q => row_start_l (max p q) + min p q < s'.i_a + 1)
    t4 hi hi (v := v) (by simp [hv]) (fun p q hp hq hd => by
      rcases Nat.lt_or_ge (row_start_l (max p q) + min p q) s'.i_a with h | h
      · exact Or.inl h
      · obtain ⟨hle, _⟩ := hmm p q hp hq
        obtain ⟨e1, e2⟩ := offset_l_inj (max p q) (min p q) i i hle le_rfl
          (by rw [t3] at h hd; omega)
        rcases min_max_cases p q with ⟨c1, c2, _⟩ | ⟨c1, c2, _⟩
        · exact Or.inr ⟨by omega, by omega⟩
        · exact Or.inr ⟨by omega, by omega⟩)
  refine ⟨⟨s'.i_a + 1, s'.i0 + n, s'.ij, s'.jnpi, s'.r, s'.result.set s'.ij (some v)⟩,
    ?_, ?_, ?_, ?_⟩
  · simp only [packed_l_as_symmetric_row]
    rw [show ({ s with ij := s.i0, jnpi := i } : vars α)
      = ⟨s.i_a, s.i0, s.i0, i, s.r, s.result⟩ from rfl, hs', ok_bind, t3, read_ok hv,
      ok_bind, write_ok v hlt, ok_bind, ← t3]
  · simp only [t0]; ring
  · simp only [t3, row_start_l]; omega
  · rw [t1]; exact hd0

/-- For a packed sequence of length `n(n+1)/2` with `n ≤ 65535`, `packed_l_as_symmetric`
succeeds with the `n` by `n` matrix whose entries `(p, q)` and `(q, p)`, `q ≤ p`, both
hold the packed value of `(p, q)`. -/
theorem packed_l_as_symmetric_spec {α : Type} (a : List α) (n : Nat) (hn : n ≤ 65535)
    (ha : a.length = n * (n + 1) / 2) :
    ∃ d, packed_l_as_symmetric a = .ok d ∧ d.n_rows = n ∧ d.n_columns = n ∧
      d.data.length = n * n ∧
      ∀ p q, p < n → q < n → d.data[p * n + q]? = a[row_start_l (max p q) + min p q]? := by
  have hmm : ∀ p q, p < n → q < n → min p q ≤ max p q ∧ max p q < n := by
    intro p q hp hq
    rcases min_max_cases p q with ⟨e1, e2, _⟩ | ⟨e1, e2, _⟩ <;> rw [e1, e2] <;> omega
  obtain ⟨s', hs', hI⟩ := for_loop_ok (packed_l_as_symmetric_row a n)
    (fun i t => t.i0 = i * n ∧ t.i_a = row_start_l i ∧
      dense_cells (fun p q => a[row_start_l (max p q) + min p q]?) n
        (fun p q => row_start_l (max p q) + min p q < t.i_a) t.result)
    n 0 ⟨0, 0, 0, 0, 0, List.replicate (n * n) none⟩
    ⟨by simp, by simp [row_start_l], dense_cells_init _ n _ (fun p q => by simp)⟩
    (fun i t _ hi ⟨t1, t2, t3⟩ =>
      packed_l_as_symmetric_row_spec a n i (by omega) ha t t1 t2 t3)
  obtain ⟨out, ho1, ho2, ho3⟩ := dense_cells_freeze hI.2.2
    (fun p q hp hq => by
      show row_start_l (max p q) + min p q < s'.i_a
      rw [hI.2.1, Nat.zero_add, row_start_l_eq n]
      exact offset_l_lt n _ _ (hmm p q hp hq).1 (hmm p q hp hq).2)
    (fun p q hp hq =>
      getElem?_packed ha (offset_l_lt n _ _ (hmm p q hp hq).1 (hmm p q hp hq).2))
  refine ⟨⟨n, n, out⟩, ?_, rfl, rfl, ho2, ho3⟩
  simp only [packed_l_as_symmetric, ha, symmetric_n_from_packed_size_ok n hn, ok_bind,
    hs', ho1]

/-- Round trip through the mirrored expansion, within the dimensions the dimension
recovery accepts: for every `n ≤ 65535` and every packed sequence `P` of length `n(n+1)/2`,
`upper_triangle_as_packed_u(packed_u_as_symmetric(P))` is `P`, and
`lower_triangle_as_packed_l(packed_l_as_symmetric(P))` is `P`. -/
theorem mirrored_round_trip {α : Type} (n : Nat) (P : List α) (hn : n ≤ 65535)
    (hP : P.length = n * (n + 1) / 2) :
    (packed_u_as_symmetric P >>= upper_triangle_as_packed_u) = .ok P ∧
    (packed_l_as_symmetric P >>= lower_triangle_as_packed_l) = .ok P := by
  constructor
  · obtain ⟨d, h1, h2, h3, h4, h5⟩ := packed_u_as_symmetric_spec P n hn hP
    obtain ⟨out, g1, g2, g3⟩ := upper_triangle_as_packed_u_spec d n h2 h3 h4
    rw [h1, ok_bind, g1]
    congr 1
    exact packed_u_ext n out P g2 hP (fun p q hpq hq => by
      rw [g3 p q hpq hq, h5 p q (by omega) hq, Nat.min_eq_left hpq, Nat.max_eq_right hpq])
  · obtain ⟨d, h1, h2, h3, h4, h5⟩ := packed_l_as_symmetric_spec P n hn hP
    obtain ⟨out, g1, g2, g3⟩ := lower_triangle_as_packed_l_spec d n h2 h3 h4
    rw [h1, ok_bind, g1]
    congr 1
    exact packed_l_ext n out P g2 hP (fun p q hqp hp => by
      rw [g3 p q hqp hp, h5 p q hp (by omega), Nat.min_eq_right hqp, Nat.max_eq_left hqp])

/-- Instance of `mirrored_round_trip` on the packed sequence `[1, 2, 3, 4, 5, 6]` of a
`3` by `3` matrix. -/
theorem mirrored_round_trip_witness :
    (packed_u_as_symmetric [(1 : Int), 2, 3, 4, 5, 6] >>= upper_triangle_as_packed_u)
      = .ok [1, 2, 3, 4, 5, 6] ∧
    (packed_l_as_symmetric [(1 : Int), 2, 3, 4, 5, 6] >>= lower_triangle_as_packed_l)
      = .ok [1, 2, 3, 4, 5, 6] :=
  mirrored_round_trip 3 [(1 : Int), 2, 3, 4, 5, 6] (by decide) rfl

/-- Claim C3 at the failing input `n = 65536`.  The claim says that the mirrored expansion
of a packed sequence `P` of triangular length, packed again, is `P`.  On a packed sequence
of `65536*65537/2` elements both mirrored expansions fail with the size-mismatch
assertion, because `symmetric_n_from_packed_size` evaluates `n*(n+1)/2` in 32-bit
`unsigned`, so neither round trip returns the sequence. -/
theorem mirrored_round_trip_overflow :
    (List.replicate (65536 * (65536 + 1) / 2) (0 : Int)).length = 65536 * (65536 + 1) / 2 ∧
    (packed_u_as_symmetric (List.replicate (65536 * (65536 + 1) / 2) (0 : Int))
      >>= upper_triangle_as_packed_u) = .error .size_mismatch ∧
    (packed_l_as_symmetric (List.replicate (65536 * (65536 + 1) / 2) (0 : Int))
      >>= lower_triangle_as_packed_l) = .error .size_mismatch := by
  have hlen : (List.replicate (65536 * (65536 + 1) / 2) (0 : Int)).length
      = 65536 * (65536 + 1) / 2 := List.length_replicate _ _
  have h := mirrored_fail_of_size (List.replicate (65536 * (65536 + 1) / 2) (0 : Int))
    .size_mismatch (by rw [hlen]; exact size_overflow_65536)
  exact ⟨hlen, by rw [h.1, error_bind], by rw [h.2, error_bind]⟩

/-! ## Symmetrization -/

theorem getElem?_entry {K : Type} [Zero K] {a : List K} {n i j : Nat}
    (ha : a.length = n * n) (hi : i < n) (hj : j < n) :
    a[i * n + j]? = some (entry a n i j) := by
  have h : i * n + j < a.length := by rw [ha]; exact idx_lt hi hj
  simp [entry, List.getD_eq_getElem?_getD, List.getElem?_eq_getElem h]

theorem average_comm {K : Type} [LinearOrderedField K] (a : List K) (n i j : Nat) :
    average a n i j = average a n j i := by
  simp only [average, add_comm]

theorem symmetrized_comm {K : Type} [LinearOrderedField K] (a : List K) (n p q : Nat) :
    symmetrized a n p q = symmetrized a n q p := by
  simp only [symmetrized]
  by_cases h : p = q
  · subst h; rfl
  · rw [if_neg h, if_neg (Ne.symm h), average_comm]

theorem deviation_comm {K : Type} [LinearOrderedField K] (a : List K) (n i j : Nat) :
    |entry a n i j - average a n i j| = |entry a n j i - average a n j i| := by
  have h : entry a n i j - average a n i j = -(entry a n j i - average a n j i) := by
    simp only [average]; ring
  rw [h, abs_neg]

theorem average_cell_spec {K : Type} [LinearOrderedField K] (a : List K) (n : Nat)
    (use_eps : Bool) (eps : K) (ha : a.length = n * n) (i j : Nat) (hi : i < n)
    (hj : j < n) (t : vars K) (t1 : t.ij = i * n + j) (t2 : t.jnpi = j * n + i)
    (hlt : t.r < t.result.length) :
    (deviates a n use_eps eps i j ∧
      average_cell a n use_eps eps j t = .error .not_symmetric) ∨
    (¬ deviates a n use_eps eps i j ∧
      average_cell a n use_eps eps j t = .ok ⟨t.i_a, t.i0, t.ij + 1, t.jnpi + n, t.r + 1,
        t.result.set t.r (some (average a n i j))⟩) := by
  have e1 := getElem?_entry ha hi hj
  have e2 := getElem?_entry ha hj hi
  by_cases hb : deviates a n use_eps eps i j
  · refine Or.inl ⟨hb, ?_⟩
    simp only [average_cell, t1, t2, read_ok e1, read_ok e2, ok_bind]
    have hb' : use_eps = true ∧ |entry a n i j - (entry a n i j + entry a n j i) / 2| > eps :=
      hb
    rw [if_pos hb']
  · refine Or.inr ⟨hb, ?_⟩
    simp only [average_cell, t1, t2, read_ok e1, read_ok e2, ok_bind]
    have hb' : ¬ (use_eps = true ∧
        |entry a n i j - (entry a n i j + entry a n j i) / 2| > eps) := hb
    rw [if_neg hb', write_ok _ hlt, ok_bind]
    rfl

theorem symmetric_as_packed_u_row_spec {K : Type} [LinearOrderedField K] (a : List K)
    (n : Nat) (use_eps : Bool) (eps : K) (ha : a.length = n * n) (i : Nat) (hi : i < n)
    (s : vars K) (h1 : s.ij = i * n) (h2 : s.r = row_start_u n i)
    (h3 : packed_u_cells (symmetrized a n) n s.r s.result) :
    ((∃ j, i < j ∧ j < n ∧ deviates a n use_eps eps i j) ∧
      symmetric_as_packed_u_row a n use_eps eps i s = .error .not_symmetric) ∨
    ((∀ j, i < j → j < n → ¬ deviates a n use_eps eps i j) ∧
      ∃ s', symmetric_as_packed_u_row a n use_eps eps i s = .ok s' ∧
        s'.ij = (i + 1) * n ∧ s'.r = row_start_u n (i + 1) ∧
        packed_u_cells (symmetrized a n) n s'.r s'.result) := by
  have e0 := getElem?_entry ha hi hi
  have hlt : s.r < s.result.length := by
    rw [h3.1, h2]
    have := offset_u_lt n i i le_rfl hi
    omega
  have hd0 := packed_u_cells_set h3 le_rfl hi (by rw [h2]; omega)
    (show symmetrized a n i i = some (entry a n i i) by simp [symmetrized])
  have hrow : symmetric_as_packed_u_row a n use_eps eps i s
      = for_loop (average_cell a n use_eps eps) (i + 1) (n - (i + 1))
        ⟨s.i_a, s.i0, s.ij + i + 1, s.ij + i + n, s.r + 1,
          s.result.set s.r (some (entry a n i i))⟩ := by
    simp only [symmetric_as_packed_u_row, h1, read_ok e0, ok_bind, write_ok _ hlt]
  rw [hrow]
  rcases for_loop_spec (average_cell a n use_eps eps)
    (fun j t => t.ij = i * n + j ∧ t.jnpi = j * n + i ∧
      t.r = row_start_u n i + (j - i) ∧ packed_u_cells (symmetrized a n) n t.r t.result)
    (fun j => deviates a n use_eps eps i j) .not_symmetric
    (n - (i + 1)) (i + 1)
    ⟨s.i_a, s.i0, s.ij + i + 1, s.ij + i + n, s.r + 1,
      s.result.set s.r (some (entry a n i i))⟩
    ⟨by simp only [h1]; omega, by
        simp only [h1]
        have e : (i + 1) * n = i * n + n := by ring
        omega,
      by simp only [h2]; omega, hd0⟩
    (fun j t hlo hj ⟨t1, t2, t3, t4⟩ => by
      have hjn : j < n := by omega
      have hij : i ≤ j := by omega
      have hl : t.r < t.result.length := by
        rw [t4.1, t3]; exact offset_u_lt n i j hij hjn
      rcases average_cell_spec a n use_eps eps ha i j hi hjn t t1 t2 hl with
        ⟨hb, he⟩ | ⟨hb, he⟩
      · exact Or.inl ⟨hb, he⟩
      · refine Or.inr ⟨hb, _, he, ?_, ?_, ?_, ?_⟩
        · simp only [t1]; omega
        · simp only [t2]
          have e : (j + 1) * n = j * n + n := by ring
          omega
        · simp only [t3]; omega
        · exact packed_u_cells_set t4 hij hjn t3
            (show symmetrized a n i j = some (average a n i j) by
              simp only [symmetrized]; rw [if_neg (by omega)]))
    with ⟨⟨j, hj1, hj2, hb⟩, he⟩ | ⟨hall, s', hs', hI⟩
  · exact Or.inl ⟨⟨j, by omega, by omega, hb⟩, he⟩
  · refine Or.inr ⟨fun j hj1 hj2 => hall j (by omega) (by omega), s', hs', ?_, ?_, hI.2.2.2⟩
    · rw [hI.1]
      have e : (i + 1) * n = i * n + n := by ring
      omega
    · rw [hI.2.2.1]; simp only [row_start_u]; omega

/-- The loops of `symmetric_as_packed_u`, run on an `n` by `n` buffer with a fresh result
buffer: they stop with the asymmetry error exactly when some pair above the diagonal
fails the tolerance test, and otherwise fill every cell of the packed result. -/
theorem symmetric_as_packed_u_loops {K : Type} [LinearOrderedField K] (a : List K)
    (n : Nat) (use_eps : Bool) (eps : K) (ha : a.length = n * n) :
    ((∃ i j, i < j ∧ j < n ∧ deviates a n use_eps eps i j) ∧
      for_loop (symmetric_as_packed_u_row a n use_eps eps) 0 n
        ⟨0, 0, 0, 0, 0, List.replicate (n * (n + 1) / 2) none⟩ = .error .not_symmetric) ∨
    ((∀ i j, i < j → j < n → ¬ deviates a n use_eps eps i j) ∧
      ∃ s', for_loop (symmetric_as_packed_u_row a n use_eps eps) 0 n
          ⟨0, 0, 0, 0, 0, List.replicate (n * (n + 1) / 2) none⟩ = .ok s' ∧
        packed_u_cells (symmetrized a n) n (n * (n + 1) / 2) s'.result) := by
  rcases for_loop_spec (symmetric_as_packed_u_row a n use_eps eps)
    (fun i t => t.ij = i * n ∧ t.r = row_start_u n i ∧
      packed_u_cells (symmetrized a n) n t.r t.result)
    (fun i => ∃ j, i < j ∧ j < n ∧ deviates a n use_eps eps i j) .not_symmetric
    n 0 ⟨0, 0, 0, 0, 0, List.replicate (n * (n + 1) / 2) none⟩
    ⟨by simp, by simp [row_start_u], packed_u_cells_init _ n⟩
    (fun i t _ hi ⟨t1, t2, t3⟩ => by
      rcases symmetric_as_packed_u_row_spec a n use_eps eps ha i (by omega) t t1 t2 t3
        with ⟨hb, he⟩ | ⟨hb, s', he, g1, g2, g3⟩
      · exact Or.inl ⟨hb, he⟩
      · exact Or.inr ⟨fun ⟨j, hj1, hj2, hd⟩ => hb j hj1 hj2 hd, s', he, g1, g2, g3⟩)
    with ⟨⟨i, _, _, j, hj1, hj2, hb⟩, he⟩ | ⟨hall, s', hs', hI⟩
  · exact Or.inl ⟨⟨i, j, hj1, hj2, hb⟩, he⟩
  · refine Or.inr ⟨fun i j hij hj hd => hall i (by omega) (by omega) ⟨j, hij, hj, hd⟩,
      s', hs', ?_⟩
    have := hI.2.2
    rw [hI.2.1, Nat.zero_add, row_start_u_self] at this
    exact this

theorem symmetric_as_packed_l_row_spec {K : Type} [LinearOrderedField K] (a : List K)
    (n : Nat) (use_eps : Bool) (eps : K) (ha : a.length = n * n) (i : Nat) (hi : i < n)
    (s : vars K) (h1 : s.i0 = i * n) (h2 : s.r = row_start_l i)
    (h3 : packed_l_cells (symmetrized a n) n s.r s.result) :
    ((∃ j, j < i ∧ deviates a n use_eps eps i j) ∧
      symmetric_as_packed_l_row a n use_eps eps i s = .error .not_symmetric) ∨
    ((∀ j, j < i → ¬ deviates a n use_eps eps i j) ∧
      ∃ s', symmetric_as_packed_l_row a n use_eps eps i s = .ok s' ∧
        s'.i0 = (i + 1) * n ∧ s'.r = row_start_l (i + 1) ∧
        packed_l_cells (symmetrized a n) n s'.r s'.result) := by
  have hrow : symmetric_as_packed_l_row a n use_eps eps i s
      = (for_loop (average_cell a n use_eps eps) 0 i
          ⟨s.i_a, s.i0, s.i0, i, s.r, s.result⟩ >>= fun s1 =>
        read a s1.ij >>= fun v => write s1.result s1.r v >>= fun res =>
        .ok ⟨s1.i_a, s1.i0 + n, s1.ij, s1.jnpi, s1.r + 1, res⟩) := rfl
  rw [hrow]
  rcases for_loop_spec (average_cell a n use_eps eps)
    (fun j t => t.i0 = i * n ∧ t.ij = i * n + j ∧ t.jnpi = j * n + i ∧
      t.r = row_start_l i + j ∧ packed_l_cells (symmetrized a n) n t.r t.result)
    (fun j => deviates a n use_eps eps i j) .not_symmetric
    i 0 ⟨s.i_a, s.i0, s.i0, i, s.r, s.result⟩
    ⟨h1, by simp only [h1]; omega, by simp, by simp only [h2]; omega, h3⟩
    (fun j t _ hj ⟨t0, t1, t2, t3, t4⟩ => by
      have hji : j < i := by omega
      have hjn : j < n := by omega
      have hl : t.r < t.result.length := by
        rw [t4.1, t3]; exact offset_l_lt n i j (by omega) hi
      rcases average_cell_spec a n use_eps eps ha i j hi hjn t t1 t2 hl with
        ⟨hb, he⟩ | ⟨hb, he⟩
      · exact Or.inl ⟨hb, he⟩
      · refine Or.inr ⟨hb, _, he, t0, ?_, ?_, ?_, ?_⟩
        · simp only [t1]; omega
        · simp only [t2]
          have e : (j + 1) * n = j * n + n := by ring
          omega
        · simp only [t3]; omega
        · exact packed_l_cells_set t4 (show j ≤ i by omega) hi t3
            (show symmetrized a n i j = some (average a n i j) by
              simp only [symmetrized]; rw [if_neg (by omega)]))
    with ⟨⟨j, _, hj2, hb⟩, he⟩ | ⟨hall, s', hs', hI⟩
  · exact Or.inl ⟨⟨j, by omega, hb⟩, by rw [he, error_bind]⟩
  · obtain ⟨t0, t1, _, t3, t4⟩ := hI
    rw [Nat.zero_add] at t1 t3
    have e0 := getElem?_entry ha hi hi
    have hlt : s'.r < s'.result.length := by
      rw [t4.1, t3]; exact offset_l_lt n i i le_rfl hi
    refine Or.inr ⟨fun j hj => hall j (by omega) (by omega),
      ⟨s'.i_a, s'.i0 + n, s'.ij, s'.jnpi, s'.r + 1,
        s'.result.set s'.r (some (entry a n i i))⟩, ?_, ?_, ?_, ?_⟩
    · rw [hs', ok_bind, t1, read_ok e0, ok_bind, write_ok _ hlt, ok_bind]
    · simp only [t0]; ring
    · simp only [t3, row_start_l]; omega
    · exact packed_l_cells_set t4 le_rfl hi t3
        (show symmetrized a n i i = some (entry a n i i) by simp [symmetrized])

/-- The loops of `symmetric_as_packed_l`, run on an `n` by `n` buffer with a fresh result
buffer: they stop with the asymmetry error exactly when some pair below the diagonal
fails the tolerance test, and otherwise fill every cell of the packed result. -/
theorem symmetric_as_packed_l_loops {K : Type} [LinearOrderedField K] (a : List K)
    (n : Nat) (use_eps : Bool) (eps : K) (ha : a.length = n * n) :
    ((∃ i j, j < i ∧ i < n ∧ deviates a n use_eps eps i j) ∧
      for_loop (symmetric_as_packed_l_row a n use_eps eps) 0 n
        ⟨0, 0, 0, 0, 0, List.replicate (n * (n + 1) / 2) none⟩ = .error .not_symmetric) ∨
    ((∀ i j, j < i → i < n → ¬ deviates a n use_eps eps i j) ∧
      ∃ s', for_loop (symmetric_as_packed_l_row a n use_eps eps) 0 n
          ⟨0, 0, 0, 0, 0, List.replicate (n * (n + 1) / 2) none⟩ = .ok s' ∧
        packed_l_cells (symmetrized a n) n (n * (n + 1) / 2) s'.result) := by
  rcases for_loop_spec (symmetric_as_packed_l_row a n use_eps eps)
    (fun i t => t.i0 = i * n ∧ t.r = row_start_l i ∧
      packed_l_cells (symmetrized a n) n t.r t.result)
    (fun i => ∃ j, j < i ∧ deviates a n use_eps eps i j) .not_symmetric
    n 0 ⟨0, 0, 0, 0, 0, List.replicate (n * (n + 1) / 2) none⟩
    ⟨by simp, by simp [row_start_l], packed_l_cells_init _ n⟩
    (fun i t _ hi ⟨t1, t2, t3⟩ => by
      rcases symmetric_as_packed_l_row_spec a n use_eps eps ha i (by omega) t t1 t2 t3
        with ⟨hb, he⟩ | ⟨hb, s', he, g1, g2, g3⟩
      · exact Or.inl ⟨hb, he⟩
      · exact Or.inr ⟨fun ⟨j, hj1, hd⟩ => hb j hj1 hd, s', he, g1, g2, g3⟩)
    with ⟨⟨i, _, hi2, j, hj1, hb⟩, he⟩ | ⟨hall, s', hs', hI⟩
  · exact Or.inl ⟨⟨i, j, hj1, by omega, hb⟩, he⟩
  · refine Or.inr ⟨fun i j hji hi hd => hall i (by omega) (by omega) ⟨j, hji, hd⟩,
      s', hs', ?_⟩
    have := hI.2.2
    rw [hI.2.1, Nat.zero_add, row_start_l_eq n] at this
    exact this

theorem deviates_iff {K : Type} [LinearOrderedField K] (a : List K) (n : Nat)
    (relative_eps M : K) (i j : Nat) (hn : n ≠ 0) :
    deviates a n (decide (¬ (relative_eps ≤ 0 ∨ n = 0)))
        (if relative_eps ≤ 0 ∨ n = 0 then 0 else relative_eps * M) i j ↔
      0 < relative_eps ∧ |entry a n i j - average a n i j| > relative_eps * M := by
  unfold deviates
  by_cases h : relative_eps ≤ 0
  · simp [h, not_lt.2 h]
  · have h' : 0 < relative_eps := not_le.1 h
    simp [h, hn, h']

/-- Behaviour of `symmetric_as_packed_u` on a square `n` by `n` matrix, `n < 2 ^ 32`: it
fails with the asymmetry error exactly when `relative_eps > 0` and some pair `i < j < n`
deviates from its average by more than `relative_eps` times the maximum taken over the
first `n*n mod 2^32` elements; otherwise it returns the symmetrized packed triangle. -/
theorem symmetric_as_packed_u_spec {K : Type} [LinearOrderedField K] (a : versa K)
    (n : Nat) (hn : n < 2 ^ 32) (hr : a.n_rows = n) (hc : a.n_columns = n)
    (hd : a.data.length = n * n) (relative_eps : K) :
    ((0 < relative_eps ∧ ∃ i j, i < j ∧ j < n ∧
        |entry a.data n i j - average a.data n i j|
          > relative_eps * max_absolute (a.data.take (u32 (n * n)))) ∧
      symmetric_as_packed_u a relative_eps = .error .not_symmetric) ∨
    (¬ (0 < relative_eps ∧ ∃ i j, i < j ∧ j < n ∧
        |entry a.data n i j - average a.data n i j|
          > relative_eps * max_absolute (a.data.take (u32 (n * n)))) ∧
      ∃ out, symmetric_as_packed_u a relative_eps = .ok out ∧
        out.length = n * (n + 1) / 2 ∧
        ∀ p q, p ≤ q → q < n →
          out[row_start_u n p + (q - p)]? = symmetrized a.data n p q) := by
  have hu : u32 n = n := Nat.mod_eq_of_lt hn
  have hfun : symmetric_as_packed_u a relative_eps
      = (for_loop (symmetric_as_packed_u_row a.data n
            (decide (¬ (relative_eps ≤ 0 ∨ n = 0)))
            (if relative_eps ≤ 0 ∨ n = 0 then 0
              else relative_eps * max_absolute (a.data.take (u32 (n * n))))) 0 n
          ⟨0, 0, 0, 0, 0, List.replicate (n * (n + 1) / 2) none⟩
        >>= fun s => freeze s.result) := by
    unfold symmetric_as_packed_u symmetric_as_packed_u_ptr
    simp only [hr, hc, ne_eq, not_true_eq_false, if_false, hu]
    cases for_loop (symmetric_as_packed_u_row a.data n
        (decide (¬ (relative_eps ≤ 0 ∨ n = 0)))
        (if relative_eps ≤ 0 ∨ n = 0 then 0
          else relative_eps * max_absolute (a.data.take (u32 (n * n))))) 0 n
      ⟨0, 0, 0, 0, 0, List.replicate (n * (n + 1) / 2) none⟩ <;> rfl
  rw [hfun]
  rcases symmetric_as_packed_u_loops a.data n (decide (¬ (relative_eps ≤ 0 ∨ n = 0)))
    (if relative_eps ≤ 0 ∨ n = 0 then 0
      else relative_eps * max_absolute (a.data.take (u32 (n * n)))) hd with
    ⟨⟨i, j, hij, hj, hb⟩, he⟩ | ⟨hall, s', hs', hcells⟩
  · have hb' := (deviates_iff a.data n relative_eps _ i j (by omega)).1 hb
    exact Or.inl ⟨⟨hb'.1, i, j, hij, hj, hb'.2⟩, by rw [he, error_bind]⟩
  · obtain ⟨out, ho1, ho2, ho3⟩ := packed_u_cells_freeze hcells
      (fun p q _ _ => ⟨_, rfl⟩)
    refine Or.inr ⟨?_, out, by rw [hs', ok_bind, ho1], ho2, ho3⟩
    rintro ⟨hpos, i, j, hij, hj, hb⟩
    exact hall i j hij hj ((deviates_iff a.data n relative_eps _ i j (by omega)).2 ⟨hpos, hb⟩)

/-- Behaviour of `symmetric_as_packed_l` on a square `n` by `n` matrix: it fails with the
asymmetry error exactly when `relative_eps > 0` and some pair `j < i < n` deviates from its
average by more than `relative_eps * max_absolute(a)`; otherwise it returns the
symmetrized packed triangle. -/
theorem symmetric_as_packed_l_spec {K : Type} [LinearOrderedField K] (a : versa K)
    (n : Nat) (hr : a.n_rows = n) (hc : a.n_columns = n)
    (hd : a.data.length = n * n) (relative_eps : K) :
    ((0 < relative_eps ∧ ∃ i j, j < i ∧ i < n ∧
        |entry a.data n i j - average a.data n i j|
          > relative_eps * max_absolute a.data) ∧
      symmetric_as_packed_l a relative_eps = .error .not_symmetric) ∨
    (¬ (0 < relative_eps ∧ ∃ i j, j < i ∧ i < n ∧
        |entry a.data n i j - average a.data n i j|
          > relative_eps * max_absolute a.data) ∧
      ∃ out, symmetric_as_packed_l a relative_eps = .ok out ∧
        out.length = n * (n + 1) / 2 ∧
        ∀ p q, q ≤ p → p < n → out[row_start_l p + q]? = symmetrized a.data n p q) := by
  have hfun : symmetric_as_packed_l a relative_eps
      = (for_loop (symmetric_as_packed_l_row a.data n
            (decide (¬ (relative_eps ≤ 0 ∨ n = 0)))
            (if relative_eps ≤ 0 ∨ n = 0 then 0
              else relative_eps * max_absolute a.data)) 0 n
          ⟨0, 0, 0, 0, 0, List.replicate (n * (n + 1) / 2) none⟩
        >>= fun s => freeze s.result) := by
    unfold symmetric_as_packed_l
    rw [hr, hc]
    simp only [ne_eq, not_true_eq_false, if_false]
  rw [hfun]
  rcases symmetric_as_packed_l_loops a.data n (decide (¬ (relative_eps ≤ 0 ∨ n = 0)))
    (if relative_eps ≤ 0 ∨ n = 0 then 0 else relative_eps * max_absolute a.data) hd with
    ⟨⟨i, j, hji, hi, hb⟩, he⟩ | ⟨hall, s', hs', hcells⟩
  · have hb' := (deviates_iff a.data n relative_eps _ i j (by omega)).1 hb
    exact Or.inl ⟨⟨hb'.1, i, j, hji, hi, hb'.2⟩, by rw [he, error_bind]⟩
  · obtain ⟨out, ho1, ho2, ho3⟩ := packed_l_cells_freeze hcells
      (fun p q _ _ => ⟨_, rfl⟩)
    refine Or.inr ⟨?_, out, by rw [hs', ok_bind, ho1], ho2, ho3⟩
    rintro ⟨hpos, i, j, hji, hi, hb⟩
    exact hall i j hji hi ((deviates_iff a.data n relative_eps _ i j (by omega)).2 ⟨hpos, hb⟩)

/-! ## The maximum absolute value -/

theorem foldl_max_abs_ge {K : Type} [LinearOrderedField K] (a : List K) :
    ∀ m : K, m ≤ a.foldl (fun m x => max m |x|) m := by
  induction a with
  | nil => intro m; exact le_rfl
  | cons x t ih => intro m; exact le_trans (le_max_left m |x|) (ih _)

theorem abs_le_foldl_max_abs {K : Type} [LinearOrderedField K] (a : List K) :
    ∀ (m : K) (x : K), x ∈ a → |x| ≤ a.foldl (fun m x => max m |x|) m := by
  induction a with
  | nil => intro m x hx; simp at hx
  | cons y t ih =>
    intro m x hx
    rcases List.mem_cons.1 hx with h | h
    · subst h
      exact le_trans (le_max_right m |x|) (foldl_max_abs_ge t _)
    · exact ih _ x h

theorem max_absolute_nonneg {K : Type} [LinearOrderedField K] (a : List K) :
    0 ≤ max_absolute a :=
  foldl_max_abs_ge a 0

theorem abs_le_max_absolute {K : Type} [LinearOrderedField K] (a : List K) (x : K)
    (hx : x ∈ a) : |x| ≤ max_absolute a :=
  abs_le_foldl_max_abs a 0 x hx

theorem max_absolute_replicate_zero {K : Type} [LinearOrderedField K] (k : Nat) :
    max_absolute (List.replicate k (0 : K)) = 0 := by
  unfold max_absolute
  induction k with
  | zero => rfl
  | succ k ih => simpa [List.replicate_succ] using ih

theorem abs_entry_le_max_absolute {K : Type} [LinearOrderedField K] (a : List K)
    (n i j : Nat) (ha : a.length = n * n) (hi : i < n) (hj : j < n) :
    |entry a n i j| ≤ max_absolute a :=
  abs_le_max_absolute a _ (List.getElem?_mem (getElem?_entry ha hi hj))

/-- No pair deviates from its average by more than the maximum absolute value. -/
theorem deviation_le_max_absolute {K : Type} [LinearOrderedField K] (a : List K)
    (n i j : Nat) (ha : a.length = n * n) (hi : i < n) (hj : j < n) :
    |entry a n i j - average a n i j| ≤ max_absolute a := by
  have h1 := abs_entry_le_max_absolute a n i j ha hi hj
  have h2 := abs_entry_le_max_absolute a n j i ha hj hi
  have e : entry a n i j - average a n i j = (entry a n i j - entry a n j i) / 2 := by
    simp only [average]; ring
  rw [e, abs_div, abs_two]
  have h3 : |entry a n i j - entry a n j i| ≤ |entry a n i j| + |entry a n j i| :=
    abs_sub _ _
  have h4 := max_absolute_nonneg a
  rw [div_le_iff₀ (by norm_num)]
  linarith

/-- With `relative_eps ≥ 1` no pair exceeds the tolerance. -/
theorem not_exceeds_tolerance_of_one_le {K : Type} [LinearOrderedField K] (a : versa K)
    (hd : a.data.length = a.n_rows * a.n_rows) (relative_eps : K) (h : 1 ≤ relative_eps) :
    ¬ exceeds_tolerance a relative_eps := by
  rintro ⟨_, i, j, hij, hj, hgt⟩
  have h1 := deviation_le_max_absolute a.data a.n_rows i j hd (by omega) hj
  have h2 := max_absolute_nonneg a.data
  have h3 : max_absolute a.data ≤ relative_eps * max_absolute a.data := by
    nlinarith
  exact absurd hgt (not_lt.2 (le_trans h1 h3))

/-! ## Symmetrization after a mirrored expansion -/

theorem average_of_symmetric {K : Type} [LinearOrderedField K] (a : List K) (n i j : Nat)
    (h : entry a n i j = entry a n j i) : average a n i j = entry a n i j := by
  simp only [average, ← h]; ring

theorem symmetrized_of_symmetric {K : Type} [LinearOrderedField K] (a : List K)
    (n p q : Nat) (h : entry a n p q = entry a n q p) :
    symmetrized a n p q = some (entry a n p q) := by
  simp only [symmetrized]
  by_cases hpq : p = q
  · subst hpq; simp
  · rw [if_neg hpq, average_of_symmetric a n p q h]

theorem not_deviates_of_symmetric {K : Type} [LinearOrderedField K] (a : List K)
    (n i j : Nat) (h : entry a n i j = entry a n j i) (relative_eps M : K) (hM : 0 ≤ M) :
    ¬ (0 < relative_eps ∧ |entry a n i j - average a n i j| > relative_eps * M) := by
  rintro ⟨hpos, hgt⟩
  rw [average_of_symmetric a n i j h, sub_self, abs_zero] at hgt
  have : 0 ≤ relative_eps * M := mul_nonneg hpos.le hM
  exact absurd hgt (not_lt.2 this)

/-- The symmetrization inverts the mirrored expansion, within the dimensions the dimension
recovery accepts: for every `n ≤ 65535`, every packed sequence `P` of length `n(n+1)/2`
and every `relative_eps`
(positive, zero or negative), `symmetric_as_packed_u(packed_u_as_symmetric(P),
relative_eps)` does not fail and returns `P`, and
`symmetric_as_packed_l(packed_l_as_symmetric(P), relative_eps)` does not fail and returns
`P`; element arithmetic is exact (an ordered field). -/
theorem symmetrize_inverts_mirrored {K : Type} [LinearOrderedField K] (n : Nat)
    (P : List K) (hn : n ≤ 65535) (hP : P.length = n * (n + 1) / 2) (relative_eps : K) :
    (packed_u_as_symmetric P >>= fun d => symmetric_as_packed_u d relative_eps) = .ok P ∧
    (packed_l_as_symmetric P >>= fun d => symmetric_as_packed_l d relative_eps) = .ok P := by
  constructor
  · obtain ⟨d, h1, h2, h3, h4, h5⟩ := packed_u_as_symmetric_spec P n hn hP
    have hsym : ∀ p q, p < n → q < n → entry d.data n p q = entry d.data n q p := by
      intro p q hp hq
      simp only [entry, List.getD_eq_getElem?_getD, h5 p q hp hq, h5 q p hq hp,
        Nat.min_comm q p, Nat.max_comm q p]
    rw [h1, ok_bind]
    rcases symmetric_as_packed_u_spec d n (by omega) h2 h3 h4 relative_eps with
      ⟨⟨hpos, i, j, hij, hj, hgt⟩, _⟩ | ⟨_, out, g1, g2, g3⟩
    · exact absurd ⟨hpos, hgt⟩ (not_deviates_of_symmetric d.data n i j
        (hsym i j (by omega) hj) relative_eps _ (max_absolute_nonneg _))
    · rw [g1]
      congr 1
      exact packed_u_ext n out P g2 hP (fun p q hpq hq => by
        rw [g3 p q hpq hq, symmetrized_of_symmetric d.data n p q (hsym p q (by omega) hq),
          ← getElem?_entry h4 (by omega) hq, h5 p q (by omega) hq, Nat.min_eq_left hpq,
          Nat.max_eq_right hpq])
  · obtain ⟨d, h1, h2, h3, h4, h5⟩ := packed_l_as_symmetric_spec P n hn hP
    have hsym : ∀ p q, p < n → q < n → entry d.data n p q = entry d.data n q p := by
      intro p q hp hq
      simp only [entry, List.getD_eq_getElem?_getD, h5 p q hp hq, h5 q p hq hp,
        Nat.min_comm q p, Nat.max_comm q p]
    rw [h1, ok_bind]
    rcases symmetric_as_packed_l_spec d n h2 h3 h4 relative_eps with
      ⟨⟨hpos, i, j, hji, hi, hgt⟩, _⟩ | ⟨_, out, g1, g2, g3⟩
    · exact absurd ⟨hpos, hgt⟩ (not_deviates_of_symmetric d.data n i j
        (hsym i j hi (by omega)) relative_eps _ (max_absolute_nonneg _))
    · rw [g1]
      congr 1
      exact packed_l_ext n out P g2 hP (fun p q hqp hp => by
        rw [g3 p q hqp hp, symmetrized_of_symmetric d.data n p q (hsym p q hp (by omega)),
          ← getElem?_entry h4 hp (by omega), h5 p q hp (by omega), Nat.min_eq_right hqp,
          Nat.max_eq_left hqp])

/-- Instance of `symmetrize_inverts_mirrored` on the packed sequence `[1, 2, 3, 4, 5, 6]`
of a `3` by `3` matrix, with `relative_eps = 1e-12`. -/
theorem symmetrize_inverts_mirrored_witness :
    (packed_u_as_symmetric [(1 : ℚ), 2, 3, 4, 5, 6]
      >>= fun d => symmetric_as_packed_u d (1 / 10 ^ 12)) = .ok [1, 2, 3, 4, 5, 6] ∧
    (packed_l_as_symmetric [(1 : ℚ), 2, 3, 4, 5, 6]
      >>= fun d => symmetric_as_packed_l d (1 / 10 ^ 12)) = .ok [1, 2, 3, 4, 5, 6] :=
  symmetrize_inverts_mirrored 3 [(1 : ℚ), 2, 3, 4, 5, 6] (by decide) rfl (1 / 10 ^ 12)

/-- Claim C5 at the failing input `n = 65536`.  The claim says that symmetrizing the
mirrored expansion of a packed sequence `P` of triangular length does not fail and returns
`P`.  On a packed sequence of `65536*65537/2` elements both mirrored expansions fail with
the size-mismatch assertion, because `symmetric_n_from_packed_size` evaluates `n*(n+1)/2`
in 32-bit `unsigned`, so the symmetrization is never reached and the sequence is not
returned. -/
theorem symmetrize_inverts_mirrored_overflow :
    (List.replicate (65536 * (65536 + 1) / 2) (0 : ℚ)).length = 65536 * (65536 + 1) / 2 ∧
    (packed_u_as_symmetric (List.replicate (65536 * (65536 + 1) / 2) (0 : ℚ))
      >>= fun d => symmetric_as_packed_u d 1) = .error .size_mismatch ∧
    (packed_l_as_symmetric (List.replicate (65536 * (65536 + 1) / 2) (0 : ℚ))
      >>= fun d => symmetric_as_packed_l d 1) = .error .size_mismatch := by
  have hlen : (List.replicate (65536 * (65536 + 1) / 2) (0 : ℚ)).length
      = 65536 * (65536 + 1) / 2 := List.length_replicate _ _
  have h := mirrored_fail_of_size (List.replicate (65536 * (65536 + 1) / 2) (0 : ℚ))
    .size_mismatch (by rw [hlen]; exact size_overflow_65536)
  exact ⟨hlen, by rw [h.1, error_bind], by rw [h.2, error_bind]⟩

/-! ## When the symmetrization fails -/

theorem exceeds_tolerance_iff_lower {K : Type} [LinearOrderedField K] (a : versa K)
    (relative_eps : K) :
    (0 < relative_eps ∧ ∃ i j, j < i ∧ i < a.n_rows ∧
        |entry a.data a.n_rows i j - average a.data a.n_rows i j|
          > relative_eps * max_absolute a.data) ↔ exceeds_tolerance a relative_eps := by
  unfold exceeds_tolerance
  constructor
  · rintro ⟨hpos, i, j, hji, hi, h⟩
    exact ⟨hpos, j, i, hji, hi, by rw [deviation_comm]; exact h⟩
  · rintro ⟨hpos, i, j, hij, hj, h⟩
    exact ⟨hpos, j, i, hij, hj, by rw [deviation_comm]; exact h⟩

/-- Outcome of both symmetrizations on a square `n` by `n` matrix with `n ≤ 65535`: the
asymmetry error when the tolerance is exceeded, a packed result otherwise. -/
theorem symmetrization_outcome {K : Type} [LinearOrderedField K] (n : Nat) (a : versa K)
    (hn : n ≤ 65535) (hr : a.n_rows = n) (hc : a.n_columns = n)
    (hd : a.data.length = n * n) (relative_eps : K) :
    (exceeds_tolerance a relative_eps ∧
      symmetric_as_packed_u a relative_eps = .error .not_symmetric ∧
      symmetric_as_packed_l a relative_eps = .error .not_symmetric) ∨
    (¬ exceeds_tolerance a relative_eps ∧
      (∃ out, symmetric_as_packed_u a relative_eps = .ok out) ∧
      ∃ out, symmetric_as_packed_l a relative_eps = .ok out) := by
  have hnn : n * n ≤ 65535 * 65535 := Nat.mul_le_mul hn hn
  have hu : u32 (n * n) = n * n := Nat.mod_eq_of_lt (by omega)
  have htake : a.data.take (u32 (n * n)) = a.data := by
    rw [hu]; exact List.take_of_length_le (by omega)
  have hU := symmetric_as_packed_u_spec a n (by omega) hr hc hd relative_eps
  have hL := symmetric_as_packed_l_spec a n hr hc hd relative_eps
  have hl := exceeds_tolerance_iff_lower a relative_eps
  rw [htake] at hU
  unfold exceeds_tolerance at hl ⊢
  rw [hr] at hl ⊢
  rw [hl] at hL
  rcases hU with ⟨c, e⟩ | ⟨c, out, e, _⟩
  · rcases hL with ⟨_, e'⟩ | ⟨c', _⟩
    · exact Or.inl ⟨c, e, e'⟩
    · exact absurd c c'
  · rcases hL with ⟨c', _⟩ | ⟨_, out', e', _⟩
    · exact absurd c' c
    · exact Or.inr ⟨c, ⟨out, e⟩, ⟨out', e'⟩⟩

/-- When the symmetrization fails, within the dimensions at which `n*n` fits in 32 bits:
for every `n ≤ 65535`, every square `n` by `n` matrix `a` and every `relative_eps`,
`symmetric_as_packed_u(a, relative_eps)` and `symmetric_as_packed_l(a, relative_eps)` each
fail with the asymmetry error if and only if `relative_eps > 0` and some pair `i < j < n`
has `|a[i][j] - (a[i][j] + a[j][i])/2| > relative_eps * max_absolute(a)`; when they do not,
they return a result; and the condition never holds when `relative_eps ≤ 0` or `n = 0`.
Element arithmetic is exact (an ordered field). -/
theorem symmetrization_fails_iff {K : Type} [LinearOrderedField K] (n : Nat) (a : versa K)
    (hn : n ≤ 65535) (hr : a.n_rows = n) (hc : a.n_columns = n)
    (hd : a.data.length = n * n) (relative_eps : K) :
    (symmetric_as_packed_u a relative_eps = .error .not_symmetric ↔
      exceeds_tolerance a relative_eps) ∧
    (symmetric_as_packed_l a relative_eps = .error .not_symmetric ↔
      exceeds_tolerance a relative_eps) ∧
    (¬ exceeds_tolerance a relative_eps →
      (∃ out, symmetric_as_packed_u a relative_eps = .ok out) ∧
      ∃ out, symmetric_as_packed_l a relative_eps = .ok out) ∧
    (relative_eps ≤ 0 ∨ n = 0 → ¬ exceeds_tolerance a relative_eps) := by
  have h := symmetrization_outcome n a hn hr hc hd relative_eps
  refine ⟨?_, ?_, ?_, ?_⟩
  · rcases h with ⟨c, e, _⟩ | ⟨c, ⟨out, e⟩, _⟩
    · exact ⟨fun _ => c, fun _ => e⟩
    · exact ⟨fun h' => (by rw [e] at h'; cases h'), fun h' => absurd h' c⟩
  · rcases h with ⟨c, _, e⟩ | ⟨c, _, out, e⟩
    · exact ⟨fun _ => c, fun _ => e⟩
    · exact ⟨fun h' => (by rw [e] at h'; cases h'), fun h' => absurd h' c⟩
  · intro hc'
    rcases h with ⟨c, _⟩ | ⟨_, h1, h2⟩
    · exact absurd c hc'
    · exact ⟨h1, h2⟩
  · rintro (h0 | h0) ⟨hpos, i, j, hij, hj, _⟩
    · exact absurd hpos (not_lt.2 h0)
    · rw [hr] at hj; omega

/-- Instance of `symmetrization_fails_iff` on the matrix
`[[1,2,3],[2.0001,5,6],[3,6.0002,9]]` of the specification: both symmetrizations succeed
with `relative_eps = 1e-3` and both fail with the asymmetry error with
`relative_eps = 1e-8`. -/
theorem symmetrization_fails_iff_witness :
    ((∃ out, symmetric_as_packed_u
        (⟨3, 3, [1, 2, 3, 20001 / 10000, 5, 6, 3, 60002 / 10000, 9]⟩ : versa ℚ)
        (1 / 1000) = .ok out) ∧
      ∃ out, symmetric_as_packed_l
        (⟨3, 3, [1, 2, 3, 20001 / 10000, 5, 6, 3, 60002 / 10000, 9]⟩ : versa ℚ)
        (1 / 1000) = .ok out) ∧
    symmetric_as_packed_u
      (⟨3, 3, [1, 2, 3, 20001 / 10000, 5, 6, 3, 60002 / 10000, 9]⟩ : versa ℚ)
      (1 / 100000000) = .error .not_symmetric ∧
    symmetric_as_packed_l
      (⟨3, 3, [1, 2, 3, 20001 / 10000, 5, 6, 3, 60002 / 10000, 9]⟩ : versa ℚ)
      (1 / 100000000) = .error .not_symmetric := by
  have hmax : max_absolute [(1 : ℚ), 2, 3, 20001 / 10000, 5, 6, 3, 60002 / 10000, 9] = 9 := by
    norm_num [max_absolute, abs_of_pos]
  have h1 := symmetrization_fails_iff 3
    (⟨3, 3, [1, 2, 3, 20001 / 10000, 5, 6, 3, 60002 / 10000, 9]⟩ : versa ℚ)
    (by decide) rfl rfl rfl (1 / 1000)
  have h2 := symmetrization_fails_iff 3
    (⟨3, 3, [1, 2, 3, 20001 / 10000, 5, 6, 3, 60002 / 10000, 9]⟩ : versa ℚ)
    (by decide) rfl rfl rfl (1 / 100000000)
  refine ⟨h1.2.2.1 ?_, h2.1.2 ?_, h2.2.1.2 ?_⟩
  · rintro ⟨_, i, j, hij, hj, h⟩
    simp only [hmax] at h hj
    have hi : i < 3 := by omega
    interval_cases j <;> interval_cases i <;>
      norm_num [entry, average, abs_of_pos, abs_of_neg] at h hij
  · refine ⟨by norm_num, 0, 1, by decide, by decide, ?_⟩
    simp only [hmax]
    norm_num [entry, average, abs_of_pos, abs_of_neg]
  · refine ⟨by norm_num, 0, 1, by decide, by decide, ?_⟩
    simp only [hmax]
    norm_num [entry, average, abs_of_pos, abs_of_neg]

/-- Claim C10 at the failing input `n = 65537`.  The claim says that both symmetrizations
fail with the asymmetry error exactly when `relative_eps > 0` and some pair deviates from
its average by more than `relative_eps * max_absolute(a)`.  On the matrix that is `1` at
`(2, 3)` and `0` elsewhere, with `relative_eps = 1`, no pair exceeds
`relative_eps * max_absolute(a)`, and `symmetric_as_packed_l` succeeds, but
`symmetric_as_packed_u` takes the maximum over the first `n*n mod 2^32 = 131073` elements
only, which are all `0`, and fails with the asymmetry error. -/
theorem symmetric_as_packed_u_truncated_maximum :
    u32 (65537 * 65537) = 131073 ∧
    ¬ exceeds_tolerance
      (⟨65537, 65537, (List.replicate (65537 * 65537) 0).set (2 * 65537 + 3) 1⟩ : versa ℚ) 1 ∧
    symmetric_as_packed_u
      (⟨65537, 65537, (List.replicate (65537 * 65537) 0).set (2 * 65537 + 3) 1⟩ : versa ℚ) 1
      = .error .not_symmetric ∧
    ∃ out, symmetric_as_packed_l
      (⟨65537, 65537, (List.replicate (65537 * 65537) 0).set (2 * 65537 + 3) 1⟩ : versa ℚ) 1
      = .ok out := by
  have hlen : ((List.replicate (65537 * 65537) 0).set (2 * 65537 + 3) (1 : ℚ)).length
      = 65537 * 65537 := by
    rw [List.length_set, List.length_replicate]
  have hu : u32 (65537 * 65537) = 131073 := by decide
  have hno := not_exceeds_tolerance_of_one_le
    (⟨65537, 65537, (List.replicate (65537 * 65537) 0).set (2 * 65537 + 3) 1⟩ : versa ℚ)
    hlen 1 le_rfl
  have hmax : max_absolute (((List.replicate (65537 * 65537) 0).set (2 * 65537 + 3)
      (1 : ℚ)).take (u32 (65537 * 65537))) = 0 := by
    rw [hu, List.take_set_of_lt _ _ (by decide), List.take_replicate,
      max_absolute_replicate_zero]
  have e23 : entry ((List.replicate (65537 * 65537) 0).set (2 * 65537 + 3) (1 : ℚ))
      65537 2 3 = 1 := by
    unfold entry
    rw [List.getD_eq_getElem?_getD, List.getElem?_set, if_pos rfl, List.length_replicate,
      if_pos (by decide)]
    rfl
  have e32 : entry ((List.replicate (65537 * 65537) 0).set (2 * 65537 + 3) (1 : ℚ))
      65537 3 2 = 0 := by
    unfold entry
    rw [List.getD_eq_getElem?_getD, List.getElem?_set, if_neg (by decide),
      List.getElem?_replicate, if_pos (by decide)]
    rfl
  refine ⟨hu, hno, ?_, ?_⟩
  · rcases symmetric_as_packed_u_spec
      (⟨65537, 65537, (List.replicate (65537 * 65537) 0).set (2 * 65537 + 3) 1⟩ : versa ℚ)
      65537 (by decide) rfl rfl hlen 1 with ⟨_, e⟩ | ⟨c, _⟩
    · exact e
    · refine absurd ⟨by norm_num, 2, 3, by decide, by decide, ?_⟩ c
      show |entry ((List.replicate (65537 * 65537) 0).set (2 * 65537 + 3) (1 : ℚ)) 65537 2 3
        - average ((List.replicate (65537 * 65537) 0).set (2 * 65537 + 3) (1 : ℚ)) 65537 2 3|
        > 1 * max_absolute (((List.replicate (65537 * 65537) 0).set (2 * 65537 + 3)
          (1 : ℚ)).take (u32 (65537 * 65537)))
      rw [hmax, average, e23, e32]
      norm_num
  · rcases symmetric_as_packed_l_spec
      (⟨65537, 65537, (List.replicate (65537 * 65537) 0).set (2 * 65537 + 3) 1⟩ : versa ℚ)
      65537 rfl rfl hlen 1 with ⟨c, _⟩ | ⟨_, out, e, _⟩
    · exact absurd ((exceeds_tolerance_iff_lower _ 1).1 c) hno
    · exact ⟨out, e⟩

/-! ## The packed size in 32-bit arithmetic -/

/-- Claim C20: in 32-bit `unsigned` arithmetic the expression `n*(n+1)/2` of `size_1d()`
(both accessors) and of the check in `symmetric_n_from_packed_size` is the triangular
number `n(n+1)/2` for every `n ≤ 65535`; the bound is tight: for `n = 65536` the product
wraps around, the expression is `32768`, and `symmetric_n_from_packed_size` fails on the
triangular length `65536*65537/2`. -/
theorem packed_size_expression_exact (n : Nat) (hn : n ≤ 65535) :
    ((packed_u_accessor.mk n).size_1d = n * (n + 1) / 2 ∧
      (packed_l_accessor.mk n).size_1d = n * (n + 1) / 2 ∧
      u32 (n * u32 (n + 1)) / 2 = n * (n + 1) / 2) ∧
    ((packed_u_accessor.mk 65536).size_1d = 32768 ∧
      (packed_l_accessor.mk 65536).size_1d = 32768 ∧
      u32 (65536 * u32 (65536 + 1)) = 65536 ∧
      65536 * (65536 + 1) / 2 = 2147516416 ∧
      symmetric_n_from_packed_size (65536 * (65536 + 1) / 2) = .error .size_mismatch) := by
  have hB : n * (n + 1) ≤ 65535 * 65536 := Nat.mul_le_mul hn (by omega)
  have h1 : u32 (n * u32 (n + 1)) / 2 = n * (n + 1) / 2 := by
    simp only [u32]
    have h2 : (n + 1) % 2 ^ 32 = n + 1 := by omega
    rw [h2, Nat.mod_eq_of_lt (by omega)]
  exact ⟨⟨h1, h1, h1⟩, by decide, by decide, by decide, by decide, size_overflow_65536⟩

/-- Instance of `packed_size_expression_exact` at the largest exact dimension,
`n = 65535`. -/
theorem packed_size_expression_exact_witness :
    65535 ≤ 65535 ∧
    (((packed_u_accessor.mk 65535).size_1d = 65535 * (65535 + 1) / 2 ∧
      (packed_l_accessor.mk 65535).size_1d = 65535 * (65535 + 1) / 2 ∧
      u32 (65535 * u32 (65535 + 1)) / 2 = 65535 * (65535 + 1) / 2) ∧
    ((packed_u_accessor.mk 65536).size_1d = 32768 ∧
      (packed_l_accessor.mk 65536).size_1d = 32768 ∧
      u32 (65536 * u32 (65536 + 1)) = 65536 ∧
      65536 * (65536 + 1) / 2 = 2147516416 ∧
      symmetric_n_from_packed_size (65536 * (65536 + 1) / 2) = .error .size_mismatch)) :=
  ⟨le_rfl, packed_size_expression_exact 65535 le_rfl⟩

/-! ## Loops that may return -/

theorem for_loop_return_spec {σ ρ : Type} (body : Nat → σ → Except Error (ρ ⊕ σ))
    (Inv : Nat → σ → Prop) (bad : Nat → Prop) (v : ρ) :
    ∀ (count lo : Nat) (s : σ), Inv lo s →
    (∀ i s, lo ≤ i → i < lo + count → Inv i s →
      (bad i ∧ body i s = .ok (.inl v)) ∨
      (¬ bad i ∧ ∃ s', body i s = .ok (.inr s') ∧ Inv (i + 1) s')) →
    ((∃ i, lo ≤ i ∧ i < lo + count ∧ bad i) ∧
      for_loop_return body lo count s = .ok (.inl v)) ∨
    ((∀ i, lo ≤ i → i < lo + count → ¬ bad i) ∧
      ∃ s', for_loop_return body lo count s = .ok (.inr s') ∧ Inv (lo + count) s') := by
  intro count
  induction count with
  | zero =>
    intro lo s h0 _
    exact Or.inr ⟨fun i h1 h2 => by omega, s, rfl, h0⟩
  | succ c ih =>
    intro lo s h0 hstep
    rcases hstep lo s le_rfl (by omega) h0 with ⟨hb, he⟩ | ⟨hnb, s1, hs1, hI⟩
    · exact Or.inl ⟨⟨lo, le_rfl, by omega, hb⟩, by simp [for_loop_return, he]⟩
    · rcases ih (lo + 1) s1 hI (fun i s' h1 h2 hi => hstep i s' (by omega) (by omega) hi)
        with ⟨⟨i, h1, h2, h3⟩, he⟩ | ⟨hall, s2, hs2, hI2⟩
      · exact Or.inl ⟨⟨i, by omega, by omega, h3⟩, by simp [for_loop_return, hs1, he]⟩
      · refine Or.inr ⟨fun i h1 h2 => ?_, s2, by simp [for_loop_return, hs1, hs2], ?_⟩
        · rcases Nat.eq_or_lt_of_le h1 with h | h
          · subst h; exact hnb
          · exact hall i h (by omega)
        · have : lo + (c + 1) = lo + 1 + c := by omega
          rw [this]; exact hI2

/-! ## The symmetry predicates -/

theorem is_symmetric_row_spec {K : Type} [LinearOrderedField K] (a : List K) (n : Nat)
    (eps : K) (ha : a.length = n * n) (i : Nat) (hi : i < n) (s : vars K)
    (h1 : s.i0 = i * n) :
    ((∃ j, j < i ∧ |entry a n i j - average a n i j| > eps) ∧
      is_symmetric_row a n eps i s = .ok (.inl false)) ∨
    ((∀ j, j < i → ¬ |entry a n i j - average a n i j| > eps) ∧
      ∃ s', is_symmetric_row a n eps i s = .ok (.inr s') ∧ s'.i0 = (i + 1) * n) := by
  rcases for_loop_return_spec (is_symmetric_cell a n eps)
    (fun j t => t.i0 = i * n ∧ t.ij = i * n + j ∧ t.jnpi = j * n + i)
    (fun j => |entry a n i j - average a n i j| > eps) false
    i 0 ⟨s.i_a, s.i0, s.i0, i, s.r, s.result⟩
    ⟨h1, by simp only [h1]; omega, by simp⟩
    (fun j t _ hj ⟨t0, t1, t2⟩ => by
      have hji : j < i := by omega
      have hjn : j < n := by omega
      have e1 := getElem?_entry ha hi hjn
      have e2 := getElem?_entry ha hjn hi
      by_cases hb : |entry a n i j - average a n i j| > eps
      · refine Or.inl ⟨hb, ?_⟩
        simp only [is_symmetric_cell, t1, t2, read_ok e1, read_ok e2, ok_bind]
        have hb' : |entry a n i j - (entry a n i j + entry a n j i) / 2| > eps := hb
        rw [if_pos hb']
      · refine Or.inr ⟨hb, ⟨t.i_a, t.i0, t.ij + 1, t.jnpi + n, t.r, t.result⟩, ?_, t0, ?_, ?_⟩
        · simp only [is_symmetric_cell, t1, t2, read_ok e1, read_ok e2, ok_bind]
          have hb' : ¬ |entry a n i j - (entry a n i j + entry a n j i) / 2| > eps := hb
          rw [if_neg hb']
        · simp only [t1]; omega
        · simp only [t2]
          have e : (j + 1) * n = j * n + n := by ring
          omega)
    with ⟨⟨j, _, hj2, hb⟩, he⟩ | ⟨hall, s', hs', hI⟩
  · refine Or.inl ⟨⟨j, by omega, hb⟩, ?_⟩
    unfold is_symmetric_row
    rw [show ({ s with ij := s.i0, jnpi := i } : vars K)
      = ⟨s.i_a, s.i0, s.i0, i, s.r, s.result⟩ from rfl, he]
  · refine Or.inr ⟨fun j hj => hall j (by omega) (by omega),
      ⟨s'.i_a, s'.i0 + n, s'.ij, s'.jnpi, s'.r, s'.result⟩, ?_, ?_⟩
    · unfold is_symmetric_row
      rw [show ({ s with ij := s.i0, jnpi := i } : vars K)
        = ⟨s.i_a, s.i0, s.i0, i, s.r, s.result⟩ from rfl, hs']
    · simp only [hI.1]; ring

/-- Behaviour of the tolerant `is_symmetric` on a square `n` by `n` matrix with
`relative_eps > 0`: it returns `false` when some pair `j < i < n` deviates from its average
by more than `relative_eps * max_absolute(a)`, and `true` otherwise. -/
theorem is_symmetric_spec {K : Type} [LinearOrderedField K] (a : versa K) (n : Nat)
    (hr : a.n_rows = n) (hc : a.n_columns = n) (hd : a.data.length = n * n)
    (relative_eps : K) (hpos : 0 < relative_eps) :
    ((∃ i j, j < i ∧ i < n ∧ |entry a.data n i j - average a.data n i j|
        > relative_eps * max_absolute a.data) ∧ is_symmetric a relative_eps = .ok false) ∨
    ((¬ ∃ i j, j < i ∧ i < n ∧ |entry a.data n i j - average a.data n i j|
        > relative_eps * max_absolute a.data) ∧ is_symmetric a relative_eps = .ok true) := by
  unfold is_symmetric
  rw [if_neg (by simpa using hpos), hr, hc, if_neg (by simp)]
  simp only
  by_cases h0 : n = 0
  · rw [if_pos h0]
    exact Or.inr ⟨by rintro ⟨i, j, _, hi, _⟩; omega, rfl⟩
  · rw [if_neg h0]
    rcases for_loop_return_spec (is_symmetric_row a.data n (relative_eps * max_absolute a.data))
      (fun i t => t.i0 = i * n)
      (fun i => ∃ j, j < i ∧ |entry a.data n i j - average a.data n i j|
        > relative_eps * max_absolute a.data) false
      n 0 ⟨0, 0, 0, 0, 0, []⟩ (by simp)
      (fun i t _ hi t1 => by
        rcases is_symmetric_row_spec a.data n _ hd i (by omega) t t1 with
          ⟨hb, he⟩ | ⟨hb, s', he, g1⟩
        · exact Or.inl ⟨hb, he⟩
        · exact Or.inr ⟨fun ⟨j, hj, hdv⟩ => hb j hj hdv, s', he, g1⟩)
      with ⟨⟨i, _, hi2, j, hj, hb⟩, he⟩ | ⟨hall, s', hs', _⟩
    · exact Or.inl ⟨⟨i, j, hj, by omega, hb⟩, by rw [he]⟩
    · refine Or.inr ⟨?_, by rw [hs']⟩
      rintro ⟨i, j, hj, hi, hb⟩
      exact hall i (by omega) (by omega) ⟨j, hj, hb⟩

/-- Claim C13: for every square `n` by `n` matrix `a` and every `relative_eps > 0`, the
tolerant `is_symmetric(a, relative_eps)` returns `true` if and only if every pair `i ≠ j`
has `|a[i][j] - (a[i][j] + a[j][i])/2| ≤ relative_eps * max_absolute(a)`; for `n = 0` it
returns `true`.  Element arithmetic is exact (an ordered field). -/
theorem is_symmetric_iff {K : Type} [LinearOrderedField K] (n : Nat) (a : versa K)
    (hr : a.n_rows = n) (hc : a.n_columns = n) (hd : a.data.length = n * n)
    (relative_eps : K) (hpos : 0 < relative_eps) :
    ∃ b, is_symmetric a relative_eps = .ok b ∧
      (b = true ↔ ∀ i j, i < n → j < n → i ≠ j →
        |entry a.data n i j - average a.data n i j|
          ≤ relative_eps * max_absolute a.data) ∧
      (n = 0 → b = true) := by
  rcases is_symmetric_spec a n hr hc hd relative_eps hpos with
    ⟨⟨i, j, hji, hi, hb⟩, he⟩ | ⟨hno, he⟩
  · refine ⟨false, he, ⟨fun h => (by cases h), fun h => ?_⟩, fun h0 => by omega⟩
    exact absurd (h i j hi (by omega) (by omega)) (not_le.2 hb)
  · refine ⟨true, he, ⟨fun _ i j hi hj hij => ?_, fun _ => rfl⟩, fun _ => rfl⟩
    rcases Nat.lt_or_gt_of_ne hij with h | h
    · rw [deviation_comm]
      exact not_lt.1 (fun hb => hno ⟨j, i, h, hj, hb⟩)
    · exact not_lt.1 (fun hb => hno ⟨i, j, h, hi, hb⟩)

/-- Instance of `is_symmetric_iff` on the matrix `[[1,2],[2.0001,4]]` with
`relative_eps = 1e-3`. -/
theorem is_symmetric_iff_witness :
    ∃ b, is_symmetric (⟨2, 2, [1, 2, 20001 / 10000, 4]⟩ : versa ℚ) (1 / 1000) = .ok b ∧
      (b = true ↔ ∀ i j, i < 2 → j < 2 → i ≠ j →
        |entry [(1 : ℚ), 2, 20001 / 10000, 4] 2 i j
            - average [(1 : ℚ), 2, 20001 / 10000, 4] 2 i j|
          ≤ 1 / 1000 * max_absolute [(1 : ℚ), 2, 20001 / 10000, 4]) ∧
      (2 = 0 → b = true) :=
  is_symmetric_iff 2 (⟨2, 2, [1, 2, 20001 / 10000, 4]⟩ : versa ℚ) rfl rfl rfl (1 / 1000)
    (by norm_num)

/-- Claim C14, amended by the assertion on the tolerance: for every square matrix `a` and
every `relative_eps > 0` the tolerant `is_symmetric(a, relative_eps)` returns a boolean and
does not raise, and on the empty matrix it returns `true`; for `relative_eps ≤ 0` it
raises the assertion `relative_eps > 0`, whatever the matrix. -/
theorem is_symmetric_total {K : Type} [LinearOrderedField K] (n : Nat) (a : versa K)
    (hr : a.n_rows = n) (hc : a.n_columns = n) (hd : a.data.length = n * n)
    (relative_eps : K) :
    (0 < relative_eps → ∃ b, is_symmetric a relative_eps = .ok b) ∧
    (0 < relative_eps → n = 0 → is_symmetric a relative_eps = .ok true) ∧
    (relative_eps ≤ 0 → is_symmetric a relative_eps = .error .tolerance_not_positive) := by
  refine ⟨fun hpos => ?_, fun hpos h0 => ?_, fun hle => ?_⟩
  · rcases is_symmetric_spec a n hr hc hd relative_eps hpos with ⟨_, he⟩ | ⟨_, he⟩
    · exact ⟨false, he⟩
    · exact ⟨true, he⟩
  · rcases is_symmetric_spec a n hr hc hd relative_eps hpos with
      ⟨⟨i, j, _, hi, _⟩, _⟩ | ⟨_, he⟩
    · omega
    · exact he
  · unfold is_symmetric
    rw [if_pos (by simpa using hle)]

/-- Instance of `is_symmetric_total` on the empty matrix. -/
theorem is_symmetric_total_witness :
    (0 < (1 : ℚ) → ∃ b, is_symmetric (⟨0, 0, []⟩ : versa ℚ) 1 = .ok b) ∧
    (0 < (1 : ℚ) → 0 = 0 → is_symmetric (⟨0, 0, []⟩ : versa ℚ) 1 = .ok true) ∧
    ((1 : ℚ) ≤ 0 → is_symmetric (⟨0, 0, []⟩ : versa ℚ) 1
      = .error .tolerance_not_positive) :=
  is_symmetric_total 0 (⟨0, 0, []⟩ : versa ℚ) rfl rfl rfl 1

/-- Claim C14 fails as stated: with `relative_eps = 0` the tolerant `is_symmetric` raises
the assertion `relative_eps > 0` on the empty matrix, and with `relative_eps = -1` on the
symmetric matrix `[[1,2],[2,1]]`. -/
theorem is_symmetric_raises :
    is_symmetric (⟨0, 0, []⟩ : versa ℚ) 0 = .error .tolerance_not_positive ∧
    is_symmetric (⟨2, 2, [1, 2, 2, 1]⟩ : versa ℚ) (-1) = .error .tolerance_not_positive := by
  constructor
  · unfold is_symmetric
    rw [if_pos (by norm_num)]
  · unfold is_symmetric
    rw [if_pos (by norm_num)]

theorem is_symmetric_exact_row_spec {α : Type} [DecidableEq α] (a : List α) (n : Nat)
    (ha : a.length = n * n) (i : Nat) (hi : i < n) (s : vars α) (h1 : s.i0 = i * n) :
    ((∃ j, j < i ∧ a[i * n + j]? ≠ a[j * n + i]?) ∧
      is_symmetric_exact_row a n i s = .ok (.inl false)) ∨
    ((∀ j, j < i → a[i * n + j]? = a[j * n + i]?) ∧
      ∃ s', is_symmetric_exact_row a n i s = .ok (.inr s') ∧ s'.i0 = (i + 1) * n) := by
  rcases for_loop_return_spec (is_symmetric_exact_cell a n)
    (fun j t => t.i0 = i * n ∧ t.ij = i * n + j ∧ t.jnpi = j * n + i)
    (fun j => a[i * n + j]? ≠ a[j * n + i]?) false
    i 0 ⟨s.i_a, s.i0, s.i0, i, s.r, s.result⟩
    ⟨h1, by simp only [h1]; omega, by simp⟩
    (fun j t _ hj ⟨t0, t1, t2⟩ => by
      have hji : j < i := by omega
      have hjn : j < n := by omega
      obtain ⟨v1, e1⟩ := getElem?_dense ha hi hjn
      obtain ⟨v2, e2⟩ := getElem?_dense ha hjn hi
      by_cases hb : v1 ≠ v2
      · refine Or.inl ⟨(by
          show a[i * n + j]? ≠ a[j * n + i]?
          rw [e1, e2]; simpa using hb), ?_⟩
        simp only [is_symmetric_exact_cell, t1, t2, read_ok e1, read_ok e2, ok_bind]
        rw [if_pos hb]
      · refine Or.inr ⟨(by
          show ¬ a[i * n + j]? ≠ a[j * n + i]?
          rw [e1, e2]; simpa using hb),
          ⟨t.i_a, t.i0, t.ij + 1, t.jnpi + n, t.r, t.result⟩, ?_, t0, ?_, ?_⟩
        · simp only [is_symmetric_exact_cell, t1, t2, read_ok e1, read_ok e2, ok_bind]
          rw [if_neg hb]
        · simp only [t1]; omega
        · simp only [t2]
          have e : (j + 1) * n = j * n + n := by ring
          omega)
    with ⟨⟨j, _, hj2, hb⟩, he⟩ | ⟨hall, s', hs', hI⟩
  · refine Or.inl ⟨⟨j, by omega, hb⟩, ?_⟩
    unfold is_symmetric_exact_row
    rw [show ({ s with ij := s.i0, jnpi := i } : vars α)
      = ⟨s.i_a, s.i0, s.i0, i, s.r, s.result⟩ from rfl, he]
  · refine Or.inr ⟨fun j hj => not_not.1 (hall j (by omega) (by omega)),
      ⟨s'.i_a, s'.i0 + n, s'.ij, s'.jnpi, s'.r, s'.result⟩, ?_, ?_⟩
    · unfold is_symmetric_exact_row
      rw [show ({ s with ij := s.i0, jnpi := i } : vars α)
        = ⟨s.i_a, s.i0, s.i0, i, s.r, s.result⟩ from rfl, hs']
    · simp only [hI.1]; ring

/-- Behaviour of the exact `is_symmetric` on a square `n` by `n` matrix: `false` when some
entry below the diagonal differs from its mirror image, `true` otherwise. -/
theorem is_symmetric_exact_spec {α : Type} [DecidableEq α] (a : versa α) (n : Nat)
    (hr : a.n_rows = n) (hc : a.n_columns = n) (hd : a.data.length = n * n) :
    ((∃ i j, j < i ∧ i < n ∧ a.data[i * n + j]? ≠ a.data[j * n + i]?) ∧
      is_symmetric_exact a = .ok false) ∨
    ((∀ i j, j < i → i < n → a.data[i * n + j]? = a.data[j * n + i]?) ∧
      is_symmetric_exact a = .ok true) := by
  unfold is_symmetric_exact
  rw [hr, hc, if_neg (by simp)]
  simp only
  by_cases h0 : n = 0
  · rw [if_pos h0]
    exact Or.inr ⟨fun i j _ hi => by omega, rfl⟩
  · rw [if_neg h0]
    rcases for_loop_return_spec (is_symmetric_exact_row a.data n)
      (fun i t => t.i0 = i * n)
      (fun i => ∃ j, j < i ∧ a.data[i * n + j]? ≠ a.data[j * n + i]?) false
      n 0 ⟨0, 0, 0, 0, 0, []⟩ (by simp)
      (fun i t _ hi t1 => by
        rcases is_symmetric_exact_row_spec a.data n hd i (by omega) t t1 with
          ⟨hb, he⟩ | ⟨hb, s', he, g1⟩
        · exact Or.inl ⟨hb, he⟩
        · exact Or.inr ⟨fun ⟨j, hj, hne⟩ => hne (hb j hj), s', he, g1⟩)
      with ⟨⟨i, _, hi2, j, hj, hb⟩, he⟩ | ⟨hall, s', hs', _⟩
    · exact Or.inl ⟨⟨i, j, hj, by omega, hb⟩, by rw [he]⟩
    · refine Or.inr ⟨fun i j hj hi => ?_, by rw [hs']⟩
      exact not_not.1 (fun hne => hall i (by omega) (by omega) ⟨j, hj, hne⟩)

/-- Claim C15: for every square `n` by `n` matrix `a`, the exact `is_symmetric(a)` returns
`true` if and only if `a[i][j] == a[j][i]` for all `i, j < n`; it returns `true` for
`n = 0` and `false` for `[[1,2],[3,4]]`. -/
theorem is_symmetric_exact_iff {α : Type} [DecidableEq α] (n : Nat) (a : versa α)
    (hr : a.n_rows = n) (hc : a.n_columns = n) (hd : a.data.length = n * n) :
    (∃ b, is_symmetric_exact a = .ok b ∧
      (b = true ↔ ∀ i j, i < n → j < n → a.data[i * n + j]? = a.data[j * n + i]?) ∧
      (n = 0 → b = true)) ∧
    is_symmetric_exact (⟨2, 2, [1, 2, 3, 4]⟩ : versa Int) = .ok false := by
  constructor
  · rcases is_symmetric_exact_spec a n hr hc hd with ⟨⟨i, j, hji, hi, hb⟩, he⟩ | ⟨hall, he⟩
    · refine ⟨false, he, ⟨fun h => (by cases h), fun h => ?_⟩, fun h0 => by omega⟩
      exact absurd (h i j hi (by omega)) hb
    · refine ⟨true, he, ⟨fun _ i j hi hj => ?_, fun _ => rfl⟩, fun _ => rfl⟩
      rcases Nat.lt_trichotomy i j with h | h | h
      · exact (hall j i h hj).symm
      · subst h; rfl
      · exact hall i j h hi
  · rcases is_symmetric_exact_spec (⟨2, 2, [1, 2, 3, 4]⟩ : versa Int) 2 rfl rfl rfl with
      ⟨_, he⟩ | ⟨hall, _⟩
    · exact he
    · have := hall 1 0 (by decide) (by decide)
      simp at this

/-- Instance of `is_symmetric_exact_iff` on the symmetric matrix `[[1,2],[2,4]]`. -/
theorem is_symmetric_exact_iff_witness :
    (∃ b, is_symmetric_exact (⟨2, 2, [1, 2, 2, 4]⟩ : versa Int) = .ok b ∧
      (b = true ↔ ∀ i j, i < 2 → j < 2 →
        [(1 : Int), 2, 2, 4][i * 2 + j]? = [(1 : Int), 2, 2, 4][j * 2 + i]?) ∧
      (2 = 0 → b = true)) ∧
    is_symmetric_exact (⟨2, 2, [1, 2, 3, 4]⟩ : versa Int) = .ok false :=
  is_symmetric_exact_iff 2 (⟨2, 2, [1, 2, 2, 4]⟩ : versa Int) rfl rfl rfl

/-! ## Agreement of the symmetry checks and large tolerances -/

/-- Within `n ≤ 65535` and for `relative_eps > 0` the three symmetry checks agree: the
tolerant `is_symmetric` returns `true` exactly when `symmetric_as_packed_u` does not fail,
and exactly when `symmetric_as_packed_l` does not fail. -/
theorem symmetry_checks_agree {K : Type} [LinearOrderedField K] (n : Nat) (a : versa K)
    (hn : n ≤ 65535) (hr : a.n_rows = n) (hc : a.n_columns = n)
    (hd : a.data.length = n * n) (relative_eps : K) (hpos : 0 < relative_eps) :
    (is_symmetric a relative_eps = .ok true ↔
      ∃ out, symmetric_as_packed_u a relative_eps = .ok out) ∧
    (is_symmetric a relative_eps = .ok true ↔
      ∃ out, symmetric_as_packed_l a relative_eps = .ok out) := by
  have hl := exceeds_tolerance_iff_lower a relative_eps
  rw [hr] at hl
  have hS := is_symmetric_spec a n hr hc hd relative_eps hpos
  rcases symmetrization_outcome n a hn hr hc hd relative_eps with
    ⟨c, eu, el⟩ | ⟨c, ⟨ou, eu⟩, ⟨ol, el⟩⟩
  · rcases hS with ⟨_, es⟩ | ⟨hno, _⟩
    · refine ⟨⟨fun h => ?_, fun ⟨o, h⟩ => ?_⟩, ⟨fun h => ?_, fun ⟨o, h⟩ => ?_⟩⟩
      · rw [es] at h; cases h
      · rw [eu] at h; cases h
      · rw [es] at h; cases h
      · rw [el] at h; cases h
    · exact absurd (hl.2 c).2 hno
  · rcases hS with ⟨hex, _⟩ | ⟨_, es⟩
    · exact absurd (hl.1 ⟨hpos, hex⟩) c
    · exact ⟨⟨fun _ => ⟨ou, eu⟩, fun _ => es⟩, ⟨fun _ => ⟨ol, el⟩, fun _ => es⟩⟩

/-- Instance of `symmetry_checks_agree` on the matrix `[[1,2],[2.0001,4]]` with
`relative_eps = 1e-3`. -/
theorem symmetry_checks_agree_witness :
    (is_symmetric (⟨2, 2, [1, 2, 20001 / 10000, 4]⟩ : versa ℚ) (1 / 1000) = .ok true ↔
      ∃ out, symmetric_as_packed_u (⟨2, 2, [1, 2, 20001 / 10000, 4]⟩ : versa ℚ) (1 / 1000)
        = .ok out) ∧
    (is_symmetric (⟨2, 2, [1, 2, 20001 / 10000, 4]⟩ : versa ℚ) (1 / 1000) = .ok true ↔
      ∃ out, symmetric_as_packed_l (⟨2, 2, [1, 2, 20001 / 10000, 4]⟩ : versa ℚ) (1 / 1000)
        = .ok out) :=
  symmetry_checks_agree 2 (⟨2, 2, [1, 2, 20001 / 10000, 4]⟩ : versa ℚ) (by decide)
    rfl rfl rfl (1 / 1000) (by norm_num)

/-- On the `65537` by `65537` matrix that is `1` at `(2, 3)` and `0` elsewhere,
`symmetric_as_packed_u` fails with the asymmetry error for every `relative_eps > 0`: its
tolerance is `relative_eps` times the maximum of the first `131073` elements, which is
`0`, and the pair `(2, 3)` deviates by `1/2`. -/
theorem symmetric_as_packed_u_spike (relative_eps : ℚ) (hpos : 0 < relative_eps) :
    symmetric_as_packed_u
      (⟨65537, 65537, (List.replicate (65537 * 65537) 0).set (2 * 65537 + 3) 1⟩ : versa ℚ)
      relative_eps = .error .not_symmetric := by
  have hlen : ((List.replicate (65537 * 65537) 0).set (2 * 65537 + 3) (1 : ℚ)).length
      = 65537 * 65537 := by
    rw [List.length_set, List.length_replicate]
  have hu : u32 (65537 * 65537) = 131073 := by decide
  have hmax : max_absolute (((List.replicate (65537 * 65537) 0).set (2 * 65537 + 3)
      (1 : ℚ)).take (u32 (65537 * 65537))) = 0 := by
    rw [hu, List.take_set_of_lt _ _ (by decide), List.take_replicate,
      max_absolute_replicate_zero]
  have e23 : entry ((List.replicate (65537 * 65537) 0).set (2 * 65537 + 3) (1 : ℚ))
      65537 2 3 = 1 := by
    unfold entry
    rw [List.getD_eq_getElem?_getD, List.getElem?_set, if_pos rfl, List.length_replicate,
      if_pos (by decide)]
    rfl
  have e32 : entry ((List.replicate (65537 * 65537) 0).set (2 * 65537 + 3) (1 : ℚ))
      65537 3 2 = 0 := by
    unfold entry
    rw [List.getD_eq_getElem?_getD, List.getElem?_set, if_neg (by decide),
      List.getElem?_replicate, if_pos (by decide)]
    rfl
  rcases symmetric_as_packed_u_spec
    (⟨65537, 65537, (List.replicate (65537 * 65537) 0).set (2 * 65537 + 3) 1⟩ : versa ℚ)
    65537 (by decide) rfl rfl hlen relative_eps with ⟨_, e⟩ | ⟨c, _⟩
  · exact e
  · refine absurd ⟨hpos, 2, 3, by decide, by decide, ?_⟩ c
    show |entry ((List.replicate (65537 * 65537) 0).set (2 * 65537 + 3) (1 : ℚ)) 65537 2 3
      - average ((List.replicate (65537 * 65537) 0).set (2 * 65537 + 3) (1 : ℚ)) 65537 2 3|
      > relative_eps * max_absolute (((List.replicate (65537 * 65537) 0).set
        (2 * 65537 + 3) (1 : ℚ)).take (u32 (65537 * 65537)))
    rw [hmax, average, e23, e32]
    norm_num

/-- On the same matrix, with `relative_eps ≥ 1`, `symmetric_as_packed_l` succeeds and the
tolerant `is_symmetric` returns `true`. -/
theorem lower_checks_spike (relative_eps : ℚ) (h1 : 1 ≤ relative_eps) :
    (∃ out, symmetric_as_packed_l
      (⟨65537, 65537, (List.replicate (65537 * 65537) 0).set (2 * 65537 + 3) 1⟩ : versa ℚ)
      relative_eps = .ok out) ∧
    is_symmetric
      (⟨65537, 65537, (List.replicate (65537 * 65537) 0).set (2 * 65537 + 3) 1⟩ : versa ℚ)
      relative_eps = .ok true := by
  have hlen : ((List.replicate (65537 * 65537) 0).set (2 * 65537 + 3) (1 : ℚ)).length
      = 65537 * 65537 := by
    rw [List.length_set, List.length_replicate]
  have hno := not_exceeds_tolerance_of_one_le
    (⟨65537, 65537, (List.replicate (65537 * 65537) 0).set (2 * 65537 + 3) 1⟩ : versa ℚ)
    hlen relative_eps h1
  have hl := exceeds_tolerance_iff_lower
    (⟨65537, 65537, (List.replicate (65537 * 65537) 0).set (2 * 65537 + 3) 1⟩ : versa ℚ)
    relative_eps
  have hpos : 0 < relative_eps := by linarith
  constructor
  · rcases symmetric_as_packed_l_spec
      (⟨65537, 65537, (List.replicate (65537 * 65537) 0).set (2 * 65537 + 3) 1⟩ : versa ℚ)
      65537 rfl rfl hlen relative_eps with ⟨c, _⟩ | ⟨_, out, e, _⟩
    · exact absurd (hl.1 c) hno
    · exact ⟨out, e⟩
  · rcases is_symmetric_spec
      (⟨65537, 65537, (List.replicate (65537 * 65537) 0).set (2 * 65537 + 3) 1⟩ : versa ℚ)
      65537 rfl rfl hlen relative_eps hpos with ⟨c, _⟩ | ⟨_, e⟩
    · exact absurd (hl.1 ⟨hpos, c⟩) hno
    · exact e

/-- Claim C17 at the failing input `n = 65537`.  The claim says that for
`relative_eps > 0` the tolerant `is_symmetric` returns `true` exactly when
`symmetric_as_packed_u` does not fail, and exactly when `symmetric_as_packed_l` does not
fail.  On the matrix that is `1` at `(2, 3)` and `0` elsewhere, with `relative_eps = 1`,
`is_symmetric` returns `true` and `symmetric_as_packed_l` succeeds, but
`symmetric_as_packed_u`, whose maximum is taken over the first `n*n mod 2^32 = 131073`
elements only, fails with the asymmetry error. -/
theorem symmetry_checks_disagree :
    is_symmetric
      (⟨65537, 65537, (List.replicate (65537 * 65537) 0).set (2 * 65537 + 3) 1⟩ : versa ℚ) 1
      = .ok true ∧
    (∃ out, symmetric_as_packed_l
      (⟨65537, 65537, (List.replicate (65537 * 65537) 0).set (2 * 65537 + 3) 1⟩ : versa ℚ) 1
      = .ok out) ∧
    symmetric_as_packed_u
      (⟨65537, 65537, (List.replicate (65537 * 65537) 0).set (2 * 65537 + 3) 1⟩ : versa ℚ) 1
      = .error .not_symmetric :=
  ⟨(lower_checks_spike 1 le_rfl).2, (lower_checks_spike 1 le_rfl).1,
    symmetric_as_packed_u_spike 1 (by norm_num)⟩

/-- Within `n ≤ 65535` a tolerance `relative_eps ≥ 1` never fails: both symmetrizations
return a result on every square `n` by `n` matrix, the all-zero matrix included. -/
theorem large_tolerance_succeeds {K : Type} [LinearOrderedField K] (n : Nat) (a : versa K)
    (hn : n ≤ 65535) (hr : a.n_rows = n) (hc : a.n_columns = n)
    (hd : a.data.length = n * n) (relative_eps : K) (h1 : 1 ≤ relative_eps) :
    (∃ out, symmetric_as_packed_u a relative_eps = .ok out) ∧
    ∃ out, symmetric_as_packed_l a relative_eps = .ok out := by
  have hno := not_exceeds_tolerance_of_one_le a (by rw [hr]; exact hd) relative_eps h1
  rcases symmetrization_outcome n a hn hr hc hd relative_eps with ⟨c, _⟩ | ⟨_, h⟩
  · exact absurd c hno
  · exact h

/-- Instance of `large_tolerance_succeeds` on the all-zero `2` by `2` matrix with
`relative_eps = 1`. -/
theorem large_tolerance_succeeds_witness :
    (∃ out, symmetric_as_packed_u (⟨2, 2, [0, 0, 0, 0]⟩ : versa ℚ) 1 = .ok out) ∧
    ∃ out, symmetric_as_packed_l (⟨2, 2, [0, 0, 0, 0]⟩ : versa ℚ) 1 = .ok out :=
  large_tolerance_succeeds 2 (⟨2, 2, [0, 0, 0, 0]⟩ : versa ℚ) (by decide) rfl rfl rfl 1
    le_rfl

/-- Claim C12 at the failing input `n = 65537`.  The claim says that every square matrix
has a bound `E`, and that `E = 1` always works, such that both symmetrizations succeed for
every `relative_eps ≥ E`.  On the matrix that is `1` at `(2, 3)` and `0` elsewhere no
bound works for `symmetric_as_packed_u`: above every `E` there is a `relative_eps` with
which it fails with the asymmetry error, `relative_eps = 1` among them, while
`symmetric_as_packed_l` succeeds with `relative_eps = 1`. -/
theorem no_tolerance_suffices :
    (∀ E : ℚ, ∃ relative_eps, E ≤ relative_eps ∧ symmetric_as_packed_u
      (⟨65537, 65537, (List.replicate (65537 * 65537) 0).set (2 * 65537 + 3) 1⟩ : versa ℚ)
      relative_eps = .error .not_symmetric) ∧
    symmetric_as_packed_u
      (⟨65537, 65537, (List.replicate (65537 * 65537) 0).set (2 * 65537 + 3) 1⟩ : versa ℚ) 1
      = .error .not_symmetric ∧
    ∃ out, symmetric_as_packed_l
      (⟨65537, 65537, (List.replicate (65537 * 65537) 0).set (2 * 65537 + 3) 1⟩ : versa ℚ) 1
      = .ok out := by
  refine ⟨fun E => ⟨max E 1, le_max_left E 1, ?_⟩, symmetric_as_packed_u_spike 1 (by norm_num),
    (lower_checks_spike 1 le_rfl).1⟩
  exact symmetric_as_packed_u_spike (max E 1) (lt_of_lt_of_le one_pos (le_max_right E 1))

/-! ## Mirrored expansion of a symmetrized matrix -/

/-- Within `n ≤ 65535`: whenever `symmetric_as_packed_u(a, relative_eps)` does not fail,
the mirrored expansion `packed_u_as_symmetric` of its result is the `n` by `n` matrix whose
`(i, j)` entry is `(a[i][j] + a[j][i])/2` for `i ≠ j` and `a[i][i]` on the diagonal; the
same holds for `symmetric_as_packed_l` followed by `packed_l_as_symmetric`. -/
theorem symmetrized_expansion {K : Type} [LinearOrderedField K] (n : Nat) (a : versa K)
    (hn : n ≤ 65535) (hr : a.n_rows = n) (hc : a.n_columns = n)
    (hd : a.data.length = n * n) (relative_eps : K) :
    (∀ out, symmetric_as_packed_u a relative_eps = .ok out →
      ∃ d, packed_u_as_symmetric out = .ok d ∧ d.n_rows = n ∧ d.n_columns = n ∧
        d.data.length = n * n ∧
        ∀ i j, i < n → j < n →
          d.data[i * n + j]? =
            some (if i = j then entry a.data n i i else average a.data n i j)) ∧
    (∀ out, symmetric_as_packed_l a relative_eps = .ok out →
      ∃ d, packed_l_as_symmetric out = .ok d ∧ d.n_rows = n ∧ d.n_columns = n ∧
        d.data.length = n * n ∧
        ∀ i j, i < n → j < n →
          d.data[i * n + j]? =
            some (if i = j then entry a.data n i i else average a.data n i j)) := by
  have hmm : ∀ p q, p < n → q < n → min p q ≤ max p q ∧ max p q < n := by
    intro p q hp hq
    rcases min_max_cases p q with ⟨e1, e2, _⟩ | ⟨e1, e2, _⟩ <;> rw [e1, e2] <;> omega
  constructor
  · intro out hout
    rcases symmetric_as_packed_u_spec a n (by omega) hr hc hd relative_eps with
      ⟨_, e⟩ | ⟨_, out', e, g2, g3⟩
    · rw [e] at hout; cases hout
    · rw [e] at hout
      injection hout with hout
      subst hout
      obtain ⟨d, h1, h2, h3, h4, h5⟩ := packed_u_as_symmetric_spec out' n hn g2
      refine ⟨d, h1, h2, h3, h4, fun i j hi hj => ?_⟩
      rw [h5 i j hi hj, g3 _ _ (hmm i j hi hj).1 (hmm i j hi hj).2]
      rcases min_max_cases i j with ⟨c1, c2, _⟩ | ⟨c1, c2, _⟩
      · rw [c1, c2]; rfl
      · rw [c1, c2, symmetrized_comm]; rfl
  · intro out hout
    rcases symmetric_as_packed_l_spec a n hr hc hd relative_eps with
      ⟨_, e⟩ | ⟨_, out', e, g2, g3⟩
    · rw [e] at hout; cases hout
    · rw [e] at hout
      injection hout with hout
      subst hout
      obtain ⟨d, h1, h2, h3, h4, h5⟩ := packed_l_as_symmetric_spec out' n hn g2
      refine ⟨d, h1, h2, h3, h4, fun i j hi hj => ?_⟩
      rw [h5 i j hi hj, g3 _ _ (hmm i j hi hj).1 (hmm i j hi hj).2]
      rcases min_max_cases i j with ⟨c1, c2, _⟩ | ⟨c1, c2, _⟩
      · rw [c1, c2, symmetrized_comm]; rfl
      · rw [c1, c2]; rfl

/-- Instance of `symmetrized_expansion` on the matrix `[[1,2],[4,8]]` with the tolerance
test switched off (`relative_eps = 0`). -/
theorem symmetrized_expansion_witness :
    (∀ out, symmetric_as_packed_u (⟨2, 2, [1, 2, 4, 8]⟩ : versa ℚ) 0 = .ok out →
      ∃ d, packed_u_as_symmetric out = .ok d ∧ d.n_rows = 2 ∧ d.n_columns = 2 ∧
        d.data.length = 2 * 2 ∧
        ∀ i j, i < 2 → j < 2 →
          d.data[i * 2 + j]? =
            some (if i = j then entry [(1 : ℚ), 2, 4, 8] 2 i i
              else average [(1 : ℚ), 2, 4, 8] 2 i j)) ∧
    (∀ out, symmetric_as_packed_l (⟨2, 2, [1, 2, 4, 8]⟩ : versa ℚ) 0 = .ok out →
      ∃ d, packed_l_as_symmetric out = .ok d ∧ d.n_rows = 2 ∧ d.n_columns = 2 ∧
        d.data.length = 2 * 2 ∧
        ∀ i j, i < 2 → j < 2 →
          d.data[i * 2 + j]? =
            some (if i = j then entry [(1 : ℚ), 2, 4, 8] 2 i i
              else average [(1 : ℚ), 2, 4, 8] 2 i j)) :=
  symmetrized_expansion 2 (⟨2, 2, [1, 2, 4, 8]⟩ : versa ℚ) (by decide) rfl rfl rfl 0

/-- Claim C11 at the failing input `n = 65536`.  The claim says that whenever a
symmetrization does not fail, the mirrored expansion of its result is the matrix of
pairwise averages.  On the all-zero `65536` by `65536` matrix, with `relative_eps = 0`,
both symmetrizations succeed, with `65536*65537/2` elements, and both mirrored expansions
then fail with the size-mismatch assertion, because `symmetric_n_from_packed_size`
evaluates `n*(n+1)/2` in 32-bit `unsigned`. -/
theorem symmetrized_expansion_overflow :
    (∃ out, symmetric_as_packed_u
        (⟨65536, 65536, List.replicate (65536 * 65536) 0⟩ : versa ℚ) 0 = .ok out ∧
      out.length = 65536 * (65536 + 1) / 2 ∧
      packed_u_as_symmetric out = .error .size_mismatch) ∧
    (∃ out, symmetric_as_packed_l
        (⟨65536, 65536, List.replicate (65536 * 65536) 0⟩ : versa ℚ) 0 = .ok out ∧
      out.length = 65536 * (65536 + 1) / 2 ∧
      packed_l_as_symmetric out = .error .size_mismatch) := by
  have hlen : (List.replicate (65536 * 65536) (0 : ℚ)).length = 65536 * 65536 :=
    List.length_replicate _ _
  constructor
  · rcases symmetric_as_packed_u_spec
      (⟨65536, 65536, List.replicate (65536 * 65536) 0⟩ : versa ℚ) 65536 (by decide)
      rfl rfl hlen 0 with ⟨⟨hpos, _⟩, _⟩ | ⟨_, out, e, g2, _⟩
    · exact absurd hpos (lt_irrefl 0)
    · exact ⟨out, e, g2,
        (mirrored_fail_of_size out _ (by rw [g2]; exact size_overflow_65536)).1⟩
  · rcases symmetric_as_packed_l_spec
      (⟨65536, 65536, List.replicate (65536 * 65536) 0⟩ : versa ℚ) 65536
      rfl rfl hlen 0 with ⟨⟨hpos, _⟩, _⟩ | ⟨_, out, e, g2, _⟩
    · exact absurd hpos (lt_irrefl 0)
    · exact ⟨out, e, g2,
        (mirrored_fail_of_size out _ (by rw [g2]; exact size_overflow_65536)).2⟩

/-! ## The diagonal of a packed upper triangle -/

/-- For a packed sequence of length `n(n+1)/2` with `n ≤ 65535`, `packed_u_diagonal`
succeeds with `n` elements, the `i`-th being the packed element at the start of row `i`. -/
theorem packed_u_diagonal_spec {α : Type} (a : List α) (n : Nat) (hn : n ≤ 65535)
    (ha : a.length = n * (n + 1) / 2) :
    ∃ out, packed_u_diagonal a = .ok out ∧ out.length = n ∧
      ∀ i, i < n → out[i]? = a[row_start_u n i]? ∧ a[row_start_u n i]? ≠ none := by
  have hread : ∀ i, i < n → ∃ v, a[row_start_u n i]? = some v := by
    intro i hi
    have h := offset_u_lt n i i le_rfl hi
    rw [Nat.sub_self, Nat.add_zero] at h
    exact getElem?_packed ha h
  obtain ⟨s', hs', hI⟩ := for_loop_ok (packed_u_diagonal_cell a n)
    (fun i t => t.ij = row_start_u n i ∧ t.r = i ∧ t.result.length = n ∧
      ∀ k, k < i → t.result[k]? = some (a[row_start_u n k]?))
    n 0 ⟨0, 0, 0, 0, 0, List.replicate n none⟩
    ⟨by simp [row_start_u], rfl, by simp, fun k hk => by omega⟩
    (fun i t _ hi ⟨t1, t2, t3, t4⟩ => by
      have hin : i < n := by omega
      obtain ⟨v, hv⟩ := hread i hin
      have hlt : t.r < t.result.length := by omega
      have hsub : u32_sub n i = n - i := by
        simp only [u32_sub]; omega
      refine ⟨⟨t.i_a, t.i0, t.ij + u32_sub n i, t.jnpi, t.r + 1,
        t.result.set t.r (some v)⟩, ?_, ?_, ?_, ?_, ?_⟩
      · simp only [packed_u_diagonal_cell, t1, read_ok hv, ok_bind, write_ok v hlt]
      · simp only [t1, hsub, row_start_u]
      · simp only [t2]
      · simp only [List.length_set, t3]
      · intro k hk
        simp only
        rw [List.getElem?_set, t2]
        by_cases hki : i = k
        · subst hki
          rw [if_pos rfl, if_pos (by omega), hv]
        · rw [if_neg hki]
          exact t4 k (by omega))
  obtain ⟨t1, t2, t3, t4⟩ := hI
  rw [Nat.zero_add] at t4
  obtain ⟨out, ho1, ho2⟩ := freeze_spec s'.result (fun k hk => by
    rw [t3] at hk
    obtain ⟨v, hv⟩ := hread k hk
    exact ⟨v, by rw [t4 k hk, hv]⟩)
  have hlen : out.length = n := by
    have := t3; rw [ho2, List.length_map] at this; exact this
  refine ⟨out, ?_, hlen, fun i hi => ?_⟩
  · simp only [packed_u_diagonal, packed_u_diagonal_ptr, ha,
      symmetric_n_from_packed_size_ok n hn, ok_bind, hs', ho1]
  · obtain ⟨v, hv⟩ := hread i hi
    have h3 := t4 i hi
    rw [ho2, List.getElem?_map, hv] at h3
    refine ⟨?_, by simp [hv]⟩
    rw [hv]
    cases ho : out[i]? with
    | none => rw [ho] at h3; simp at h3
    | some w => rw [ho] at h3; simpa using h3

/-- Within `n ≤ 65535`: for every packed-upper sequence `P` of length `n(n+1)/2`,
`packed_u_diagonal(P)` has length `n` and its `i`-th element is
`P[packed_u_accessor(n)(i,i)]`, which is the `(i, i)` entry of `packed_u_as_symmetric(P)`. -/
theorem packed_u_diagonal_entries {α : Type} (n : Nat) (P : List α) (hn : n ≤ 65535)
    (hP : P.length = n * (n + 1) / 2) :
    ∃ out d, packed_u_diagonal P = .ok out ∧ out.length = n ∧
      packed_u_as_symmetric P = .ok d ∧
      ∀ i, i < n → out[i]? = P[(packed_u_accessor.mk n).call i i]? ∧
        out[i]? = d.data[i * n + i]? ∧ out[i]? ≠ none := by
  obtain ⟨out, h1, h2, h3⟩ := packed_u_diagonal_spec P n hn hP
  obtain ⟨d, g1, _, _, _, g5⟩ := packed_u_as_symmetric_spec P n hn hP
  refine ⟨out, d, h1, h2, g1, fun i hi => ?_⟩
  have hc := packed_u_accessor_call_eq n i i (by omega) le_rfl hi
  rw [Nat.sub_self, Nat.add_zero] at hc
  have hd := g5 i i hi hi
  rw [Nat.min_self, Nat.max_self, Nat.sub_self, Nat.add_zero] at hd
  obtain ⟨e1, e2⟩ := h3 i hi
  exact ⟨by rw [hc]; exact e1, by rw [hd]; exact e1, by rw [e1]; exact e2⟩

/-- Instance of `packed_u_diagonal_entries` on the packed sequence `[1, 2, 3, 4, 5, 6]` of
a `3` by `3` matrix. -/
theorem packed_u_diagonal_entries_witness :
    ∃ out d, packed_u_diagonal [(1 : Int), 2, 3, 4, 5, 6] = .ok out ∧ out.length = 3 ∧
      packed_u_as_symmetric [(1 : Int), 2, 3, 4, 5, 6] = .ok d ∧
      ∀ i, i < 3 →
        out[i]? = [(1 : Int), 2, 3, 4, 5, 6][(packed_u_accessor.mk 3).call i i]? ∧
        out[i]? = d.data[i * 3 + i]? ∧ out[i]? ≠ none :=
  packed_u_diagonal_entries 3 [(1 : Int), 2, 3, 4, 5, 6] (by decide) rfl

/-- Claim C16 at the failing input `n = 65536`.  The claim says that `packed_u_diagonal(P)`
has length `n` and holds the diagonal of `packed_u_as_symmetric(P)` for a packed sequence
of any triangular length.  On a packed sequence of `65536*65537/2` elements
`packed_u_diagonal` and `packed_u_as_symmetric` both fail with the size-mismatch
assertion, because `symmetric_n_from_packed_size` evaluates `n*(n+1)/2` in 32-bit
`unsigned`. -/
theorem packed_u_diagonal_overflow :
    (List.replicate (65536 * (65536 + 1) / 2) (0 : Int)).length = 65536 * (65536 + 1) / 2 ∧
    packed_u_diagonal (List.replicate (65536 * (65536 + 1) / 2) (0 : Int))
      = .error .size_mismatch ∧
    packed_u_as_symmetric (List.replicate (65536 * (65536 + 1) / 2) (0 : Int))
      = .error .size_mismatch := by
  have hlen : (List.replicate (65536 * (65536 + 1) / 2) (0 : Int)).length
      = 65536 * (65536 + 1) / 2 := List.length_replicate _ _
  have hsz : symmetric_n_from_packed_size
      (List.replicate (65536 * (65536 + 1) / 2) (0 : Int)).length = .error .size_mismatch := by
    rw [hlen]; exact size_overflow_65536
  refine ⟨hlen, ?_, (mirrored_fail_of_size _ _ hsz).1⟩
  simp only [packed_u_diagonal, hsz, error_bind]

/-! ## Reconstruction of a symmetric matrix -/

theorem dense_ext {α : Type} (n : Nat) (l1 l2 : List α) (h1 : l1.length = n * n)
    (h2 : l2.length = n * n)
    (h : ∀ p q, p < n → q < n → l1[p * n + q]? = l2[p * n + q]?) : l1 = l2 := by
  apply List.ext_getElem?
  intro k
  by_cases hk : k < n * n
  · have hpos : 0 < n := by
      rcases Nat.eq_zero_or_pos n with h0 | h0
      · subst h0; simp at hk
      · exact h0
    have e : k / n * n + k % n = k := by
      rw [Nat.mul_comm]; exact Nat.div_add_mod k n
    rw [← e]
    exact h _ _ ((Nat.div_lt_iff_lt_mul hpos).2 hk) (Nat.mod_lt _ hpos)
  · rw [List.getElem?_eq_none (by omega), List.getElem?_eq_none (by omega)]

theorem versa_ext {α : Type} (a b : versa α) (h1 : a.n_rows = b.n_rows)
    (h2 : a.n_columns = b.n_columns) (h3 : a.data = b.data) : a = b := by
  cases a; cases b
  simp only at h1 h2 h3
  rw [h1, h2, h3]

/-- Within `n ≤ 65535`: packing one triangle of an exactly symmetric `n` by `n` matrix `S`
and expanding it with the mirrored conversion gives `S` back, for both conventions. -/
theorem symmetric_reconstruction {α : Type} (n : Nat) (S : versa α) (hn : n ≤ 65535)
    (hr : S.n_rows = n) (hc : S.n_columns = n) (hd : S.data.length = n * n)
    (hsym : ∀ i j, i < n → j < n → S.data[i * n + j]? = S.data[j * n + i]?) :
    (upper_triangle_as_packed_u S >>= packed_u_as_symmetric) = .ok S ∧
    (lower_triangle_as_packed_l S >>= packed_l_as_symmetric) = .ok S := by
  constructor
  · obtain ⟨out, h1, h2, h3⟩ := upper_triangle_as_packed_u_spec S n hr hc hd
    obtain ⟨d, g1, g2, g3, g4, g5⟩ := packed_u_as_symmetric_spec out n hn h2
    rw [h1, ok_bind, g1]
    congr 1
    refine versa_ext d S (by rw [g2, hr]) (by rw [g3, hc])
      (dense_ext n d.data S.data g4 hd (fun p q hp hq => ?_))
    rw [g5 p q hp hq]
    rcases min_max_cases p q with ⟨c1, c2, hle⟩ | ⟨c1, c2, hlt⟩
    · rw [c1, c2]; exact h3 p q hle hq
    · rw [c1, c2, h3 q p (by omega) hp]; exact hsym q p hq hp
  · obtain ⟨out, h1, h2, h3⟩ := lower_triangle_as_packed_l_spec S n hr hc hd
    obtain ⟨d, g1, g2, g3, g4, g5⟩ := packed_l_as_symmetric_spec out n hn h2
    rw [h1, ok_bind, g1]
    congr 1
    refine versa_ext d S (by rw [g2, hr]) (by rw [g3, hc])
      (dense_ext n d.data S.data g4 hd (fun p q hp hq => ?_))
    rw [g5 p q hp hq]
    rcases min_max_cases p q with ⟨c1, c2, hle⟩ | ⟨c1, c2, hlt⟩
    · rw [c1, c2, h3 q p hle hq]; exact hsym q p hq hp
    · rw [c1, c2]; exact h3 p q (by omega) hp

/-- Instance of `symmetric_reconstruction` on the symmetric matrix
`[[1,2,3],[2,4,5],[3,5,6]]`. -/
theorem symmetric_reconstruction_witness :
    (upper_triangle_as_packed_u (⟨3, 3, [1, 2, 3, 2, 4, 5, 3, 5, 6]⟩ : versa Int)
      >>= packed_u_as_symmetric) = .ok ⟨3, 3, [1, 2, 3, 2, 4, 5, 3, 5, 6]⟩ ∧
    (lower_triangle_as_packed_l (⟨3, 3, [1, 2, 3, 2, 4, 5, 3, 5, 6]⟩ : versa Int)
      >>= packed_l_as_symmetric) = .ok ⟨3, 3, [1, 2, 3, 2, 4, 5, 3, 5, 6]⟩ :=
  symmetric_reconstruction 3 (⟨3, 3, [1, 2, 3, 2, 4, 5, 3, 5, 6]⟩ : versa Int) (by decide)
    rfl rfl rfl (by
      intro i j hi hj
      interval_cases i <;> interval_cases j <;> rfl)

/-- Claim C18 at the failing input `n = 65536`.  The claim says that packing one triangle
of an exactly symmetric matrix `S` and expanding it with the mirrored conversion gives `S`
back.  On the all-zero `65536` by `65536` matrix, which is symmetric, both packing routines
succeed, with `65536*65537/2` elements, and both mirrored expansions then fail with the
size-mismatch assertion, because `symmetric_n_from_packed_size` evaluates `n*(n+1)/2` in
32-bit `unsigned`. -/
theorem symmetric_reconstruction_overflow :
    (upper_triangle_as_packed_u (⟨65536, 65536, List.replicate (65536 * 65536) 0⟩ : versa Int)
      >>= packed_u_as_symmetric) = .error .size_mismatch ∧
    (lower_triangle_as_packed_l (⟨65536, 65536, List.replicate (65536 * 65536) 0⟩ : versa Int)
      >>= packed_l_as_symmetric) = .error .size_mismatch := by
  have hlen : (List.replicate (65536 * 65536) (0 : Int)).length = 65536 * 65536 :=
    List.length_replicate _ _
  constructor
  · obtain ⟨out, h1, h2, _⟩ := upper_triangle_as_packed_u_spec
      (⟨65536, 65536, List.replicate (65536 * 65536) 0⟩ : versa Int) 65536 rfl rfl hlen
    rw [h1, ok_bind]
    exact (mirrored_fail_of_size out _ (by rw [h2]; exact size_overflow_65536)).1
  · obtain ⟨out, h1, h2, _⟩ := lower_triangle_as_packed_l_spec
      (⟨65536, 65536, List.replicate (65536 * 65536) 0⟩ : versa Int) 65536 rfl rfl hlen
    rw [h1, ok_bind]
    exact (mirrored_fail_of_size out _ (by rw [h2]; exact size_overflow_65536)).2


/-! ### Access logs of the mirrored expansions -/

theorem reads_append_read (l : List access) (k : Nat) :
    reads (l ++ [access.read k]) = reads l ++ [k] := by
  simp [reads, List.filterMap_append]

theorem reads_append_write (l : List access) (k : Nat) :
    reads (l ++ [access.write k]) = reads l := by
  simp [reads, List.filterMap_append]

theorem log_ok_read {α : Type} {n i_a : Nat} {result : List (Option α)} {l : List access}
    (h : log_ok n i_a result l) : log_ok n (i_a + 1) result (l ++ [access.read i_a]) := by
  refine ⟨?_, fun k hk => ?_, fun k v hk => ?_⟩
  · rw [reads_append_read, h.1, List.range_succ]
  · simp only [List.mem_append, List.mem_singleton] at hk
    rcases hk with hk | hk
    · exact h.2.1 k hk
    · cases hk
  · exact List.mem_append_left _ (h.2.2 k v hk)

theorem log_ok_write {α : Type} {n i_a : Nat} {result : List (Option α)} {l : List access}
    (h : log_ok n i_a result l) {k : Nat} (hk : k < n * n) (v : α) :
    log_ok n i_a (result.set k (some v)) (l ++ [access.write k]) := by
  refine ⟨?_, fun k' hk' => ?_, fun k' v' hk' => ?_⟩
  · rw [reads_append_write, h.1]
  · simp only [List.mem_append, List.mem_singleton] at hk'
    rcases hk' with hk' | hk'
    · exact h.2.1 k' hk'
    · cases hk'; exact hk
  · by_cases hc : k = k'
    · subst hc; simp
    · rw [List.getElem?_set, if_neg hc] at hk'
      exact List.mem_append_left _ (h.2.2 k' v' hk')

theorem log_ok_init (α : Type) (n : Nat) :
    log_ok n 0 (List.replicate (n * n) (none : Option α)) [] := by
  refine ⟨rfl, fun k hk => ?_, fun k v hk => ?_⟩
  · exact absurd hk (List.not_mem_nil _)
  · rw [List.getElem?_replicate] at hk
    split at hk <;> cases hk

/-- Forgetting the log of a traced loop gives the loop itself. -/
theorem for_loop_erase {σ τ : Type} (body_t : Nat → σ × τ → Except Error (σ × τ))
    (body : Nat → σ → Except Error σ)
    (h : ∀ i s l, Except.map Prod.fst (body_t i (s, l)) = body i s) :
    ∀ (count lo : Nat) (s : σ) (l : τ),
      Except.map Prod.fst (for_loop body_t lo count (s, l)) = for_loop body lo count s := by
  intro count
  induction count with
  | zero => intro lo s l; rfl
  | succ c ih =>
    intro lo s l
    have hb := h lo s l
    cases hx : body_t lo (s, l) with
    | error e =>
      rw [hx] at hb
      simp only [for_loop, hx, ← hb]
      rfl
    | ok p =>
      rw [hx] at hb
      obtain ⟨s1, l1⟩ := p
      simp only [for_loop, hx, ← hb]
      exact ih (lo + 1) s1 l1

theorem traced_erase {α : Type} (body : Nat → vars α → Except Error (vars α))
    (acc : vars α → List access) (i : Nat) (s : vars α) (l : List access) :
    Except.map Prod.fst (traced body acc i (s, l)) = body i s := by
  simp only [traced]
  cases body i s <;> rfl

theorem packed_u_as_symmetric_row_traced_erase {α : Type} (a : List α) (n i : Nat)
    (s : vars α) (l : List access) :
    Except.map Prod.fst (packed_u_as_symmetric_row_traced a n i (s, l)) =
      packed_u_as_symmetric_row a n i s := by
  simp only [packed_u_as_symmetric_row_traced, packed_u_as_symmetric_row]
  cases read a s.i_a with
  | error e => rfl
  | ok v =>
    simp only [ok_bind]
    cases write s.result (s.ij + i) v with
    | error e => rfl
    | ok res =>
      simp only [ok_bind]
      exact for_loop_erase _ _ (traced_erase _ _) _ _ _ _

theorem packed_l_as_symmetric_row_traced_erase {α : Type} (a : List α) (n i : Nat)
    (s : vars α) (l : List access) :
    Except.map Prod.fst (packed_l_as_symmetric_row_traced a n i (s, l)) =
      packed_l_as_symmetric_row a n i s := by
  simp only [packed_l_as_symmetric_row_traced, packed_l_as_symmetric_row]
  have h := for_loop_erase _ _ (traced_erase (mirror_cell a n) mirror_cell_accesses) i 0
    { s with ij := s.i0, jnpi := i } l
  cases hx : for_loop (traced (mirror_cell a n) mirror_cell_accesses) 0 i
      ({ s with ij := s.i0, jnpi := i }, l) with
  | error e =>
    rw [hx] at h
    rw [← h]
    rfl
  | ok p =>
    rw [hx] at h
    rw [← h]
    obtain ⟨s1, l1⟩ := p
    simp only [ok_bind, Except.map]
    cases read a s1.i_a with
    | error e => rfl
    | ok v =>
      simp only [ok_bind]
      cases write s1.result s1.ij v with
      | error e => rfl
      | ok res => rfl

/-- Forgetting the log of `packed_u_as_symmetric_traced` gives `packed_u_as_symmetric`. -/
theorem packed_u_as_symmetric_traced_erase {α : Type} (a : List α) :
    Except.map Prod.fst (packed_u_as_symmetric_traced a) = packed_u_as_symmetric a := by
  simp only [packed_u_as_symmetric_traced, packed_u_as_symmetric]
  cases symmetric_n_from_packed_size a.length with
  | error e => rfl
  | ok n =>
    simp only [ok_bind]
    have h := for_loop_erase _ _ (packed_u_as_symmetric_row_traced_erase a n) n 0
      ⟨0, 0, 0, 0, 0, List.replicate (n * n) none⟩ []
    cases hx : for_loop (packed_u_as_symmetric_row_traced a n) 0 n
        (⟨0, 0, 0, 0, 0, List.replicate (n * n) none⟩, []) with
    | error e =>
      rw [hx] at h
      rw [← h]
      rfl
    | ok p =>
      rw [hx] at h
      rw [← h]
      obtain ⟨s1, l1⟩ := p
      simp only [ok_bind, Except.map]
      cases freeze s1.result <;> rfl

/-- Forgetting the log of `packed_l_as_symmetric_traced` gives `packed_l_as_symmetric`. -/
theorem packed_l_as_symmetric_traced_erase {α : Type} (a : List α) :
    Except.map Prod.fst (packed_l_as_symmetric_traced a) = packed_l_as_symmetric a := by
  simp only [packed_l_as_symmetric_traced, packed_l_as_symmetric]
  cases symmetric_n_from_packed_size a.length with
  | error e => rfl
  | ok n =>
    simp only [ok_bind]
    have h := for_loop_erase _ _ (packed_l_as_symmetric_row_traced_erase a n) n 0
      ⟨0, 0, 0, 0, 0, List.replicate (n * n) none⟩ []
    cases hx : for_loop (packed_l_as_symmetric_row_traced a n) 0 n
        (⟨0, 0, 0, 0, 0, List.replicate (n * n) none⟩, []) with
    | error e =>
      rw [hx] at h
      rw [← h]
      rfl
    | ok p =>
      rw [hx] at h
      rw [← h]
      obtain ⟨s1, l1⟩ := p
      simp only [ok_bind, Except.map]
      cases freeze s1.result <;> rfl


theorem freeze_sound {α : Type} : ∀ (buf : List (Option α)) (out : List α),
    freeze buf = .ok out → buf = out.map some := by
  intro buf
  induction buf with
  | nil =>
    intro out h
    simp only [freeze, Except.ok.injEq] at h
    subst h; rfl
  | cons x t ih =>
    intro out h
    cases x with
    | none => simp [freeze] at h
    | some v =>
      simp only [freeze] at h
      cases hf : freeze t with
      | error e => rw [hf] at h; cases h
      | ok l =>
        rw [hf] at h
        simp only [Except.ok.injEq] at h
        subst h
        simp [← ih l hf]

/-- One traced step `r[ij++] = r[jnpi] = a[i_a++];` with both cells inside the result. -/
theorem mirror_cell_traced_step {α : Type} (a : List α) (n j : Nat) (t : vars α)
    (l : List access) (w : α) (hw : a[t.i_a]? = some w) (hj : t.jnpi < n * n)
    (hi : t.ij < n * n) (hlen : t.result.length = n * n)
    (hlog : log_ok n t.i_a t.result l) :
    ∃ st', traced (mirror_cell a n) mirror_cell_accesses j (t, l) = .ok st' ∧
      st'.1.i_a = t.i_a + 1 ∧ st'.1.ij = t.ij + 1 ∧ st'.1.jnpi = t.jnpi + n ∧
      st'.1.i0 = t.i0 ∧ st'.1.result.length = n * n ∧
      log_ok n st'.1.i_a st'.1.result st'.2 := by
  have hl1 : t.jnpi < t.result.length := by rw [hlen]; exact hj
  have hl2 : t.ij < (t.result.set t.jnpi (some w)).length := by
    rw [List.length_set, hlen]; exact hi
  refine ⟨(⟨t.i_a + 1, t.i0, t.ij + 1, t.jnpi + n, t.r,
    (t.result.set t.jnpi (some w)).set t.ij (some w)⟩,
    l ++ [access.read t.i_a, access.write t.jnpi, access.write t.ij]), ?_, rfl, rfl, rfl,
    rfl, by simp [hlen], ?_⟩
  · simp only [traced, mirror_cell, read_ok hw, ok_bind, write_ok w hl1, write_ok w hl2,
      mirror_cell_accesses]
  · have h := log_ok_write (log_ok_write (log_ok_read hlog) hj w) hi w
    simpa using h

theorem packed_u_as_symmetric_row_traced_spec {α : Type} (a : List α) (n i : Nat)
    (hi : i < n) (ha : a.length = n * (n + 1) / 2) (st : vars α × List access)
    (h1 : st.1.ij = i * n) (h2 : st.1.i_a = row_start_u n i)
    (h3 : st.1.result.length = n * n) (h4 : log_ok n st.1.i_a st.1.result st.2) :
    ∃ st', packed_u_as_symmetric_row_traced a n i st = .ok st' ∧ st'.1.ij = (i + 1) * n ∧
      st'.1.i_a = row_start_u n (i + 1) ∧ st'.1.result.length = n * n ∧
      log_ok n st'.1.i_a st'.1.result st'.2 ∧ st'.1.jnpi = n * n + i := by
  obtain ⟨s, l⟩ := st
  simp only at h1 h2 h3 h4
  obtain ⟨v, hv⟩ := getElem?_packed ha (offset_u_lt n i i le_rfl hi)
  rw [Nat.sub_self, Nat.add_zero, ← h2] at hv
  have hii : s.ij + i < n * n := by rw [h1]; exact idx_lt hi hi
  have hlt : s.ij + i < s.result.length := by rw [h3]; exact hii
  have hd0 := log_ok_write (log_ok_read h4) hii v
  obtain ⟨st', hs', hI⟩ := for_loop_ok (traced (mirror_cell a n) mirror_cell_accesses)
    (fun j t => t.1.ij = i * n + j ∧ t.1.jnpi = j * n + i ∧
      t.1.i_a = row_start_u n i + (j - i) ∧ t.1.result.length = n * n ∧
      log_ok n t.1.i_a t.1.result t.2)
    (n - (i + 1)) (i + 1)
    (⟨s.i_a + 1, s.i0, s.ij + i + 1, s.ij + i + n, s.r, s.result.set (s.ij + i) (some v)⟩,
      l ++ [access.read s.i_a, access.write (s.ij + i)])
    ⟨by simp only [h1]; omega, by
        simp only [h1]
        have e : (i + 1) * n = i * n + n := by ring
        omega,
      by simp only [h2]; omega, by simp [h3], by simpa using hd0⟩
    (fun j t hlo hj ⟨t1, t2, t3, t4, t5⟩ => by
      obtain ⟨t, lt⟩ := t
      simp only at t1 t2 t3 t4 t5
      have hjn : j < n := by omega
      have hij : i ≤ j := by omega
      obtain ⟨w, hw⟩ := getElem?_packed ha (offset_u_lt n i j hij hjn)
      rw [← t3] at hw
      obtain ⟨st', e, e1, e2, e3, _, e5, e6⟩ := mirror_cell_traced_step a n j t lt w hw
        (by rw [t2]; exact idx_lt hjn hi) (by rw [t1]; exact idx_lt hi hjn) t4 t5
      refine ⟨st', e, ?_, ?_, ?_, e5, e6⟩
      · rw [e2, t1]; omega
      · rw [e3, t2]
        have e : (j + 1) * n = j * n + n := by ring
        omega
      · rw [e1, t3]; omega)
  refine ⟨st', ?_, ?_, ?_, hI.2.2.2.1, hI.2.2.2.2, ?_⟩
  · simp only [packed_u_as_symmetric_row_traced, read_ok hv, ok_bind, write_ok v hlt]
    exact hs'
  · rw [hI.1]
    have e : (i + 1) * n = i * n + n := by ring
    omega
  · rw [hI.2.2.1]; simp only [row_start_u]; omega
  · rw [hI.2.1]
    have e : i + 1 + (n - (i + 1)) = n := by omega
    rw [e]

theorem packed_l_as_symmetric_row_traced_spec {α : Type} (a : List α) (n i : Nat)
    (hi : i < n) (ha : a.length = n * (n + 1) / 2) (st : vars α × List access)
    (h1 : st.1.i0 = i * n) (h2 : st.1.i_a = row_start_l i)
    (h3 : st.1.result.length = n * n) (h4 : log_ok n st.1.i_a st.1.result st.2) :
    ∃ st', packed_l_as_symmetric_row_traced a n i st = .ok st' ∧ st'.1.i0 = (i + 1) * n ∧
      st'.1.i_a = row_start_l (i + 1) ∧ st'.1.result.length = n * n ∧
      log_ok n st'.1.i_a st'.1.result st'.2 := by
  obtain ⟨s, l⟩ := st
  simp only at h1 h2 h3 h4
  obtain ⟨st1, hs1, hI⟩ := for_loop_ok (traced (mirror_cell a n) mirror_cell_accesses)
    (fun j t => t.1.ij = i * n + j ∧ t.1.jnpi = j * n + i ∧
      t.1.i_a = row_start_l i + j ∧ t.1.i0 = i * n ∧ t.1.result.length = n * n ∧
      log_ok n t.1.i_a t.1.result t.2)
    i 0 (⟨s.i_a, s.i0, s.i0, i, s.r, s.result⟩, l)
    ⟨by simp only [h1]; omega, by simp, by simp only [h2]; omega, h1, h3, h4⟩
    (fun j t hlo hj ⟨t1, t2, t3, t0, t4, t5⟩ => by
      obtain ⟨t, lt⟩ := t
      simp only at t1 t2 t3 t0 t4 t5
      have hji : j < i := by omega
      have hjn : j < n := by omega
      obtain ⟨w, hw⟩ := getElem?_packed ha (offset_l_lt n i j (by omega) hi)
      rw [← t3] at hw
      obtain ⟨st', e, e1, e2, e3, e4, e5, e6⟩ := mirror_cell_traced_step a n j t lt w hw
        (by rw [t2]; exact idx_lt hjn hi) (by rw [t1]; exact idx_lt hi hjn) t4 t5
      refine ⟨st', e, ?_, ?_, ?_, ?_, e5, e6⟩
      · rw [e2, t1]; omega
      · rw [e3, t2]
        have e : (j + 1) * n = j * n + n := by ring
        omega
      · rw [e1, t3]; omega
      · rw [e4, t0])
  obtain ⟨s1, l1⟩ := st1
  obtain ⟨i1, i2, i3, i4, i5, i6⟩ := hI
  simp only [Nat.zero_add] at i1 i2 i3 i4 i5 i6
  obtain ⟨v, hv⟩ := getElem?_packed ha (offset_l_lt n i i le_rfl hi)
  rw [← i3] at hv
  have hii : s1.ij < n * n := by rw [i1]; exact idx_lt hi hi
  have hlt : s1.ij < s1.result.length := by rw [i5]; exact hii
  have hd0 := log_ok_write (log_ok_read i6) hii v
  refine ⟨(⟨s1.i_a + 1, s1.i0 + n, s1.ij, s1.jnpi, s1.r, s1.result.set s1.ij (some v)⟩,
    l1 ++ [access.read s1.i_a, access.write s1.ij]), ?_, ?_, ?_, by simp [i5],
    by simpa using hd0⟩
  · simp only [packed_l_as_symmetric_row_traced]
    rw [show (({ s with ij := s.i0, jnpi := i } : vars α), l) =
      ((⟨s.i_a, s.i0, s.i0, i, s.r, s.result⟩ : vars α), l) from rfl, hs1]
    simp only [ok_bind, read_ok hv, write_ok v hlt]
  · show s1.i0 + n = (i + 1) * n
    rw [i4]; ring
  · show s1.i_a + 1 = row_start_l (i + 1)
    rw [i3]; simp only [row_start_l]; omega


/-- Accesses of `packed_u_as_symmetric` on a packed sequence of length `n(n+1)/2`,
`n ≤ 65535`: the run succeeds with the result of the routine, the reads of the packed
input are `0, 1, ..., n(n+1)/2 - 1` in this order, and the written cells of the result are
exactly the indices below `n*n`.  The rows loop leaves `jnpi = n*n + (n-1)`, outside the
result, and no access is made there. -/
theorem packed_u_as_symmetric_traced_spec {α : Type} (a : List α) (n : Nat)
    (hn : n ≤ 65535) (ha : a.length = n * (n + 1) / 2) :
    ∃ d log, packed_u_as_symmetric_traced a = .ok (d, log) ∧
      packed_u_as_symmetric a = .ok d ∧ d.data.length = n * n ∧
      reads log = List.range (n * (n + 1) / 2) ∧
      (∀ k, access.write k ∈ log ↔ k < n * n) ∧
      (0 < n → ∃ st, for_loop (packed_u_as_symmetric_row_traced a n) 0 n
        (⟨0, 0, 0, 0, 0, List.replicate (n * n) none⟩, []) = .ok st ∧ st.2 = log ∧
        st.1.jnpi = n * n + (n - 1) ∧ access.write st.1.jnpi ∉ log) := by
  obtain ⟨st, hs, hI⟩ := for_loop_ok (packed_u_as_symmetric_row_traced a n)
    (fun i t => t.1.ij = i * n ∧ t.1.i_a = row_start_u n i ∧ t.1.result.length = n * n ∧
      log_ok n t.1.i_a t.1.result t.2 ∧ (0 < i → t.1.jnpi = n * n + (i - 1)))
    n 0 (⟨0, 0, 0, 0, 0, List.replicate (n * n) none⟩, [])
    ⟨by simp, by simp [row_start_u], by simp, log_ok_init α n, fun h => absurd h (by omega)⟩
    (fun i t _ hi ⟨t1, t2, t3, t4, _⟩ => by
      obtain ⟨st', e, e1, e2, e3, e4, e5⟩ :=
        packed_u_as_symmetric_row_traced_spec a n i (by omega) ha t t1 t2 t3 t4
      exact ⟨st', e, e1, e2, e3, e4, fun _ => by rw [e5]; rfl⟩)
  obtain ⟨d, hd, _, _, hlen, _⟩ := packed_u_as_symmetric_spec a n hn ha
  have her := packed_u_as_symmetric_traced_erase a
  rw [hd] at her
  obtain ⟨s1, l1⟩ := st
  obtain ⟨_, i2, i3, i4, i5⟩ := hI
  simp only [Nat.zero_add] at i2 i3 i4 i5
  have hrun : packed_u_as_symmetric_traced a =
      (freeze s1.result >>= fun data => .ok (⟨n, n, data⟩, l1)) := by
    simp only [packed_u_as_symmetric_traced, ha, symmetric_n_from_packed_size_ok n hn,
      ok_bind, hs]
  cases hf : freeze s1.result with
  | error e =>
    rw [hrun, hf] at her
    cases her
  | ok out =>
    rw [hf, ok_bind] at hrun
    rw [hrun] at her
    have hdd : (⟨n, n, out⟩ : versa α) = d := by
      simpa [Except.map] using her
    have hsome := freeze_sound _ _ hf
    have hol : out.length = n * n := by
      have := congrArg List.length hsome
      rw [List.length_map, i3] at this
      exact this.symm
    have hw : ∀ k, access.write k ∈ l1 ↔ k < n * n := fun k =>
      ⟨i4.2.1 k, fun hk => by
        have hk' : k < out.length := by rw [hol]; exact hk
        refine i4.2.2 k out[k] ?_
        rw [hsome, List.getElem?_map, List.getElem?_eq_getElem hk']; rfl⟩
    refine ⟨d, l1, by rw [hrun, hdd], hd, hlen, ?_, hw, fun h0 => ⟨(s1, l1), hs, rfl, ?_, ?_⟩⟩
    · rw [i4.1, i2, row_start_u_self]
    · exact i5 h0
    · show access.write s1.jnpi ∉ l1
      rw [hw, i5 h0]; omega

/-- Accesses of `packed_l_as_symmetric` on a packed sequence of length `n(n+1)/2`,
`n ≤ 65535`: the run succeeds with the result of the routine, the reads of the packed
input are `0, 1, ..., n(n+1)/2 - 1` in this order, and the written cells of the result are
exactly the indices below `n*n`. -/
theorem packed_l_as_symmetric_traced_spec {α : Type} (a : List α) (n : Nat)
    (hn : n ≤ 65535) (ha : a.length = n * (n + 1) / 2) :
    ∃ d log, packed_l_as_symmetric_traced a = .ok (d, log) ∧
      packed_l_as_symmetric a = .ok d ∧ d.data.length = n * n ∧
      reads log = List.range (n * (n + 1) / 2) ∧
      (∀ k, access.write k ∈ log ↔ k < n * n) := by
  obtain ⟨st, hs, hI⟩ := for_loop_ok (packed_l_as_symmetric_row_traced a n)
    (fun i t => t.1.i0 = i * n ∧ t.1.i_a = row_start_l i ∧ t.1.result.length = n * n ∧
      log_ok n t.1.i_a t.1.result t.2)
    n 0 (⟨0, 0, 0, 0, 0, List.replicate (n * n) none⟩, [])
    ⟨by simp, by simp [row_start_l], by simp, log_ok_init α n⟩
    (fun i t _ hi ⟨t1, t2, t3, t4⟩ =>
      packed_l_as_symmetric_row_traced_spec a n i (by omega) ha t t1 t2 t3 t4)
  obtain ⟨d, hd, _, _, hlen, _⟩ := packed_l_as_symmetric_spec a n hn ha
  have her := packed_l_as_symmetric_traced_erase a
  rw [hd] at her
  obtain ⟨s1, l1⟩ := st
  obtain ⟨_, i2, i3, i4⟩ := hI
  simp only [Nat.zero_add] at i2 i3 i4
  have hrun : packed_l_as_symmetric_traced a =
      (freeze s1.result >>= fun data => .ok (⟨n, n, data⟩, l1)) := by
    simp only [packed_l_as_symmetric_traced, ha, symmetric_n_from_packed_size_ok n hn,
      ok_bind, hs]
  cases hf : freeze s1.result with
  | error e =>
    rw [hrun, hf] at her
    cases her
  | ok out =>
    rw [hf, ok_bind] at hrun
    rw [hrun] at her
    have hdd : (⟨n, n, out⟩ : versa α) = d := by
      simpa [Except.map] using her
    have hsome := freeze_sound _ _ hf
    have hol : out.length = n * n := by
      have := congrArg List.length hsome
      rw [List.length_map, i3] at this
      exact this.symm
    refine ⟨d, l1, by rw [hrun, hdd], hd, hlen, ?_, fun k =>
      ⟨i4.2.1 k, fun hk => ?_⟩⟩
    · rw [i4.1, i2, row_start_l_eq]
    · have hk' : k < out.length := by rw [hol]; exact hk
      refine i4.2.2 k out[k] ?_
      rw [hsome, List.getElem?_map, List.getElem?_eq_getElem hk']; rfl


/-- Index safety and full initialisation of the mirrored expansions, within the dimensions
the dimension recovery accepts: for every `n ≤ 65535` and every packed input `P` of length
`n(n+1)/2`, the traced runs of `packed_u_as_symmetric` and `packed_l_as_symmetric` succeed
with the result of the routine, an `n*n` buffer with no unwritten entry; the reads of `P`
are the indices `0, 1, ..., n(n+1)/2 - 1`, each exactly once; an index of the result is
written if and only if it is below `n*n`.  In `packed_u_as_symmetric` the rows loop leaves
`jnpi = n*n + (n-1)`, outside the result, and no write is made at that index. -/
theorem mirrored_expansion_accesses {α : Type} (n : Nat) (P : List α) (hn : n ≤ 65535)
    (hP : P.length = n * (n + 1) / 2) :
    (∃ d log, packed_u_as_symmetric_traced P = .ok (d, log) ∧
      packed_u_as_symmetric P = .ok d ∧ d.data.length = n * n ∧
      reads log = List.range (n * (n + 1) / 2) ∧
      (∀ k, access.write k ∈ log ↔ k < n * n) ∧
      (0 < n → ∃ st, for_loop (packed_u_as_symmetric_row_traced P n) 0 n
        (⟨0, 0, 0, 0, 0, List.replicate (n * n) none⟩, []) = .ok st ∧ st.2 = log ∧
        st.1.jnpi = n * n + (n - 1) ∧ access.write st.1.jnpi ∉ log)) ∧
    (∃ d log, packed_l_as_symmetric_traced P = .ok (d, log) ∧
      packed_l_as_symmetric P = .ok d ∧ d.data.length = n * n ∧
      reads log = List.range (n * (n + 1) / 2) ∧
      (∀ k, access.write k ∈ log ↔ k < n * n)) :=
  ⟨packed_u_as_symmetric_traced_spec P n hn hP, packed_l_as_symmetric_traced_spec P n hn hP⟩

/-- Instance of `mirrored_expansion_accesses` on the packed sequence `[1, 2, 3]` of a
`2` by `2` matrix. -/
theorem mirrored_expansion_accesses_witness :
    (∃ d log, packed_u_as_symmetric_traced [(1 : Int), 2, 3] = .ok (d, log) ∧
      packed_u_as_symmetric [(1 : Int), 2, 3] = .ok d ∧ d.data.length = 2 * 2 ∧
      reads log = List.range (2 * (2 + 1) / 2) ∧
      (∀ k, access.write k ∈ log ↔ k < 2 * 2) ∧
      (0 < 2 → ∃ st, for_loop (packed_u_as_symmetric_row_traced [(1 : Int), 2, 3] 2) 0 2
        (⟨0, 0, 0, 0, 0, List.replicate (2 * 2) none⟩, []) = .ok st ∧ st.2 = log ∧
        st.1.jnpi = 2 * 2 + (2 - 1) ∧ access.write st.1.jnpi ∉ log)) ∧
    (∃ d log, packed_l_as_symmetric_traced [(1 : Int), 2, 3] = .ok (d, log) ∧
      packed_l_as_symmetric [(1 : Int), 2, 3] = .ok d ∧ d.data.length = 2 * 2 ∧
      reads log = List.range (2 * (2 + 1) / 2) ∧
      (∀ k, access.write k ∈ log ↔ k < 2 * 2)) :=
  mirrored_expansion_accesses 2 [(1 : Int), 2, 3] (by decide) rfl

/-- The access logs of the two mirrored expansions on the packed sequence `[1, 2, 3]`. -/
theorem mirrored_expansion_logs :
    packed_u_as_symmetric_traced [(1 : Int), 2, 3] = .ok (⟨2, 2, [1, 2, 2, 3]⟩,
      [.read 0, .write 0, .read 1, .write 2, .write 1, .read 2, .write 3]) ∧
    packed_l_as_symmetric_traced [(1 : Int), 2, 3] = .ok (⟨2, 2, [1, 2, 2, 3]⟩,
      [.read 0, .write 0, .read 1, .write 1, .write 2, .read 2, .write 3]) := by
  have hsz : symmetric_n_from_packed_size [(1 : Int), 2, 3].length = .ok 2 :=
    symmetric_n_from_packed_size_ok 2 (by decide)
  constructor
  · simp only [packed_u_as_symmetric_traced, hsz, ok_bind]
    rfl
  · simp only [packed_l_as_symmetric_traced, hsz, ok_bind]
    rfl

/-- Claim C19 at the failing input `n = 65536`.  The claim says that for every `n` and
every packed input of length `n(n+1)/2` the mirrored expansions read every index of the
input exactly once and write every one of the `n*n` entries of the result.  On a packed
input of `65536*65537/2` elements both routines fail with the size-mismatch assertion
before any access, because `symmetric_n_from_packed_size` evaluates `n*(n+1)/2` in 32-bit
`unsigned`: nothing is read, nothing is written and no result is returned. -/
theorem mirrored_expansion_accesses_overflow :
    (List.replicate (65536 * (65536 + 1) / 2) (0 : Int)).length = 65536 * (65536 + 1) / 2 ∧
    packed_u_as_symmetric_traced (List.replicate (65536 * (65536 + 1) / 2) (0 : Int))
      = .error .size_mismatch ∧
    packed_l_as_symmetric_traced (List.replicate (65536 * (65536 + 1) / 2) (0 : Int))
      = .error .size_mismatch ∧
    packed_u_as_symmetric (List.replicate (65536 * (65536 + 1) / 2) (0 : Int))
      = .error .size_mismatch ∧
    packed_l_as_symmetric (List.replicate (65536 * (65536 + 1) / 2) (0 : Int))
      = .error .size_mismatch := by
  have hlen : (List.replicate (65536 * (65536 + 1) / 2) (0 : Int)).length
      = 65536 * (65536 + 1) / 2 := List.length_replicate _ _
  have hsz : symmetric_n_from_packed_size
      (List.replicate (65536 * (65536 + 1) / 2) (0 : Int)).length = .error .size_mismatch := by
    rw [hlen]; exact size_overflow_65536
  refine ⟨hlen, ?_, ?_, (mirrored_fail_of_size _ _ hsz).1, (mirrored_fail_of_size _ _ hsz).2⟩
  · simp only [packed_u_as_symmetric_traced, hsz, error_bind]
  · simp only [packed_l_as_symmetric_traced, hsz, error_bind]

end scitbx.matrix
